import Mathlib

/-!
# parglm: the blockwise IRLS driver of `src/parallel_glm.cpp`

A shallow embedding of `parallelglm_class_QR` (the block data generator
`glm_qr_data_generator::get_chunk`, the block task `worker`, the two dispatch
loops `set_eta_n_mu` and `get_R_f`, and the driver `compute`) together with
the properties the specification states about them.

Conventions of the embedding.

* Scalars (`double`) are exact rationals; a statement "in exact arithmetic"
  is a statement about this model. The rationals have no NaN and no
  infinity, and their division by zero is zero; which rows `get_chunk` keeps
  and which values it writes is therefore stated on a second embedding of
  that method, `fp.get_chunk`, whose scalar type and scalar operations are
  parameters (`fp.arith`), with an arithmetic of numbers, infinities and NaN
  (`fp.ieee`) for the concrete inputs.
* `arma::uword` is an unsigned 64 bit integer: index arithmetic is done
  modulo `2 ^ 64` (`uadd`, `usub`).
* `arma::vec` is a list, `arma::mat` is its list of columns (Armadillo stores
  matrices column by column) together with the row count.
* What the translation unit only calls is a parameter: the family object
  (`glm_base`), and the numeric kernels (`kernels`): `arma::sqrt`,
  `arma::solve`, `qr_parallel::compute` and `R_F::R_rev_piv`.
* Tasks handed to the thread pool run at submission; every submission and
  every kernel call is recorded in an event list. A block task reads nothing
  that a task of its round writes, so its value does not depend on when it
  runs; the order in which the tasks of a round finish is a parameter of
  `join_scheduled`, the join loop of `set_eta_n_mu` run against a pool whose
  tasks finish in that order.
* The two dispatch loops get `n + 1` passes of fuel, which is enough whenever
  the observation count `n` is below `2 ^ 63`; a loop that needs more ends the
  call in `failure.out_of_fuel`.
* A failure (`Rcpp::stop`, an exception of a kernel, the dereference of an
  empty `unique_ptr`) ends the call; it is returned with the events recorded
  up to it.

The file has four parts: the embedding, the definitions the statements use
(among them the exact-arithmetic contracts of the kernels), the lemmas, and
one theorem per property.
-/

namespace parglm

/-! ## Machine integers -/

/-- Number of values of `arma::uword`. -/
def uword_size : Nat := 2 ^ 64

/-- Addition of two `uword`s. -/
def uadd (a b : Nat) : Nat := (a + b) % uword_size

/-- Subtraction of two `uword`s (wraps below zero). -/
def usub (a b : Nat) : Nat := (a % uword_size + uword_size - b % uword_size) % uword_size

/-! ## Vectors and matrices -/

/-- An `arma::vec`. -/
abbrev vec := List ℚ

/-- An `arma::mat`: the row count and the columns, in storage order. -/
structure mat where
  n_rows : Nat
  cols : List (List ℚ)
deriving DecidableEq

namespace mat

/-- Column count. -/
def n_cols (A : mat) : Nat := A.cols.length

/-- Representation invariant of a matrix: every column has `n_rows` entries. -/
def wf (A : mat) : Prop := ∀ c ∈ A.cols, c.length = A.n_rows

/-- Column `j` (`A.col(j)`). -/
def col (A : mat) (j : Nat) : vec := A.cols.getD j []

/-- Row `i`, read across the columns. -/
def row (A : mat) (i : Nat) : List ℚ := A.cols.map (fun c => c.getD i 0)

/-- The rows, top to bottom. -/
def rows (A : mat) : List (List ℚ) := (List.range A.n_rows).map A.row

/-- Transpose (`A.t()`, `arma::inplace_trans`). -/
def t (A : mat) : mat := ⟨A.cols.length, A.rows⟩

/-- Matrix times vector: entry `i` is the sum over `j` of `A(i, j) * v(j)`. -/
def mulVec (A : mat) (v : vec) : vec :=
  (List.range A.n_rows).map (fun i => (List.zipWith (fun a b => a * b) (A.row i) v).sum)

/-- The matrix with no rows and `p` columns. -/
def empty (p : Nat) : mat := ⟨0, List.replicate p []⟩

/-- Row-wise concatenation: the rows of `A` followed by the rows of `B`. -/
def join_cols (A B : mat) : mat :=
  ⟨A.n_rows + B.n_rows, List.zipWith (fun a b => a ++ b) A.cols B.cols⟩

end mat

/-- Inner product of two vectors. -/
def dot (a b : vec) : ℚ := (List.zipWith (fun x y => x * y) a b).sum

/-- The view `arma::vec(v.begin() + i_start, n, false)`. -/
def view (v : List α) (i_start n : Nat) : List α := (v.drop i_start).take n

/-- Writing a block through a view that aliases `v` from index `i_start` on. -/
def write_view (v : List α) (i_start : Nat) (blk : List α) : List α :=
  v.take i_start ++ blk ++ v.drop (i_start + blk.length)

/-- Element selection `v(idx)` with an index vector. -/
def elem (v : vec) (idx : List Nat) : vec := idx.map (fun i => v.getD i 0)

/-! ## The family interface and the numeric kernels -/

/-- The family object `glm_base` (family.h). The member `initialise` is the
C++ member `glm_base::initialize`. -/
structure glm_base where
  initialise : ℚ → ℚ → ℚ
  linkinv : ℚ → ℚ
  mu_eta : ℚ → ℚ
  variance : ℚ → ℚ
  dev_resids : ℚ → ℚ → ℚ → ℚ

/-- What a generator hands to the aggregator (`qr_work_chunk`). -/
structure qr_work_chunk where
  X : mat
  Y : vec
  dev : mat
deriving DecidableEq

/-- The global factorization result (`R_F`). -/
structure R_F where
  R : mat
  pivot : List Nat
  F : mat
  dev : mat
deriving DecidableEq

/-- The numeric kernels the driver calls: `arma::sqrt`, `arma::solve` with
`solve_opts::no_approx` (`none` when no solution is found),
`qr_parallel::compute` on the work chunks of the submitted generators
(`none` when a LAPACK routine reports failure) and `R_F::R_rev_piv`. -/
structure kernels where
  sqrt : ℚ → ℚ
  solve : mat → vec → Option vec
  qr_compute : List qr_work_chunk → Option R_F
  R_rev_piv : R_F → mat

/-! ## The data holder -/

/-- The shared state `data_holder_base`. `beta` is the vector the member
pointer `beta` points to. -/
structure data_holder_base where
  beta : vec
  X : mat
  Ys : vec
  weights : vec
  offsets : vec
  eta : vec
  mu : vec
  max_threads : Nat
  p : Nat
  n : Nat
  family : glm_base
  block_size : Nat

/-- The constructor of `data_holder_base`: `eta` and `mu` get `Ys.n_elem`
entries. -/
def data_holder_base.mk0 (X : mat) (Ys weights offsets : vec) (max_threads p n : Nat)
    (family : glm_base) (block_size : Nat) : data_holder_base :=
  { beta := [], X := X, Ys := Ys, weights := weights, offsets := offsets,
    eta := List.replicate Ys.length 0, mu := List.replicate Ys.length 0,
    max_threads := max_threads, p := p, n := n, family := family,
    block_size := block_size }

/-! ## The block data generator -/

/-- The constant `glm_qr_data_generator::zero_eps`. -/
def zero_eps : ℚ := 1 / 10 ^ 100

/-- One entry of the 0/1 vector
`(weight > 0) % ((-zero_eps < mu_eta_val) + (mu_eta_val < zero_eps) != 2)`. -/
def good_flag (weight mu_eta_val : ℚ) : Nat :=
  (if weight > 0 then 1 else 0) *
    (if (if -zero_eps < mu_eta_val then 1 else 0) + (if mu_eta_val < zero_eps then 1 else 0) ≠ 2
      then 1 else 0)

/-- The index vector `arma::find(flags)`: the positions of the non-zero
entries, in increasing order. -/
def find (flags : List Nat) : List Nat :=
  (List.range flags.length).filter (fun i => flags.getD i 0 ≠ 0)

/-- The index vector `good` of `get_chunk`, relative to the start of the block. -/
def good_rows (data : data_holder_base) (i_start i_end : Nat) : List Nat :=
  let n := uadd (usub i_end i_start) 1
  let weight := view data.weights i_start n
  let eta := view data.eta i_start n
  let mu_eta_val := eta.map data.family.mu_eta
  find (List.zipWith good_flag weight mu_eta_val)

/-- The method `glm_qr_data_generator::get_chunk` of the generator built with
`(i_start, i_end, data)`. `X.each_row() %= w` multiplies column `k` of the
`p` by `good.n_elem` block by `w(k)`. -/
def get_chunk (K : kernels) (data : data_holder_base) (i_start i_end : Nat) : qr_work_chunk :=
  let n := uadd (usub i_end i_start) 1
  let y := view data.Ys i_start n
  let weight := view data.weights i_start n
  let offset := view data.offsets i_start n
  let X : mat := ⟨data.p, view data.X.cols i_start n⟩
  let eta := view data.eta i_start n
  let mu := view data.mu i_start n
  let mu_eta_val := eta.map data.family.mu_eta
  let good := good_rows data i_start i_end
  let mu := elem mu good
  let eta := elem eta good
  let mu_eta_val := elem mu_eta_val good
  let var := mu.map data.family.variance
  let z := List.zipWith (fun a b => a + b)
    (List.zipWith (fun a b => a - b) eta (elem offset good))
    (List.zipWith (fun a b => a / b) (List.zipWith (fun a b => a - b) (elem y good) mu) mu_eta_val)
  let w := (List.zipWith (fun a b => a / b)
    (List.zipWith (fun a b => a * b) (elem weight good) (mu_eta_val.map (fun m => m ^ 2))) var).map
      K.sqrt
  let X : mat := ⟨X.n_rows, good.map X.col⟩
  let X : mat := ⟨X.n_rows, List.zipWith (fun c wk => c.map (fun x => x * wk)) X.cols w⟩
  let X := X.t
  let z := List.zipWith (fun a b => a * b) z w
  { X := X, Y := z, dev := ⟨1, [[0]]⟩ }

/-! ## The block task -/

/-- The call operator of `worker(first_it, data, i_start, i_end)`: the state
after the task and the value it returns (the block's deviance). -/
def worker (first_it : Bool) (data : data_holder_base) (i_start i_end : Nat) :
    data_holder_base × ℚ :=
  let n := uadd (usub i_end i_start) 1
  let X := view data.X.cols i_start n
  let y := view data.Ys i_start n
  let weight := view data.weights i_start n
  let offset := view data.offsets i_start n
  let eta :=
    if first_it then List.zipWith data.family.initialise y weight
    else List.zipWith (fun a b => a + b) (X.map (fun c => dot data.beta c)) offset
  let mu := eta.map data.family.linkinv
  let dev := (List.zipWith3 data.family.dev_resids y mu weight).foldl (fun acc d => acc + d) 0
  ({ data with eta := write_view data.eta i_start eta, mu := write_view data.mu i_start mu }, dev)

/-! ## Events, failures and the two dispatch loops -/

/-- What the driver hands to the thread pool and to the numeric kernels, and
what it prints. -/
inductive event
  | worker_task (first_it : Bool) (i_start i_end : Nat)
  | generator (i_start i_end : Nat)
  | qr_factorization
  | solve
  | trace_out (i : Nat) (beta_old beta : vec) (delta_norm dev : ℚ)
deriving DecidableEq

/-- The ways a call of `compute` ends without a result. -/
inductive failure
  | invalid_input (msg : String)
  | kernel_failure
  | null_dereference
  | out_of_fuel
deriving DecidableEq

/-- A step of the driver: a value, or a failure with the events recorded up
to it. -/
abbrev run (α : Type) := Except (failure × List event) α

/-- The state of the driver inside `compute`. -/
structure fit_state where
  data : data_holder_base
  dev : ℚ
  R_f_out : Option R_F
  events : List event

/-- The dispatch loop of `set_eta_n_mu`; `fuel` bounds the number of passes.
Returns the state, the futures in submission order and the events. -/
def set_eta_n_mu_loop (first_it : Bool) (n : Nat) :
    Nat → Nat → data_holder_base → List ℚ → List event →
      Option (data_holder_base × List ℚ × List event)
  | fuel, i_start, data, futures, ev =>
    if i_start < n then
      match fuel with
      | 0 => none
      | fuel + 1 =>
        let i_end := min (usub n 1) (usub (uadd i_start data.block_size) 1)
        let r := worker first_it data i_start i_end
        set_eta_n_mu_loop first_it n fuel (uadd i_end 1) r.1 (futures ++ [r.2])
          (ev ++ [event.worker_task first_it i_start i_end])
    else some (data, futures, ev)

/-- The join loop of `set_eta_n_mu`: the futures are taken from the back. -/
def join_futures (futures : List ℚ) : ℚ := futures.foldr (fun f dev => dev + f) 0

/-- The function `set_eta_n_mu`. -/
def set_eta_n_mu (first_it : Bool) (s : fit_state) : run (fit_state × ℚ) :=
  let n := s.data.X.n_cols
  match set_eta_n_mu_loop first_it n (n + 1) 0 s.data [] s.events with
  | none => .error (failure.out_of_fuel, s.events)
  | some (data, futures, ev) => .ok ({ s with data := data, events := ev }, join_futures futures)

/-- The dispatch loop of `get_R_f`: the generators submitted to the pool, in
submission order, and the events. -/
def get_R_f_loop (n block_size : Nat) :
    Nat → Nat → List (Nat × Nat) → List event → Option (List (Nat × Nat) × List event)
  | fuel, i_start, gens, ev =>
    if i_start < n then
      match fuel with
      | 0 => none
      | fuel + 1 =>
        let i_end := min (usub n 1) (usub (uadd i_start block_size) 1)
        get_R_f_loop n block_size fuel (uadd i_end 1) (gens ++ [(i_start, i_end)])
          (ev ++ [event.generator i_start i_end])
    else some (gens, ev)

/-- The chunks the pool computes from its generators. -/
def chunks_of (K : kernels) (data : data_holder_base) (gens : List (Nat × Nat)) :
    List qr_work_chunk :=
  gens.map (fun g => get_chunk K data g.1 g.2)

/-- The function `get_R_f`. -/
def get_R_f (K : kernels) (s : fit_state) : run (fit_state × R_F) :=
  let n := s.data.X.n_cols
  match get_R_f_loop n s.data.block_size (n + 1) 0 [] s.events with
  | none => .error (failure.out_of_fuel, s.events)
  | some (gens, ev) =>
    let ev := ev ++ [event.qr_factorization]
    match K.qr_compute (chunks_of K s.data gens) with
    | none => .error (failure.kernel_failure, ev)
    | some rf => .ok ({ s with events := ev }, rf)

/-! ## The driver -/

/-- The result `parallelglm_res`. -/
structure parallelglm_res where
  coefficients : vec
  R_F : R_F
  dev : ℚ
  n_iter : Nat
  conv : Bool
deriving DecidableEq

/-- A call of `arma::solve(A, b, solve_opts::no_approx)`. -/
def solve_step (K : kernels) (A : mat) (b : vec) (ev : List event) : run (vec × List event) :=
  match K.solve A b with
  | none => .error (failure.kernel_failure, ev ++ [event.solve])
  | some x => .ok (x, ev ++ [event.solve])

/-- The Euclidean norm `arma::norm(v, 2)`. -/
def norm2 (K : kernels) (v : vec) : ℚ := K.sqrt ((v.map (fun x => x ^ 2)).sum)

/-- The statement `if(i == 0) dev = set_eta_n_mu(data, true, pool);`. -/
def first_deviance (i : Nat) (s : fit_state) : run fit_state :=
  if i = 0 then
    match set_eta_n_mu true s with
    | .error e => .error e
    | .ok (s, dev) => .ok { s with dev := dev }
  else .ok s

/-- The factorization and the two solves: `R_f_out.reset(new R_F(get_R_f(data, pool)))`,
`R = R_f_out->R_rev_piv()`, `beta = solve(R.t(), R.t() * R_f_out->F.col(0))`,
`beta = solve(R, beta)`. -/
def update_beta (K : kernels) (s : fit_state) : run fit_state :=
  match get_R_f K s with
  | .error e => .error e
  | .ok (s, rf) =>
    match solve_step K (K.R_rev_piv rf).t ((K.R_rev_piv rf).t.mulVec (rf.F.col 0)) s.events with
    | .error e => .error e
    | .ok (u, ev) =>
      match solve_step K (K.R_rev_piv rf) u ev with
      | .error e => .error e
      | .ok (beta, ev) =>
        .ok { s with data := { s.data with beta := beta }, R_f_out := some rf, events := ev }

/-- The trace output of one pass. -/
def trace_step (K : kernels) (trace : Bool) (i : Nat) (beta_old : vec) (s : fit_state) :
    fit_state :=
  if trace then
    { s with events := s.events ++
        [event.trace_out i beta_old s.data.beta
          (norm2 K (List.zipWith (fun a b => a - b) s.data.beta beta_old)) s.dev] }
  else s

/-- The body of the iteration loop of `compute` up to the convergence test:
the state after the pass and `devold`. -/
def iteration (K : kernels) (trace : Bool) (i : Nat) (s : fit_state) : run (fit_state × ℚ) :=
  match first_deviance i s with
  | .error e => .error e
  | .ok s1 =>
    match update_beta K s1 with
    | .error e => .error e
    | .ok s2 =>
      match set_eta_n_mu false (trace_step K trace i s.data.beta s2) with
      | .error e => .error e
      | .ok (s3, dev) => .ok ({ s3 with dev := dev }, s2.dev)

/-- The convergence test `std::abs(dev - devold) / (.1 + std::abs(dev)) < tol`. -/
def converged (tol dev devold : ℚ) : Bool :=
  decide (|dev - devold| / (1 / 10 + |dev|) < tol)

/-- The loop `for(i = 0; i < it_max; ++i)` of `compute`, with `remaining`
passes left. Returns the state and the value of `i` on exit. -/
def irls_loop (K : kernels) (tol : ℚ) (trace : Bool) :
    Nat → Nat → fit_state → run (fit_state × Nat)
  | 0, i, s => .ok (s, i)
  | remaining + 1, i, s =>
    match iteration K trace i s with
    | .error e => .error e
    | .ok (s, devold) =>
      if converged tol s.dev devold then .ok (s, i)
      else irls_loop K tol trace remaining (i + 1) s

/-- The function `parallelglm_class_QR::compute`: the result and the events
of the call, or the failure and the events up to it. -/
def compute (K : kernels) (X : mat) (beta0 Ys weights offsets : vec) (family : glm_base)
    (tol : ℚ) (nthreads : Nat) (it_max : Nat) (trace : Bool) (block_size : Nat) :
    run (parallelglm_res × List event) :=
  let p := X.n_rows
  let n := X.n_cols
  let data := data_holder_base.mk0 X Ys weights offsets nthreads p n family block_size
  if p ≠ beta0.length then .error (failure.invalid_input "Invalid `beta0`", [])
  else if n ≠ weights.length then .error (failure.invalid_input "Invalid `weights`", [])
  else if n ≠ offsets.length then .error (failure.invalid_input "Invalid `offsets`", [])
  else if n ≠ Ys.length then .error (failure.invalid_input "Invalid `Ys`", [])
  else
    let s : fit_state :=
      { data := { data with beta := beta0 }, dev := 0, R_f_out := none, events := [] }
    match irls_loop K tol trace it_max 0 s with
    | .error e => .error e
    | .ok (s, i) =>
      match s.R_f_out with
      | none => .error (failure.null_dereference, s.events)
      | some rf =>
        .ok ({ coefficients := s.data.beta, R_F := rf, dev := s.dev,
               n_iter := uadd i 1, conv := decide (i < it_max) }, s.events)


/-! ## Auxiliary definitions for the statements -/

/-- A failure other than an input error. -/
def failure.internal : failure → Prop
  | failure.invalid_input _ => False
  | _ => True

/-- The four length checks of `compute`. -/
def valid_input (X : mat) (beta0 Ys weights offsets : vec) : Prop :=
  beta0.length = X.n_rows ∧ weights.length = X.n_cols ∧ offsets.length = X.n_cols ∧
    Ys.length = X.n_cols

instance (X : mat) (beta0 Ys weights offsets : vec) :
    Decidable (valid_input X beta0 Ys weights offsets) := by
  unfold valid_input; infer_instance

/-- The state of the driver when the iteration loop is entered. -/
def initial_state (X : mat) (beta0 Ys weights offsets : vec) (family : glm_base)
    (nthreads block_size : Nat) : fit_state :=
  { data := { data_holder_base.mk0 X Ys weights offsets nthreads X.n_rows X.n_cols family
                block_size with beta := beta0 },
    dev := 0, R_f_out := none, events := [] }

/-- What `compute` returns from the state and the counter the loop ends with. -/
def finish (it_max : Nat) (r : fit_state × Nat) : run (parallelglm_res × List event) :=
  match r.1.R_f_out with
  | none => .error (failure.null_dereference, r.1.events)
  | some rf =>
    .ok ({ coefficients := r.1.data.beta, R_F := rf, dev := r.1.dev,
           n_iter := uadd r.2 1, conv := decide (r.2 < it_max) }, r.1.events)

/-- The state after `k` passes of the loop body of `compute`, run without
the convergence test. -/
def passes (K : kernels) (trace : Bool) (s0 : fit_state) : Nat → run fit_state
  | 0 => .ok s0
  | k + 1 =>
    match passes K trace s0 k with
    | .error e => .error e
    | .ok s =>
      match iteration K trace k s with
      | .error e => .error e
      | .ok r => .ok r.1

/-- The deviance sequence of a fit: `dev_seq 0` is the deviance computed from
the initialised `eta`, `dev_seq k` the deviance recomputed after the `k`-th
coefficient update. -/
def dev_seq (K : kernels) (trace : Bool) (s0 : fit_state) : Nat → Option ℚ
  | 0 =>
    match first_deviance 0 s0 with
    | .error _ => none
    | .ok s => some s.dev
  | k + 1 =>
    match passes K trace s0 (k + 1) with
    | .error _ => none
    | .ok s => some s.dev

/-- Pass `k + 1` of the loop body runs and passes the convergence test. -/
def conv_at (K : kernels) (tol : ℚ) (trace : Bool) (s0 : fit_state) (k : Nat) : Prop :=
  ∃ s r, passes K trace s0 k = .ok s ∧ iteration K trace k s = .ok r ∧
    converged tol r.1.dev r.2 = true

/-- Equality of the outcomes of a step can be decided. -/
instance {ε α : Type} [DecidableEq ε] [DecidableEq α] : DecidableEq (Except ε α)
  | .ok a, .ok b =>
    if h : a = b then isTrue (by rw [h]) else isFalse (fun h1 => h (Except.ok.inj h1))
  | .error a, .error b =>
    if h : a = b then isTrue (by rw [h]) else isFalse (fun h1 => h (Except.error.inj h1))
  | .ok _, .error _ => isFalse (fun h => by cases h)
  | .error _, .ok _ => isFalse (fun h => by cases h)

/-! ## Concrete inputs used to instantiate the theorems -/

/-- The gaussian family with identity link. -/
def gaussian : glm_base :=
  { initialise := fun y _ => y, linkinv := fun e => e, mu_eta := fun _ => 1,
    variance := fun _ => 1, dev_resids := fun y mu w => w * (y - mu) ^ 2 }

/-- A square root that is exact on the squares of `0, ..., 49`. -/
def small_sqrt (x : ℚ) : ℚ :=
  match (List.range 50).find? (fun k => ((k : ℚ) * k == x)) with
  | some k => k
  | none => 0

/-- A design with one predictor and two observations. -/
def X_two : mat := ⟨1, [[3], [4]]⟩

/-! ## The block partition -/

/-- The right end `std::min(n - 1, i_start + block_size - 1)` of the block
that starts at `i_start`. -/
def block_end (n block_size i_start : Nat) : Nat :=
  min (usub n 1) (usub (uadd i_start block_size) 1)

/-- The ranges `[i_start, i_end]` the loop
`for(; i_start < n; i_start = i_end + 1L)` goes through in at most `fuel`
passes, in order. -/
def block_ranges (n block_size : Nat) : Nat → Nat → List (Nat × Nat)
  | 0, _ => []
  | fuel + 1, i_start =>
    if i_start < n then
      (i_start, block_end n block_size i_start) ::
        block_ranges n block_size fuel (uadd (block_end n block_size i_start) 1)
    else []

/-- The ranges tile `[a, b)`: each is non-empty, the first starts at `a`, each
next one starts right after the one before, and the last ends at `b - 1`. -/
def tiles : Nat → Nat → List (Nat × Nat) → Prop
  | a, b, [] => a = b
  | a, b, r :: rest => r.1 = a ∧ r.1 ≤ r.2 ∧ r.2 < b ∧ tiles (r.2 + 1) b rest

/-- The block tasks of one dispatch round, run in submission order: the
state after them and their results. -/
def run_workers (first_it : Bool) : data_holder_base → List (Nat × Nat) → data_holder_base × List ℚ
  | data, [] => (data, [])
  | data, r :: rest =>
    let res := run_workers first_it (worker first_it data r.1 r.2).1 rest
    (res.1, (worker first_it data r.1 r.2).2 :: res.2)

/-! ## The working quantities of one observation -/

/-- The link derivative `family.mu_eta(eta[i])` of observation `i`. -/
def mu_eta_at (data : data_holder_base) (i : Nat) : ℚ :=
  data.family.mu_eta (data.eta.getD i 0)

/-- Observation `i` is good: `weight[i] > 0` and `|mu_eta(eta[i])| >= 1e-100`. -/
def is_good (data : data_holder_base) (i : Nat) : Prop :=
  0 < data.weights.getD i 0 ∧ zero_eps ≤ |mu_eta_at data i|

instance (data : data_holder_base) (i : Nat) : Decidable (is_good data i) := by
  unfold is_good; infer_instance

/-- The working response `z_i = (eta[i] - offset[i]) + (y[i] - mu[i]) / mu_eta(eta[i])`. -/
def working_response (data : data_holder_base) (i : Nat) : ℚ :=
  (data.eta.getD i 0 - data.offsets.getD i 0) +
    (data.Ys.getD i 0 - data.mu.getD i 0) / mu_eta_at data i

/-- The argument `weight[i] * mu_eta(eta[i])^2 / variance(mu[i])` of the
square root in the working weight. -/
def working_weight_sq (data : data_holder_base) (i : Nat) : ℚ :=
  data.weights.getD i 0 * (mu_eta_at data i) ^ 2 / data.family.variance (data.mu.getD i 0)

/-- The working weight `w_i`, as the kernel `sqrt` computes it. -/
def working_weight (K : kernels) (data : data_holder_base) (i : Nat) : ℚ :=
  K.sqrt (working_weight_sq data i)

/-- The weighted design row `w_i * X[:, i]` of observation `i`. -/
def weighted_row (K : kernels) (data : data_holder_base) (i : Nat) : List ℚ :=
  (data.X.col i).map (fun x => x * working_weight K data i)

/-- The block work unit built from the observations `idx`, one row each. -/
def chunk_of (K : kernels) (data : data_holder_base) (idx : List Nat) : qr_work_chunk :=
  { X := (⟨data.p, idx.map (weighted_row K data)⟩ : mat).t,
    Y := idx.map (fun i => working_response data i * working_weight K data i),
    dev := ⟨1, [[0]]⟩ }

/-- The range `[i_start, i_end]` lies inside the vectors of the state. -/
def range_ok (data : data_holder_base) (i_start i_end : Nat) : Prop :=
  i_start ≤ i_end ∧ i_end < 2 ^ 63 ∧ i_end < data.weights.length ∧ i_end < data.eta.length

/-- A state with three observations and two predictors; the third
observation has weight zero. -/
def data_three : data_holder_base :=
  { beta := [0, 0], X := ⟨2, [[3, 1], [4, 1], [7, 1]]⟩, Ys := [0, 5, 1], weights := [1, 4, 0],
    offsets := [0, 0, 0], eta := [0, 5, 1], mu := [0, 5, 1], max_threads := 1, p := 2, n := 3,
    family := gaussian, block_size := 2 }

/-! ## One dispatch round, observation by observation -/

/-- The linear predictor a round of block tasks computes, for all
observations: `family.initialize(y[i], weight[i])` in the first round,
`X[:, i] . beta + offset[i]` afterwards. -/
def eta_all (first_it : Bool) (data : data_holder_base) : vec :=
  if first_it then List.zipWith data.family.initialise data.Ys data.weights
  else List.zipWith (fun a b => a + b) (data.X.cols.map (fun c => dot data.beta c)) data.offsets

/-- The means `family.linkinv(eta[i])` a round computes. -/
def mu_all (first_it : Bool) (data : data_holder_base) : vec :=
  (eta_all first_it data).map data.family.linkinv

/-- The deviance contributions `family.dev_resids(y[i], mu[i], weight[i])` a
round computes. -/
def dev_all (first_it : Bool) (data : data_holder_base) : vec :=
  List.zipWith3 data.family.dev_resids data.Ys (mu_all first_it data) data.weights

/-- The vectors of the state have one entry per observation, the observation
count is below `2 ^ 63` and the block size is a `uword`. -/
def data_ok (data : data_holder_base) : Prop :=
  data.X.cols.length < 2 ^ 63 ∧ data.Ys.length = data.X.cols.length ∧
    data.weights.length = data.X.cols.length ∧ data.offsets.length = data.X.cols.length ∧
    data.eta.length = data.X.cols.length ∧ data.mu.length = data.X.cols.length ∧
    data.block_size < uword_size

/-- The ranges both dispatch loops go through for the state `data`. -/
def blocks_of (data : data_holder_base) : List (Nat × Nat) :=
  block_ranges data.X.n_cols data.block_size (data.X.n_cols + 1) 0

/-- The observations of `[a, a + len)` that `get_chunk` keeps. -/
def kept_in (data : data_holder_base) (a len : Nat) : List Nat :=
  (List.range' a len).filter (fun i => decide (is_good data i))

/-- The row-wise concatenation, in order, of the work units of a list of
chunks: the stacked design (with `p` columns) and the stacked response. -/
def join_chunks (p : Nat) (chunks : List qr_work_chunk) : mat × vec :=
  (chunks.foldr (fun c acc => mat.join_cols c.X acc) (mat.empty p),
    (chunks.map (fun c => c.Y)).flatten)

/-! ## The kernels in exact arithmetic -/

/-- The entries `A(i, j)` with `i, j < p` of a matrix, as a `p` by `p` matrix
over the rationals. -/
def mat.toMatrix (p : Nat) (A : mat) : Matrix (Fin p) (Fin p) ℚ :=
  fun i j => (A.col j).getD i 0

/-- The entries `v(i)` with `i < p` of a vector. -/
def toVec (p : Nat) (v : vec) : Fin p → ℚ := fun i => v.getD i 0

/-- The matrix `A^T A` of the normal equations of a stacked design `A` with
`p` columns. -/
def gram_matrix (p : Nat) (A : mat) : Matrix (Fin p) (Fin p) ℚ :=
  fun i j => dot (A.col i) (A.col j)

/-- The right-hand side `A^T b` of the normal equations of a stacked design
`A` and a stacked response `b`. -/
def gram_rhs (p : Nat) (A : mat) (b : vec) : Fin p → ℚ :=
  fun i => dot (A.col i) b

/-- Modelled from the spec: the QR aggregator `qr_parallel::compute` and
`R_F::R_rev_piv` (parallel_qr.h, not among the sources) in exact arithmetic.
Section 4.4 of the specification: from the work units of the blocks the
aggregator yields the global rank-revealing factor `R`, its column pivots and
the projected response `F`, and the two back-substitutions against `R`
transposed and `R` solve the weighted normal equations. With `A` the stacked
weighted design, `b` the stacked weighted response and `R` the un-pivoted
factor, whatever the aggregator returns has a `p` by `p` factor `R` that is
invertible exactly when `A^T A` is, and when it is, the system
`R^T R beta = R^T F(:, 0)`, which the two back-substitutions solve, has
exactly the solutions of the normal equations `A^T A beta = A^T b`. A factor
with `R^T R = A^T A` and `R^T F(:, 0) = A^T b` is of this kind; its entries
are square roots, which rational scalars need not have, so the contract does
not ask for that factor (`exact_kernels_exist`: kernels that meet the
contracts exist for every `p`). -/
def qr_normal (K : kernels) (p : Nat) : Prop :=
  ∀ (chunks : List qr_work_chunk) (rf : R_F), K.qr_compute chunks = some rf →
    (K.R_rev_piv rf).n_rows = p ∧ (K.R_rev_piv rf).cols.length = p ∧
    (Matrix.det ((K.R_rev_piv rf).toMatrix p) ≠ 0 ↔
      Matrix.det (gram_matrix p (join_chunks p chunks).1) ≠ 0) ∧
    (Matrix.det (gram_matrix p (join_chunks p chunks).1) ≠ 0 →
      ∀ beta : Fin p → ℚ,
        Matrix.mulVec
            (((K.R_rev_piv rf).toMatrix p).transpose * (K.R_rev_piv rf).toMatrix p) beta =
          Matrix.mulVec ((K.R_rev_piv rf).toMatrix p).transpose (toVec p (rf.F.col 0)) ↔
        Matrix.mulVec (gram_matrix p (join_chunks p chunks).1) beta =
          gram_rhs p (join_chunks p chunks).1 (join_chunks p chunks).2)

/-- Modelled from the spec: in exact arithmetic whether the aggregator
`qr_parallel::compute` (parallel_qr.h, not among the sources) produces a
factorization depends on the stacked problem only, not on how the rows are
cut into blocks (section 8: block partitioning is a performance knob, not a
semantic one). -/
def qr_blocking_free (K : kernels) (p : Nat) : Prop :=
  ∀ (c1 c2 : List qr_work_chunk), join_chunks p c1 = join_chunks p c2 →
    ((K.qr_compute c1).isSome ↔ (K.qr_compute c2).isSome)

/-- The kernel `arma::solve` in exact arithmetic, on `p` by `p` systems: a
non-singular system gets its solution, a singular one is reported as a
failure. -/
def solve_exact (K : kernels) (p : Nat) : Prop :=
  ∀ (A : mat) (b : vec), A.n_rows = p → A.cols.length = p →
    (Matrix.det (A.toMatrix p) ≠ 0 →
      ∃ x, K.solve A b = some x ∧ x.length = p ∧
        Matrix.mulVec (A.toMatrix p) (toVec p x) = toVec p b) ∧
    (Matrix.det (A.toMatrix p) = 0 → K.solve A b = none)

/-- The stacked weighted least-squares problem the generators of a state hand
to the aggregator. -/
def stacked (K : kernels) (data : data_holder_base) : mat × vec :=
  join_chunks data.p (chunks_of K data (blocks_of data))

/-! ## The state as a list of observations -/

/-- One observation: its design column, response, weight and offset, and its
current linear predictor and mean. -/
structure observation where
  x : List ℚ
  y : ℚ
  weight : ℚ
  offset : ℚ
  eta : ℚ
  mu : ℚ

/-- Observation `i` of a state. -/
def obs_at (data : data_holder_base) (i : Nat) : observation :=
  { x := data.X.col i, y := data.Ys.getD i 0, weight := data.weights.getD i 0,
    offset := data.offsets.getD i 0, eta := data.eta.getD i 0, mu := data.mu.getD i 0 }

/-- The observations of a state, in order. -/
def observations (data : data_holder_base) : List observation :=
  (List.range data.X.cols.length).map (obs_at data)

/-- What one dispatch round does to an observation. -/
def round_obs (first_it : Bool) (family : glm_base) (beta : vec) (o : observation) :
    observation :=
  { o with
    eta := if first_it then family.initialise o.y o.weight else dot beta o.x + o.offset,
    mu := family.linkinv
      (if first_it then family.initialise o.y o.weight else dot beta o.x + o.offset) }

/-- The state after one dispatch round. -/
def round_data (first_it : Bool) (data : data_holder_base) : data_holder_base :=
  { data with eta := eta_all first_it data, mu := mu_all first_it data }

/-- The filter of `get_chunk` on one observation. -/
def good_obs (family : glm_base) (o : observation) : Bool :=
  decide (0 < o.weight ∧ zero_eps ≤ |family.mu_eta o.eta|)

/-- The weighted design row of one observation. -/
def obs_row (K : kernels) (family : glm_base) (o : observation) : List ℚ :=
  o.x.map (fun x => x * K.sqrt (o.weight * (family.mu_eta o.eta) ^ 2 / family.variance o.mu))

/-- The weighted working response of one observation. -/
def obs_response (K : kernels) (family : glm_base) (o : observation) : ℚ :=
  ((o.eta - o.offset) + (o.y - o.mu) / family.mu_eta o.eta) *
    K.sqrt (o.weight * (family.mu_eta o.eta) ^ 2 / family.variance o.mu)

/-- The stacked problem built from a list of observations. -/
def stack_of (K : kernels) (family : glm_base) (p : Nat) (os : List observation) : mat × vec :=
  ((⟨p, os.map (obs_row K family)⟩ : mat).t, os.map (obs_response K family))

/-- A selection of observations that a fit cannot tell from the whole data:
it does not look at `eta` and `mu`, it keeps every observation of positive
weight, and the deviance contribution of what it drops is zero. -/
def negligible (family : glm_base) (q : observation → Bool) : Prop :=
  (∀ o e m, q { o with eta := e, mu := m } = q o) ∧
    (∀ o, q o = false → ¬ 0 < o.weight) ∧
    (∀ o, q o = false → ∀ m, family.dev_resids o.y m o.weight = 0)

/-- Two states a fit cannot tell apart: the same family, predictor count and
coefficients, and the same selected observations. -/
def same_fit (q : observation → Bool) (d1 d2 : data_holder_base) : Prop :=
  d1.family = d2.family ∧ d1.p = d2.p ∧ d1.beta = d2.beta ∧
    (observations d1).filter q = (observations d2).filter q

/-- Two states of the driver, for the family `family` and `p` predictors,
that a fit cannot tell apart. -/
def same_state (q : observation → Bool) (family : glm_base) (p : Nat) (s1 s2 : fit_state) :
    Prop :=
  s1.data.family = family ∧ s1.data.p = p ∧ same_fit q s1.data s2.data ∧ s1.dev = s2.dev ∧
    s1.R_f_out.isSome = s2.R_f_out.isSome ∧ data_ok s1.data ∧ data_ok s2.data

/-- The kernels are exact on problems with `p` predictors. -/
def exact_kernels (K : kernels) (p : Nat) : Prop :=
  qr_normal K p ∧ qr_blocking_free K p ∧ solve_exact K p

/-- Exact kernels for one predictor. The aggregator stacks its chunks and
returns the root `r` of the sum of squares of the design entries as `R` and
the projected response as `F`, when that root is among the numbers
`small_sqrt` finds and is not zero; `solve` divides. -/
def kernels_p1 : kernels :=
  { sqrt := small_sqrt,
    solve := fun A b =>
      if (A.col 0).getD 0 0 = 0 then none else some [b.getD 0 0 / (A.col 0).getD 0 0],
    qr_compute := fun cs =>
      if small_sqrt (dot ((join_chunks 1 cs).1.col 0) ((join_chunks 1 cs).1.col 0)) *
            small_sqrt (dot ((join_chunks 1 cs).1.col 0) ((join_chunks 1 cs).1.col 0)) =
          dot ((join_chunks 1 cs).1.col 0) ((join_chunks 1 cs).1.col 0) ∧
          small_sqrt (dot ((join_chunks 1 cs).1.col 0) ((join_chunks 1 cs).1.col 0)) ≠ 0 then
        some ⟨⟨1, [[small_sqrt (dot ((join_chunks 1 cs).1.col 0) ((join_chunks 1 cs).1.col 0))]]⟩,
          [0],
          ⟨1, [[dot ((join_chunks 1 cs).1.col 0) (join_chunks 1 cs).2 /
            small_sqrt (dot ((join_chunks 1 cs).1.col 0) ((join_chunks 1 cs).1.col 0))]]⟩,
          ⟨1, [[0]]⟩⟩
      else none,
    R_rev_piv := fun rf => rf.R }

/-- Exact kernels for one predictor that need no square root in the
aggregator: it stacks its chunks and returns the sum of squares `A^T A` of
the design entries as `R` and `A^T b` as `F`, so that `R beta = F` is the
normal equation itself; `solve` divides. -/
def kernels_gram : kernels :=
  { sqrt := small_sqrt,
    solve := fun A b =>
      if (A.col 0).getD 0 0 = 0 then none else some [b.getD 0 0 / (A.col 0).getD 0 0],
    qr_compute := fun cs =>
      some ⟨⟨1, [[dot ((join_chunks 1 cs).1.col 0) ((join_chunks 1 cs).1.col 0)]]⟩, [0],
        ⟨1, [[dot ((join_chunks 1 cs).1.col 0) (join_chunks 1 cs).2]]⟩, ⟨1, [[0]]⟩⟩,
    R_rev_piv := fun rf => rf.R }

/-- A design with one predictor, constantly 1, and two observations. -/
def X_ones : mat := ⟨1, [[1], [1]]⟩

/-- The list `l` with the entry `a` inserted at position `k`. -/
def insert_at {α : Type} (l : List α) (k : Nat) (a : α) : List α :=
  l.take k ++ [a] ++ l.drop k

/-- The selection of the observations whose weight is not zero. -/
def has_weight (o : observation) : Bool := decide (o.weight ≠ 0)

/-- A state with the design `X_two`. -/
def data_two : data_holder_base :=
  { beta := [0], X := X_two, Ys := [0, 5], weights := [1, 1], offsets := [0, 0], eta := [0, 5],
    mu := [0, 5], max_threads := 4, p := 1, n := 2, family := gaussian, block_size := 30 }

/-- A family with the link `mu = eta ^ 2` whose deviance contribution
`(y - mu) ^ 2` does not look at the weight. -/
def unweighted_family : glm_base :=
  { initialise := fun y _ => y, linkinv := fun e => e ^ 2, mu_eta := fun e => 2 * e,
    variance := fun _ => 1, dev_resids := fun y mu _ => (y - mu) ^ 2 }

/-! ## Weighted least squares -/

/-- The gaussian family with identity link, as a property of a family object. -/
def is_gaussian (family : glm_base) : Prop :=
  (∀ y w, family.initialise y w = y) ∧ (∀ e, family.linkinv e = e) ∧
    (∀ e, family.mu_eta e = 1) ∧ (∀ m, family.variance m = 1) ∧
    (∀ y m w, family.dev_resids y m w = w * (y - m) ^ 2)

/-- The weights as the working weights of a gaussian fit carry them: each
weight replaced by the square of the value the square-root kernel returns for
it, which is the weight itself where the kernel is exact. -/
def squared_roots (K : kernels) (weights : vec) : vec :=
  weights.map (fun w => K.sqrt w * K.sqrt w)

/-- The matrix `X W X^T` of the weighted normal equations of the design `X`
(one column per observation) with the weights `W`. -/
def wls_matrix (p : Nat) (X : mat) (weights : vec) : Matrix (Fin p) (Fin p) ℚ :=
  fun j k => ((List.range X.cols.length).map
    (fun i => weights.getD i 0 * (X.col i).getD j 0 * (X.col i).getD k 0)).sum

/-- The right-hand side `X W (y - offset)` of the weighted normal equations. -/
def wls_rhs (p : Nat) (X : mat) (weights Ys offsets : vec) : Fin p → ℚ :=
  fun j => ((List.range X.cols.length).map
    (fun i => weights.getD i 0 * (X.col i).getD j 0 * (Ys.getD i 0 - offsets.getD i 0))).sum

/-- The weighted residual sum of squares of the coefficients `beta`. -/
def wls_rss (X : mat) (weights Ys offsets beta : vec) : ℚ :=
  ((List.range X.cols.length).map
    (fun i => weights.getD i 0 * (Ys.getD i 0 - (dot beta (X.col i) + offsets.getD i 0)) ^ 2)).sum

/-- The stacked problem of a gaussian fit: the rows `sqrt(w_i) * X[:, i]` and
the responses `sqrt(w_i) * (y_i - offset_i)`. -/
def gaussian_stack (K : kernels) (p : Nat) (X : mat) (weights Ys offsets : vec) : mat × vec :=
  ((⟨p, (List.range X.cols.length).map
      (fun i => (X.col i).map (fun x => x * K.sqrt (weights.getD i 0)))⟩ : mat).t,
    (List.range X.cols.length).map
      (fun i => (Ys.getD i 0 - offsets.getD i 0) * K.sqrt (weights.getD i 0)))

/-! ## The join loop against a pool -/

/-- The call `futures.back().get()` for the future of the task with number
`k`, against a pool whose tasks still to finish do so in the order
`completions` (`done` holds the tasks that have finished): the control thread
is blocked while tasks finish, until task `k` is among the finished ones. The
call does not return (`none`) when task `k` never finishes. Returns the tasks
still to finish and the finished ones. -/
def await_future (k : Nat) : List Nat → List Nat → Option (List Nat × List Nat)
  | [], done => if k ∈ done then some ([], done) else none
  | c :: rest, done =>
    if k ∈ done then some (c :: rest, done) else await_future k rest (c :: done)

/-- The join loop `while (!futures.empty()) { dev += futures.back().get(); futures.pop_back(); }`
of `set_eta_n_mu` on the futures read from the back (the head of the list is
`futures.back()`), each with the number of its task, with `add` for the
addition of two `double`s. Returns the total and the task numbers in the
order in which their values were added. -/
def join_loop (add : ℚ → ℚ → ℚ) :
    List (Nat × ℚ) → List Nat → List Nat → ℚ → List Nat → Option (ℚ × List Nat)
  | [], _, _, dev, order => some (dev, order)
  | f :: rest, completions, done, dev, order =>
    match await_future f.1 completions done with
    | none => none
    | some (completions, done) =>
      join_loop add rest completions done (add dev f.2) (order ++ [f.1])

/-- The join of `set_eta_n_mu` for the futures of one dispatch round, in
submission order (the `k`-th submitted task has the number `k`), when the
tasks finish in the order `completions`. -/
def join_scheduled (add : ℚ → ℚ → ℚ) (futures : List ℚ) (completions : List Nat) :
    Option (ℚ × List Nat) :=
  join_loop add futures.enum.reverse completions [] 0 []

/-! ## Outcomes up to the starting vector -/

/-- What is left of an event when the parts of the trace output that show
the starting vector are blanked: in the trace line of pass 0, `beta_old` and
the norm of the change. -/
def event.blank : event → event
  | .trace_out 0 _ beta _ dev => .trace_out 0 [] beta 0 dev
  | e => e

/-- An outcome of `compute` with every event replaced by its image under `g`. -/
def map_events (g : event → event) :
    run (parallelglm_res × List event) → run (parallelglm_res × List event)
  | .ok r => .ok (r.1, r.2.map g)
  | .error e => .error (e.1, e.2.map g)

/-- Two states of the driver that differ at most in `beta` and in what `g`
erases from their events. -/
def same_up_to_beta (g : event → event) (s1 s2 : fit_state) : Prop :=
  s2.data = { s1.data with beta := s2.data.beta } ∧ s1.dev = s2.dev ∧
    s1.R_f_out = s2.R_f_out ∧ s1.events.map g = s2.events.map g

/-- Two outcomes of a step of the driver that agree: both are values, related
by `R`, or both are the same failure, with events that agree under `g`. -/
def same_outcome {α : Type} (g : event → event) (R : α → α → Prop) : run α → run α → Prop
  | .ok a, .ok b => R a b
  | .error e1, .error e2 => e1.1 = e2.1 ∧ e1.2.map g = e2.2.map g
  | _, _ => False

/-! ## Further concrete inputs -/

/-- A state of a fit with the design `X_two` and the coefficient `2`,
dispatched in blocks of one observation. -/
def state_two : fit_state :=
  { data := { data_two with beta := [2], block_size := 1 }, dev := 0, R_f_out := none,
    events := [] }

/-- A state of a fit with the design `X_two`, after the first dispatch round. -/
def state_round : fit_state := { data := data_two, dev := 0, R_f_out := none, events := [] }

/-- The factorization the kernels `kernels_p1` return for `state_round`. -/
def rf_two : R_F := ⟨⟨1, [[5]]⟩, [0], ⟨1, [[4]]⟩, ⟨1, [[0]]⟩⟩

/-- A state with three observations and one predictor, dispatched in blocks
of one observation. -/
def data_blocks : data_holder_base :=
  { beta := [0], X := ⟨1, [[1], [1], [1]]⟩, Ys := [1, 2, 3], weights := [1, 1, 1],
    offsets := [0, 0, 0], eta := [0, 0, 0], mu := [0, 0, 0], max_threads := 2, p := 1, n := 3,
    family := gaussian, block_size := 1 }

/-! ## The block data generator over an arbitrary arithmetic of `double`

The rational model above is exact where `double` is not: it has no NaN and
no infinity, and its division by zero is zero. The statements about the rows
`get_chunk` keeps and about the values it writes are therefore made on a
second embedding of the same method, in which the scalar type and every
operation the method performs on scalars are parameters. -/

namespace fp

/-- The operations on `double` that `get_chunk` performs: the literal `0` (of
`weight > 0` and of `dev_mat = 0.`), the constant `zero_eps`, unary minus,
the comparison `<` (`a > b` is `b < a`), `+`, `-`, `*` (also the elementwise
`%` and `arma::square`), `/` and `arma::sqrt`. -/
structure arith (S : Type) where
  zero : S
  zero_eps : S
  neg : S → S
  lt : S → S → Bool
  add : S → S → S
  sub : S → S → S
  mul : S → S → S
  div : S → S → S
  sqrt : S → S

/-- An `arma::mat` over the scalar type `S`: the row count and the columns,
in storage order. -/
structure mat (S : Type) where
  n_rows : Nat
  cols : List (List S)
deriving DecidableEq

namespace mat

/-- Column count. -/
def n_cols {S : Type} (M : mat S) : Nat := M.cols.length

/-- Column `j` (`M.col(j)`). -/
def col {S : Type} (M : mat S) (j : Nat) : List S := M.cols.getD j []

/-- Row `i`, read across the columns (`z` stands for an entry a column does
not have). -/
def row {S : Type} (z : S) (M : mat S) (i : Nat) : List S := M.cols.map (fun c => c.getD i z)

/-- The rows, top to bottom. -/
def rows {S : Type} (z : S) (M : mat S) : List (List S) := (List.range M.n_rows).map (M.row z)

/-- Transpose (`arma::inplace_trans`). -/
def t {S : Type} (z : S) (M : mat S) : mat S := ⟨M.cols.length, M.rows z⟩

end mat

/-- The members of the family object `glm_base` (family.h). The member
`initialise` is the C++ member `glm_base::initialize`. -/
structure glm_base (S : Type) where
  initialise : S → S → S
  linkinv : S → S
  mu_eta : S → S
  variance : S → S
  dev_resids : S → S → S → S

/-- What a generator hands to the aggregator (`qr_work_chunk`). -/
structure qr_work_chunk (S : Type) where
  X : mat S
  Y : List S
  dev : mat S
deriving DecidableEq

/-- The shared state `data_holder_base`. -/
structure data_holder_base (S : Type) where
  beta : List S
  X : mat S
  Ys : List S
  weights : List S
  offsets : List S
  eta : List S
  mu : List S
  max_threads : Nat
  p : Nat
  n : Nat
  family : glm_base S
  block_size : Nat

/-- Element selection `v(idx)` with an index vector. -/
def elem {S : Type} (z : S) (v : List S) (idx : List Nat) : List S :=
  idx.map (fun i => v.getD i z)

/-- One entry of the 0/1 vector
`(weight > 0) % ((-zero_eps < mu_eta_val) + (mu_eta_val < zero_eps) != 2)`. -/
def good_flag {S : Type} (A : arith S) (weight mu_eta_val : S) : Nat :=
  (if A.lt A.zero weight then 1 else 0) *
    (if (if A.lt (A.neg A.zero_eps) mu_eta_val then 1 else 0) +
        (if A.lt mu_eta_val A.zero_eps then 1 else 0) ≠ 2
      then 1 else 0)

/-- The index vector `good` of `get_chunk`, relative to the start of the block. -/
def good_rows {S : Type} (A : arith S) (data : data_holder_base S) (i_start i_end : Nat) :
    List Nat :=
  let n := uadd (usub i_end i_start) 1
  let weight := view data.weights i_start n
  let eta := view data.eta i_start n
  let mu_eta_val := eta.map data.family.mu_eta
  find (List.zipWith (good_flag A) weight mu_eta_val)

/-- The method `glm_qr_data_generator::get_chunk` of the generator built with
`(i_start, i_end, data)`. `X.each_row() %= w` multiplies column `k` of the
`p` by `good.n_elem` block by `w(k)`. -/
def get_chunk {S : Type} (A : arith S) (data : data_holder_base S) (i_start i_end : Nat) :
    qr_work_chunk S :=
  let n := uadd (usub i_end i_start) 1
  let y := view data.Ys i_start n
  let weight := view data.weights i_start n
  let offset := view data.offsets i_start n
  let X : mat S := ⟨data.p, view data.X.cols i_start n⟩
  let eta := view data.eta i_start n
  let mu := view data.mu i_start n
  let mu_eta_val := eta.map data.family.mu_eta
  let good := good_rows A data i_start i_end
  let mu := elem A.zero mu good
  let eta := elem A.zero eta good
  let mu_eta_val := elem A.zero mu_eta_val good
  let var := mu.map data.family.variance
  let z := List.zipWith A.add
    (List.zipWith A.sub eta (elem A.zero offset good))
    (List.zipWith A.div (List.zipWith A.sub (elem A.zero y good) mu) mu_eta_val)
  let w := (List.zipWith A.div
    (List.zipWith A.mul (elem A.zero weight good) (mu_eta_val.map (fun m => A.mul m m))) var).map
      A.sqrt
  let X : mat S := ⟨X.n_rows, good.map X.col⟩
  let X : mat S := ⟨X.n_rows, List.zipWith (fun c wk => c.map (fun x => A.mul x wk)) X.cols w⟩
  let X := X.t A.zero
  let z := List.zipWith A.mul z w
  { X := X, Y := z, dev := ⟨1, [[A.zero]]⟩ }

/-! ### The generator, observation by observation -/

/-- The derivative `family.mu_eta(eta[i])` of observation `i`. -/
def mu_eta_at {S : Type} (A : arith S) (data : data_holder_base S) (i : Nat) : S :=
  data.family.mu_eta (data.eta.getD i A.zero)

/-- Observation `i` passes the filter of `get_chunk`: `weight[i] > 0` is true
and the comparisons `-zero_eps < mu_eta_val[i]` and `mu_eta_val[i] < zero_eps`
are not both true. -/
def is_good {S : Type} (A : arith S) (data : data_holder_base S) (i : Nat) : Prop :=
  A.lt A.zero (data.weights.getD i A.zero) = true ∧
    ¬ (A.lt (A.neg A.zero_eps) (mu_eta_at A data i) = true ∧
      A.lt (mu_eta_at A data i) A.zero_eps = true)

instance {S : Type} (A : arith S) (data : data_holder_base S) (i : Nat) :
    Decidable (is_good A data i) := by
  unfold is_good; infer_instance

/-- The working response `z_i = (eta[i] - offset[i]) + (y[i] - mu[i]) / mu_eta(eta[i])`. -/
def working_response {S : Type} (A : arith S) (data : data_holder_base S) (i : Nat) : S :=
  A.add (A.sub (data.eta.getD i A.zero) (data.offsets.getD i A.zero))
    (A.div (A.sub (data.Ys.getD i A.zero) (data.mu.getD i A.zero)) (mu_eta_at A data i))

/-- The working weight `w_i = sqrt(weight[i] * mu_eta(eta[i])^2 / variance(mu[i]))`. -/
def working_weight {S : Type} (A : arith S) (data : data_holder_base S) (i : Nat) : S :=
  A.sqrt (A.div
    (A.mul (data.weights.getD i A.zero) (A.mul (mu_eta_at A data i) (mu_eta_at A data i)))
    (data.family.variance (data.mu.getD i A.zero)))

/-- The weighted design row `w_i * X[:, i]` of observation `i`. -/
def weighted_row {S : Type} (A : arith S) (data : data_holder_base S) (i : Nat) : List S :=
  (data.X.col i).map (fun x => A.mul x (working_weight A data i))

/-- The block work unit built from the observations `idx`, one row each. -/
def chunk_of {S : Type} (A : arith S) (data : data_holder_base S) (idx : List Nat) :
    qr_work_chunk S :=
  { X := (⟨data.p, idx.map (weighted_row A data)⟩ : mat S).t A.zero,
    Y := idx.map (fun i => A.mul (working_response A data i) (working_weight A data i)),
    dev := ⟨1, [[A.zero]]⟩ }

/-- The range `[i_start, i_end]` lies inside the vectors of the state. -/
def range_ok {S : Type} (data : data_holder_base S) (i_start i_end : Nat) : Prop :=
  i_start ≤ i_end ∧ i_end < 2 ^ 63 ∧ i_end < data.weights.length ∧ i_end < data.eta.length

/-! ### The first embedding as an instance -/

/-- The exact rational arithmetic of the first embedding, with the
square-root kernel `sq`; its division by zero is zero. -/
def rational (sq : ℚ → ℚ) : arith ℚ :=
  { zero := 0, zero_eps := zero_eps, neg := fun a => -a, lt := fun a b => decide (a < b),
    add := fun a b => a + b, sub := fun a b => a - b, mul := fun a b => a * b,
    div := fun a b => a / b, sqrt := sq }

/-- A matrix of the first embedding, as a matrix over the rationals. -/
def of_mat (M : parglm.mat) : mat ℚ := ⟨M.n_rows, M.cols⟩

/-- A state of the first embedding, as a state over the rationals. -/
def of_data (data : parglm.data_holder_base) : data_holder_base ℚ :=
  { beta := data.beta, X := of_mat data.X, Ys := data.Ys, weights := data.weights,
    offsets := data.offsets, eta := data.eta, mu := data.mu, max_threads := data.max_threads,
    p := data.p, n := data.n,
    family := { initialise := data.family.initialise, linkinv := data.family.linkinv,
                mu_eta := data.family.mu_eta, variance := data.family.variance,
                dev_resids := data.family.dev_resids },
    block_size := data.block_size }

/-! ### What a `double` stands for -/

/-- What a `double` stands for: a number, plus or minus infinity, or NaN. -/
inductive value where
  | fin (q : ℚ)
  | pinf
  | ninf
  | nan
deriving DecidableEq

namespace value

/-- Unary minus. -/
def neg : value → value
  | fin q => fin (-q)
  | pinf => ninf
  | ninf => pinf
  | nan => nan

/-- The comparison `a < b` of IEEE 754: false when an operand is NaN. -/
def lt : value → value → Bool
  | fin a, fin b => decide (a < b)
  | fin _, pinf => true
  | ninf, fin _ => true
  | ninf, pinf => true
  | _, _ => false

/-- The comparison `a <= b` of IEEE 754: false when an operand is NaN. -/
def le : value → value → Bool
  | fin a, fin b => decide (a ≤ b)
  | fin _, pinf => true
  | ninf, fin _ => true
  | ninf, pinf => true
  | pinf, pinf => true
  | ninf, ninf => true
  | _, _ => false

/-- Absolute value (`std::fabs`): NaN for NaN. -/
def abs : value → value
  | fin q => fin |q|
  | pinf => pinf
  | ninf => pinf
  | nan => nan

/-- An infinity times a number of the given sign: NaN for zero. -/
def scale_inf (positive : Bool) (q : ℚ) : value :=
  if q = 0 then nan else if decide (0 < q) = positive then pinf else ninf

/-- Addition: exact on numbers, NaN for infinities of opposite sign. -/
def add : value → value → value
  | fin a, fin b => fin (a + b)
  | fin _, pinf => pinf
  | fin _, ninf => ninf
  | pinf, fin _ => pinf
  | ninf, fin _ => ninf
  | pinf, pinf => pinf
  | ninf, ninf => ninf
  | _, _ => nan

/-- Subtraction. -/
def sub (a b : value) : value := add a (neg b)

/-- Multiplication: exact on numbers, NaN for zero times infinity. -/
def mul : value → value → value
  | fin a, fin b => fin (a * b)
  | fin a, pinf => scale_inf true a
  | fin a, ninf => scale_inf false a
  | pinf, fin b => scale_inf true b
  | ninf, fin b => scale_inf false b
  | pinf, pinf => pinf
  | ninf, ninf => pinf
  | pinf, ninf => ninf
  | ninf, pinf => ninf
  | _, _ => nan

/-- Division: exact on numbers with a non-zero divisor; a non-zero number
over zero is an infinity (the zero counts as positive), zero over zero and
infinity over infinity are NaN. -/
def div : value → value → value
  | fin a, fin b => if b = 0 then (if a = 0 then nan else if 0 < a then pinf else ninf)
      else fin (a / b)
  | fin _, pinf => fin 0
  | fin _, ninf => fin 0
  | pinf, fin b => if 0 ≤ b then pinf else ninf
  | ninf, fin b => if 0 ≤ b then ninf else pinf
  | _, _ => nan

/-- Square root, given the root `sq` of the non-negative numbers: NaN below
zero, infinity at infinity. -/
def sqrt (sq : ℚ → ℚ) : value → value
  | fin q => if q < 0 then nan else fin (sq q)
  | pinf => pinf
  | _ => nan

end value

/-- The arithmetic of IEEE 754 without rounding: numbers are exact rationals
(no rounding, no overflow, one zero), the special values follow the
standard, and `sq` is the square root on the non-negative numbers. -/
def ieee (sq : ℚ → ℚ) : arith value :=
  { zero := value.fin 0, zero_eps := value.fin (1 / 10 ^ 100), neg := value.neg,
    lt := value.lt, add := value.add, sub := value.sub, mul := value.mul, div := value.div,
    sqrt := value.sqrt sq }

/-- The comparisons of the arithmetic `A` are those of IEEE 754 when a scalar
`a` is read as `v a`: `<` is the comparison of the values (false at NaN),
unary minus is exact, and the constants are `0` and `1e-100`. -/
def ieee_comparisons {S : Type} (A : arith S) (v : S → value) : Prop :=
  (∀ a b, A.lt a b = value.lt (v a) (v b)) ∧ (∀ a, v (A.neg a) = value.neg (v a)) ∧
    v A.zero = value.fin 0 ∧ v A.zero_eps = value.fin (1 / 10 ^ 100)

/-- The gaussian family with the inverse link: `mu = 1 / eta`,
`mu_eta(eta) = -1 / eta^2`, `variance(mu) = 1`. -/
def gaussian_inverse (sq : ℚ → ℚ) : glm_base value :=
  { initialise := fun y _ => (ieee sq).div (value.fin 1) y,
    linkinv := fun eta => (ieee sq).div (value.fin 1) eta,
    mu_eta := fun eta => (ieee sq).neg ((ieee sq).div (value.fin 1) ((ieee sq).mul eta eta)),
    variance := fun _ => value.fin 1,
    dev_resids := fun y mu w => (ieee sq).mul w ((ieee sq).mul ((ieee sq).sub y mu)
      ((ieee sq).sub y mu)) }

/-- A state of the inverse-link gaussian family with two observations of
weight one: the linear predictor of the first one is NaN, that of the second
one is `1 / 2`. -/
def data_nan : data_holder_base value :=
  { beta := [value.nan], X := ⟨1, [[value.fin 3], [value.fin 4]]⟩,
    Ys := [value.fin 1, value.fin 2], weights := [value.fin 1, value.fin 1],
    offsets := [value.fin 0, value.fin 0], eta := [value.nan, value.fin (1 / 2)],
    mu := [value.nan, value.fin 2], max_threads := 1, p := 1, n := 2,
    family := gaussian_inverse small_sqrt, block_size := 2 }

/-- A family with the identity link and the variance function
`variance(mu) = mu`. -/
def identity_mu (sq : ℚ → ℚ) : glm_base value :=
  { initialise := fun y _ => y,
    linkinv := fun eta => eta,
    mu_eta := fun _ => value.fin 1,
    variance := fun mu => mu,
    dev_resids := fun y mu w => (ieee sq).mul w ((ieee sq).mul ((ieee sq).sub y mu)
      ((ieee sq).sub y mu)) }

/-- A state of that family with three observations: the mean of the first
one is zero, so its variance is zero; the third one has weight zero. -/
def data_zero_variance : data_holder_base value :=
  { beta := [value.fin 1], X := ⟨1, [[value.fin 3], [value.fin 5], [value.fin 7]]⟩,
    Ys := [value.fin 1, value.fin 5, value.fin 2],
    weights := [value.fin 1, value.fin 4, value.fin 0],
    offsets := [value.fin 0, value.fin 0, value.fin 0],
    eta := [value.fin 0, value.fin 4, value.fin 1],
    mu := [value.fin 0, value.fin 4, value.fin 1], max_threads := 1, p := 1, n := 3,
    family := identity_mu small_sqrt, block_size := 2 }

end fp

/-! ## Control flow of the driver -/

theorem set_eta_n_mu_error (first_it : Bool) (s : fit_state) (e : failure × List event)
    (h : set_eta_n_mu first_it s = .error e) : e = (failure.out_of_fuel, s.events) := by
  unfold set_eta_n_mu at h
  dsimp only at h
  split at h <;> simp_all

theorem get_R_f_error (K : kernels) (s : fit_state) (e : failure × List event)
    (h : get_R_f K s = .error e) : e.1.internal := by
  unfold get_R_f at h
  dsimp only at h
  split at h
  · cases h; trivial
  · split at h
    · cases h; trivial
    · cases h

theorem solve_step_error (K : kernels) (A : mat) (b : vec) (ev : List event)
    (e : failure × List event) (h : solve_step K A b ev = .error e) :
    e = (failure.kernel_failure, ev ++ [event.solve]) := by
  unfold solve_step at h
  split at h <;> simp_all

theorem first_deviance_error (i : Nat) (s : fit_state) (e : failure × List event)
    (h : first_deviance i s = .error e) : e.1.internal := by
  unfold first_deviance at h
  split at h
  · split at h
    · rename_i e1 h1
      cases h
      rw [set_eta_n_mu_error _ _ _ h1]; trivial
    · cases h
  · cases h

theorem update_beta_error (K : kernels) (s : fit_state) (e : failure × List event)
    (h : update_beta K s = .error e) : e.1.internal := by
  unfold update_beta at h
  split at h
  · rename_i e1 h1
    cases h; exact get_R_f_error K s _ h1
  · split at h
    · rename_i e1 h1
      cases h; rw [solve_step_error _ _ _ _ _ h1]; trivial
    · split at h
      · rename_i e1 h1
        cases h; rw [solve_step_error _ _ _ _ _ h1]; trivial
      · cases h

theorem iteration_error (K : kernels) (trace : Bool) (i : Nat) (s : fit_state)
    (e : failure × List event) (h : iteration K trace i s = .error e) : e.1.internal := by
  unfold iteration at h
  split at h
  · rename_i e1 h1
    cases h; exact first_deviance_error _ _ _ h1
  · split at h
    · rename_i e1 h1
      cases h; exact update_beta_error _ _ _ h1
    · split at h
      · rename_i e1 h1
        cases h; rw [set_eta_n_mu_error _ _ _ h1]; trivial
      · cases h

theorem irls_loop_error (K : kernels) (tol : ℚ) (trace : Bool) (remaining : Nat) :
    ∀ (i : Nat) (s : fit_state) (e : failure × List event),
      irls_loop K tol trace remaining i s = .error e → e.1.internal := by
  induction remaining with
  | zero => intro i s e h; simp [irls_loop] at h
  | succ r ih =>
    intro i s e h
    unfold irls_loop at h
    split at h
    · rename_i e1 h1
      cases h; exact iteration_error _ _ _ _ _ h1
    · split at h
      · cases h
      · exact ih _ _ _ h

theorem compute_valid (K : kernels) (X : mat) (beta0 Ys weights offsets : vec)
    (family : glm_base) (tol : ℚ) (nthreads it_max : Nat) (trace : Bool) (block_size : Nat)
    (hv : valid_input X beta0 Ys weights offsets) :
    compute K X beta0 Ys weights offsets family tol nthreads it_max trace block_size =
      match irls_loop K tol trace it_max 0
          (initial_state X beta0 Ys weights offsets family nthreads block_size) with
      | .error e => .error e
      | .ok r => finish it_max r := by
  obtain ⟨h1, h2, h3, h4⟩ := hv
  unfold compute
  simp only [mat.n_cols] at h2 h3 h4
  simp only [h1, h2, h3, h4, mat.n_cols, ne_eq, not_true_eq_false, ↓reduceIte, initial_state]
  split <;> rename_i hh
  · rw [hh]
  · rw [hh]; simp only [finish]

theorem compute_invalid (K : kernels) (X : mat) (beta0 Ys weights offsets : vec)
    (family : glm_base) (tol : ℚ) (nthreads it_max : Nat) (trace : Bool) (block_size : Nat)
    (hv : ¬ valid_input X beta0 Ys weights offsets) :
    ∃ msg, compute K X beta0 Ys weights offsets family tol nthreads it_max trace block_size =
      .error (failure.invalid_input msg, []) := by
  unfold compute
  dsimp only
  split
  · exact ⟨_, rfl⟩
  · split
    · exact ⟨_, rfl⟩
    · split
      · exact ⟨_, rfl⟩
      · split
        · exact ⟨_, rfl⟩
        · exfalso; apply hv
          unfold valid_input mat.n_cols at *
          simp_all

theorem update_beta_dev (K : kernels) (s s2 : fit_state) (h : update_beta K s = .ok s2) :
    s2.dev = s.dev ∧ ∃ rf, s2.R_f_out = some rf := by
  unfold update_beta at h
  split at h
  · cases h
  · rename_i s1 rf h1
    split at h
    · cases h
    · split at h
      · cases h
      · cases h
        refine ⟨?_, rf, rfl⟩
        unfold get_R_f at h1
        dsimp only at h1
        split at h1
        · cases h1
        · split at h1
          · cases h1
          · cases h1; rfl

theorem set_eta_n_mu_R_f_out (first_it : Bool) (s s1 : fit_state) (d : ℚ)
    (h : set_eta_n_mu first_it s = .ok (s1, d)) : s1.R_f_out = s.R_f_out ∧ s1.dev = s.dev := by
  unfold set_eta_n_mu at h
  dsimp only at h
  split at h
  · cases h
  · cases h; exact ⟨rfl, rfl⟩

theorem iteration_devold (K : kernels) (trace : Bool) (i : Nat) (s : fit_state)
    (r : fit_state × ℚ) (h : iteration K trace i s = .ok r) :
    (∃ s1, first_deviance i s = .ok s1 ∧ r.2 = s1.dev) ∧ ∃ rf, r.1.R_f_out = some rf := by
  unfold iteration at h
  split at h
  · cases h
  · rename_i s1 h1
    split at h
    · cases h
    · rename_i s2 h2
      split at h
      · cases h
      · rename_i s3 dev h3
        cases h
        obtain ⟨hd, rf, hrf⟩ := update_beta_dev K s1 s2 h2
        refine ⟨⟨s1, h1, hd⟩, rf, ?_⟩
        have := (set_eta_n_mu_R_f_out _ _ _ _ h3).1
        simp only [this, trace_step]
        split <;> exact hrf

theorem first_deviance_succ (i : Nat) (s : fit_state) : first_deviance (i + 1) s = .ok s := by
  simp [first_deviance]

theorem dev_seq_of_passes (K : kernels) (trace : Bool) (s0 : fit_state) (k : Nat)
    (s : fit_state) (r : fit_state × ℚ) (hp : passes K trace s0 k = .ok s)
    (hi : iteration K trace k s = .ok r) :
    dev_seq K trace s0 k = some r.2 ∧ dev_seq K trace s0 (k + 1) = some r.1.dev := by
  constructor
  · obtain ⟨⟨s1, h1, h2⟩, -⟩ := iteration_devold K trace k s r hi
    cases k with
    | zero =>
      simp only [passes] at hp
      cases hp
      simp only [dev_seq, h1, h2]
    | succ k =>
      rw [first_deviance_succ] at h1
      cases h1
      simp only [dev_seq, hp, h2]
  · simp only [dev_seq, passes, hp, hi]

theorem conv_at_iff (K : kernels) (tol : ℚ) (trace : Bool) (s0 : fit_state) (k : Nat) :
    conv_at K tol trace s0 k ↔
      ∃ d d1, dev_seq K trace s0 k = some d ∧ dev_seq K trace s0 (k + 1) = some d1 ∧
        converged tol d1 d = true := by
  constructor
  · rintro ⟨s, r, hp, hi, hc⟩
    obtain ⟨h1, h2⟩ := dev_seq_of_passes K trace s0 k s r hp hi
    exact ⟨_, _, h1, h2, hc⟩
  · rintro ⟨d, d1, h0, h1, hc⟩
    simp only [dev_seq, passes] at h1
    split at h1
    · cases h1
    · rename_i s1 hs1
      split at hs1
      · cases hs1
      · rename_i s hs
        split at hs1
        · cases hs1
        · rename_i r hr
          cases hs1
          cases h1
          obtain ⟨h1, -⟩ := dev_seq_of_passes K trace s0 k s r hs hr
          rw [h0] at h1
          cases h1
          exact ⟨s, r, hs, hr, hc⟩

theorem irls_loop_sound (K : kernels) (tol : ℚ) (trace : Bool) (s0 : fit_state)
    (remaining : Nat) :
    ∀ (i : Nat) (s : fit_state) (r : fit_state × Nat), passes K trace s0 i = .ok s →
      irls_loop K tol trace remaining i s = .ok r →
      (∀ j, i ≤ j → j < r.2 → ¬ conv_at K tol trace s0 j) ∧
        ((r.2 < i + remaining ∧ i ≤ r.2 ∧ conv_at K tol trace s0 r.2 ∧
            passes K trace s0 (r.2 + 1) = .ok r.1) ∨
          (r.2 = i + remaining ∧ passes K trace s0 r.2 = .ok r.1)) := by
  induction remaining with
  | zero =>
    intro i s r hp h
    simp only [irls_loop] at h
    cases h
    refine ⟨fun j h1 h2 => absurd h2 (by simpa using h1), Or.inr ⟨rfl, hp⟩⟩
  | succ m ih =>
    intro i s r hp h
    unfold irls_loop at h
    split at h
    · cases h
    · rename_i s1 devold h1
      have hp1 : passes K trace s0 (i + 1) = .ok s1 := by simp only [passes, hp, h1]
      split at h
      · rename_i hc
        cases h
        refine ⟨fun j h1 h2 => absurd h2 (by simpa using h1), Or.inl ⟨by omega, le_refl _, ?_, hp1⟩⟩
        exact ⟨s, (s1, devold), hp, h1, hc⟩
      · rename_i hc
        obtain ⟨ha, hb⟩ := ih (i + 1) s1 r hp1 h
        have hle : i + 1 ≤ r.2 := by
          rcases hb with hb | hb
          · exact hb.2.1
          · omega
        refine ⟨?_, ?_⟩
        · intro j hj1 hj2
          by_cases hji : j = i
          · subst hji
            rintro ⟨s', r', hp', hi', hc'⟩
            rw [hp] at hp'; cases hp'
            rw [h1] at hi'; cases hi'
            exact hc hc'
          · exact ha j (by omega) hj2
        · rcases hb with hb | hb
          · exact Or.inl ⟨by omega, by omega, hb.2.2⟩
          · exact Or.inr ⟨by omega, hb.2⟩

theorem passes_ok_of_le (K : kernels) (trace : Bool) (s0 : fit_state) (k : Nat) :
    ∀ (s : fit_state), passes K trace s0 k = .ok s → ∀ j, j ≤ k →
      ∃ s1, passes K trace s0 j = .ok s1 := by
  induction k with
  | zero => intro s h j hj; exact ⟨s, by rw [Nat.le_zero.mp hj]; exact h⟩
  | succ k ih =>
    intro s h j hj
    rcases Nat.lt_or_ge j (k + 1) with hlt | hge
    · simp only [passes] at h
      split at h
      · cases h
      · rename_i s1 hs1
        exact ih s1 hs1 j (by omega)
    · have : j = k + 1 := by omega
      subst this; exact ⟨s, h⟩

theorem irls_loop_complete (K : kernels) (tol : ℚ) (trace : Bool) (s0 : fit_state)
    (remaining : Nat) :
    ∀ (i : Nat) (s : fit_state) (k : Nat), passes K trace s0 i = .ok s → i ≤ k →
      k < i + remaining → conv_at K tol trace s0 k →
      (∀ j, i ≤ j → j < k → ¬ conv_at K tol trace s0 j) →
      ∃ s1, passes K trace s0 (k + 1) = .ok s1 ∧
        irls_loop K tol trace remaining i s = .ok (s1, k) := by
  induction remaining with
  | zero => intro i s k _ h1 h2; omega
  | succ m ih =>
    intro i s k hp hik hk hconv hmin
    obtain ⟨sk, rk, hpk, hik1, hck⟩ := hconv
    have hconv : conv_at K tol trace s0 k := ⟨sk, rk, hpk, hik1, hck⟩
    have hpk1 : passes K trace s0 (k + 1) = .ok rk.1 := by simp only [passes, hpk, hik1]
    obtain ⟨si1, hsi1⟩ := passes_ok_of_le K trace s0 (k + 1) rk.1 hpk1 (i + 1) (by omega)
    have hit : ∃ r, iteration K trace i s = .ok r ∧ r.1 = si1 := by
      simp only [passes, hp] at hsi1
      split at hsi1
      · cases hsi1
      · rename_i r hr
        cases hsi1
        exact ⟨r, hr, rfl⟩
    obtain ⟨r, hr, hr1⟩ := hit
    unfold irls_loop
    rw [hr]
    dsimp only
    by_cases hc : converged tol r.1.dev r.2 = true
    · have hki : k = i := by
        by_contra hne
        exact hmin i (le_refl _) (by omega) ⟨s, r, hp, hr, hc⟩
      subst hki
      rw [hp] at hpk; cases hpk
      rw [hr] at hik1; cases hik1
      simp only [hc, ↓reduceIte]
      exact ⟨_, hpk1, rfl⟩
    · have hki : k ≠ i := by
        rintro rfl
        rw [hp] at hpk; cases hpk
        rw [hr] at hik1; cases hik1
        exact hc hck
      simp only [hc]
      rw [hr1]
      exact ih (i + 1) si1 k hsi1 (by omega) (by omega) hconv
        (fun j h1 h2 => hmin j (by omega) h2)

theorem converged_iff (tol dev devold : ℚ) :
    converged tol dev devold = true ↔ |dev - devold| / (1 / 10 + |dev|) < tol := by
  simp [converged]

theorem passes_succ_R_f_out (K : kernels) (trace : Bool) (s0 : fit_state) (k : Nat)
    (s : fit_state) (h : passes K trace s0 (k + 1) = .ok s) : ∃ rf, s.R_f_out = some rf := by
  simp only [passes] at h
  split at h
  · cases h
  · split at h
    · cases h
    · rename_i r hr
      cases h
      exact (iteration_devold _ _ _ _ _ hr).2

theorem uadd_one_of_lt (i : Nat) (h : i + 1 < uword_size) : uadd i 1 = i + 1 := by
  unfold uadd; exact Nat.mod_eq_of_lt h

/-! ## The partition loop -/

theorem block_end_eq (n bs i : Nat) (hi : i < n) (hn : n < 2 ^ 63) (hbs : bs < uword_size)
    (hinv : i = 0 ∨ (1 ≤ bs ∧ bs ≤ i)) :
    block_end n bs i = (if bs = 0 then n - 1 else min (n - 1) (i + bs - 1)) ∧
      uadd (block_end n bs i) 1 = block_end n bs i + 1 := by
  unfold block_end uadd usub uword_size at *
  split <;> omega

theorem block_end_bounds (n bs i : Nat) (hi : i < n) (hn : n < 2 ^ 63) (hbs : bs < uword_size)
    (hinv : i = 0 ∨ (1 ≤ bs ∧ bs ≤ i)) :
    i ≤ block_end n bs i ∧ block_end n bs i < n ∧
      (block_end n bs i + 1 < n → 1 ≤ bs ∧ block_end n bs i + 1 = i + bs) ∧
      (1 ≤ bs → block_end n bs i + 1 - i ≤ bs) := by
  obtain ⟨h1, -⟩ := block_end_eq n bs i hi hn hbs hinv
  rw [h1]
  split <;> omega

theorem block_ranges_tiles (n bs : Nat) (hn : n < 2 ^ 63) (hbs : bs < uword_size) :
    ∀ (fuel i : Nat), i ≤ n → n - i ≤ fuel → (i < n → i = 0 ∨ (1 ≤ bs ∧ bs ≤ i)) →
      tiles i n (block_ranges n bs fuel i) := by
  intro fuel
  induction fuel with
  | zero =>
    intro i h1 h2 _
    simp only [block_ranges, tiles]; omega
  | succ f ih =>
    intro i h1 h2 hinv
    unfold block_ranges
    by_cases hi : i < n
    · simp only [hi, ↓reduceIte, tiles, true_and]
      obtain ⟨-, hu⟩ := block_end_eq n bs i hi hn hbs (hinv hi)
      obtain ⟨hb1, hb2, hb3, -⟩ := block_end_bounds n bs i hi hn hbs (hinv hi)
      refine ⟨hb1, hb2, ?_⟩
      rw [hu]
      apply ih
      · omega
      · omega
      · intro hlt
        obtain ⟨hh1, hh2⟩ := hb3 hlt
        right; omega
    · simp only [hi, ↓reduceIte, tiles]; omega

theorem get_R_f_loop_eq (n bs : Nat) (hn : n < 2 ^ 63) (hbs : bs < uword_size) :
    ∀ (fuel i : Nat) (gens : List (Nat × Nat)) (ev : List event), i ≤ n → n - i ≤ fuel →
      (i < n → i = 0 ∨ (1 ≤ bs ∧ bs ≤ i)) →
      get_R_f_loop n bs fuel i gens ev =
        some (gens ++ block_ranges n bs fuel i,
          ev ++ (block_ranges n bs fuel i).map (fun r => event.generator r.1 r.2)) := by
  intro fuel
  induction fuel with
  | zero =>
    intro i gens ev h1 h2 _
    have : ¬ i < n := by omega
    simp [get_R_f_loop, block_ranges, this]
  | succ f ih =>
    intro i gens ev h1 h2 hinv
    unfold get_R_f_loop block_ranges
    by_cases hi : i < n
    · simp only [hi, ↓reduceIte]
      obtain ⟨-, hu⟩ := block_end_eq n bs i hi hn hbs (hinv hi)
      obtain ⟨hb1, hb2, hb3, -⟩ := block_end_bounds n bs i hi hn hbs (hinv hi)
      have hstep := ih (uadd (block_end n bs i) 1) (gens ++ [(i, block_end n bs i)])
        (ev ++ [event.generator i (block_end n bs i)]) (by omega) (by omega)
        (by
          intro hlt
          rw [hu] at hlt ⊢
          obtain ⟨hh1, hh2⟩ := hb3 hlt
          right; omega)
      simp only [block_end] at hstep ⊢
      rw [hstep]
      simp
    · simp [hi]

theorem worker_frame (first_it : Bool) (data : data_holder_base) (a e : Nat) :
    (worker first_it data a e).1.block_size = data.block_size ∧
      (worker first_it data a e).1.X = data.X ∧
      (worker first_it data a e).1.Ys = data.Ys ∧
      (worker first_it data a e).1.weights = data.weights ∧
      (worker first_it data a e).1.offsets = data.offsets ∧
      (worker first_it data a e).1.beta = data.beta ∧
      (worker first_it data a e).1.family = data.family ∧
      (worker first_it data a e).1.p = data.p ∧
      (worker first_it data a e).1.n = data.n ∧
      (worker first_it data a e).1.max_threads = data.max_threads := by
  simp [worker]

theorem set_eta_n_mu_loop_eq (first_it : Bool) (n bs : Nat) (hn : n < 2 ^ 63)
    (hbs : bs < uword_size) :
    ∀ (fuel i : Nat) (data : data_holder_base) (futures : List ℚ) (ev : List event),
      data.block_size = bs → i ≤ n → n - i ≤ fuel →
      (i < n → i = 0 ∨ (1 ≤ bs ∧ bs ≤ i)) →
      set_eta_n_mu_loop first_it n fuel i data futures ev =
        some ((run_workers first_it data (block_ranges n bs fuel i)).1,
          futures ++ (run_workers first_it data (block_ranges n bs fuel i)).2,
          ev ++ (block_ranges n bs fuel i).map (fun r => event.worker_task first_it r.1 r.2)) := by
  intro fuel
  induction fuel with
  | zero =>
    intro i data futures ev _ h1 h2 _
    have : ¬ i < n := by omega
    simp [set_eta_n_mu_loop, block_ranges, run_workers, this]
  | succ f ih =>
    intro i data futures ev hd h1 h2 hinv
    unfold set_eta_n_mu_loop block_ranges
    by_cases hi : i < n
    · simp only [hi, ↓reduceIte]
      obtain ⟨-, hu⟩ := block_end_eq n bs i hi hn hbs (hinv hi)
      obtain ⟨hb1, hb2, hb3, -⟩ := block_end_bounds n bs i hi hn hbs (hinv hi)
      have hstep := ih (uadd (block_end n bs i) 1) (worker first_it data i (block_end n bs i)).1
        (futures ++ [(worker first_it data i (block_end n bs i)).2])
        (ev ++ [event.worker_task first_it i (block_end n bs i)])
        (by rw [(worker_frame first_it data i (block_end n bs i)).1]; exact hd)
        (by omega) (by omega)
        (by
          intro hlt
          rw [hu] at hlt ⊢
          obtain ⟨hh1, hh2⟩ := hb3 hlt
          right; omega)
      simp only [block_end, hd] at hstep ⊢
      rw [hstep]
      simp [run_workers]
    · simp [hi, run_workers]

theorem tiles_mem : ∀ (l : List (Nat × Nat)) (a b : Nat), tiles a b l →
    ∀ r ∈ l, a ≤ r.1 ∧ r.1 ≤ r.2 ∧ r.2 < b := by
  intro l
  induction l with
  | nil => intro a b _ r hr; cases hr
  | cons x rest ih =>
    intro a b h r hr
    obtain ⟨h1, h2, h3, h4⟩ := h
    rcases List.mem_cons.mp hr with rfl | hr
    · exact ⟨by omega, h2, h3⟩
    · have := ih _ _ h4 r hr
      omega

theorem tiles_le : ∀ (l : List (Nat × Nat)) (a b : Nat), tiles a b l → a ≤ b := by
  intro l
  induction l with
  | nil => intro a b h; exact le_of_eq h
  | cons x rest ih =>
    intro a b h
    obtain ⟨h1, h2, h3, h4⟩ := h
    omega

theorem tiles_pairwise : ∀ (l : List (Nat × Nat)) (a b : Nat), tiles a b l →
    List.Pairwise (fun r r1 => r.2 < r1.1) l := by
  intro l
  induction l with
  | nil => intro a b _; exact List.Pairwise.nil
  | cons x rest ih =>
    intro a b h
    obtain ⟨h1, h2, h3, h4⟩ := h
    refine List.Pairwise.cons ?_ (ih _ _ h4)
    intro r hr
    have := tiles_mem rest _ _ h4 r hr
    omega

theorem tiles_cover : ∀ (l : List (Nat × Nat)) (a b : Nat), tiles a b l →
    ∀ i, a ≤ i → i < b → ∃ r ∈ l, r.1 ≤ i ∧ i ≤ r.2 := by
  intro l
  induction l with
  | nil => intro a b h i h1 h2; simp only [tiles] at h; omega
  | cons x rest ih =>
    intro a b h i hi1 hi2
    obtain ⟨h1, h2, h3, h4⟩ := h
    by_cases hx : i ≤ x.2
    · exact ⟨x, List.mem_cons_self _ _, by omega, hx⟩
    · obtain ⟨r, hr, hr1⟩ := ih _ _ h4 i (by omega) hi2
      exact ⟨r, List.mem_cons_of_mem _ hr, hr1⟩

theorem block_ranges_head (n bs : Nat) (fuel i : Nat) :
    ∀ y ∈ (block_ranges n bs fuel i).head?, y.1 = i ∧ i < n := by
  intro y hy
  cases fuel with
  | zero => simp [block_ranges] at hy
  | succ f =>
    unfold block_ranges at hy
    by_cases hi : i < n
    · simp only [hi, ↓reduceIte, List.head?_cons, Option.mem_def, Option.some.injEq] at hy
      subst hy; exact ⟨rfl, hi⟩
    · simp [hi] at hy

theorem block_ranges_sizes (n bs : Nat) (hn : n < 2 ^ 63) (hbs : bs < uword_size)
    (h1 : 1 ≤ bs) :
    ∀ (fuel i : Nat), (i < n → i = 0 ∨ (1 ≤ bs ∧ bs ≤ i)) →
      (∀ r ∈ block_ranges n bs fuel i, r.2 + 1 - r.1 ≤ bs) ∧
        List.Chain' (fun r r1 => r1.1 = r.2 + 1 ∧ r.2 + 1 - r.1 = bs)
          (block_ranges n bs fuel i) := by
  intro fuel
  induction fuel with
  | zero => intro i _; simp [block_ranges]
  | succ f ih =>
    intro i hinv
    unfold block_ranges
    by_cases hi : i < n
    · simp only [hi, ↓reduceIte]
      obtain ⟨-, hu⟩ := block_end_eq n bs i hi hn hbs (hinv hi)
      obtain ⟨hb1, hb2, hb3, hb4⟩ := block_end_bounds n bs i hi hn hbs (hinv hi)
      have hinv1 : uadd (block_end n bs i) 1 < n →
          uadd (block_end n bs i) 1 = 0 ∨ (1 ≤ bs ∧ bs ≤ uadd (block_end n bs i) 1) := by
        intro hlt
        rw [hu] at hlt ⊢
        obtain ⟨hh1, hh2⟩ := hb3 hlt
        right; omega
      obtain ⟨ih1, ih2⟩ := ih (uadd (block_end n bs i) 1) hinv1
      refine ⟨?_, ?_⟩
      · intro r hr
        rcases List.mem_cons.mp hr with rfl | hr
        · exact hb4 h1
        · exact ih1 r hr
      · rw [List.chain'_cons']
        refine ⟨?_, ih2⟩
        intro y hy
        obtain ⟨hy1, hy2⟩ := block_ranges_head n bs f _ y hy
        rw [hu] at hy1 hy2
        obtain ⟨-, hh2⟩ := hb3 hy2
        simp only
        omega
    · simp [hi]

theorem block_ranges_fuel (n bs : Nat) (hn : n < 2 ^ 63) (hbs : bs < uword_size) :
    ∀ (fuel fuel1 i : Nat), n - i ≤ fuel → n - i ≤ fuel1 →
      (i < n → i = 0 ∨ (1 ≤ bs ∧ bs ≤ i)) →
      block_ranges n bs fuel i = block_ranges n bs fuel1 i := by
  intro fuel
  induction fuel with
  | zero =>
    intro fuel1 i h1 _ _
    have hi : ¬ i < n := by omega
    cases fuel1 with
    | zero => rfl
    | succ g => simp [block_ranges, hi]
  | succ f ih =>
    intro fuel1 i h1 h2 hinv
    by_cases hi : i < n
    · cases fuel1 with
      | zero => omega
      | succ g =>
        unfold block_ranges
        simp only [hi, ↓reduceIte]
        obtain ⟨-, hu⟩ := block_end_eq n bs i hi hn hbs (hinv hi)
        obtain ⟨hb1, hb2, hb3, -⟩ := block_end_bounds n bs i hi hn hbs (hinv hi)
        rw [ih g (uadd (block_end n bs i) 1) (by omega) (by omega)
          (by
            intro hlt
            rw [hu] at hlt ⊢
            obtain ⟨hh1, hh2⟩ := hb3 hlt
            right; omega)]
    · cases fuel1 with
      | zero => simp [block_ranges, hi]
      | succ g => simp [block_ranges, hi]

/-! ## The block data generator, observation by observation -/

theorem view_getD {α : Type} (v : List α) (a n k : Nat) (d : α) (h : k < n) :
    (view v a n).getD k d = v.getD (a + k) d := by
  simp [view, List.getD_eq_getElem?_getD, List.getElem?_take, h]

theorem view_length {α : Type} (v : List α) (a n : Nat) (h : a + n ≤ v.length) :
    (view v a n).length = n := by
  simp only [view, List.length_take, List.length_drop]; omega

theorem block_len (a e : Nat) (h1 : a ≤ e) (h2 : e < 2 ^ 63) :
    uadd (usub e a) 1 = e + 1 - a := by
  unfold uadd usub uword_size; omega

theorem good_flag_ne_zero (w m : ℚ) : good_flag w m ≠ 0 ↔ 0 < w ∧ zero_eps ≤ |m| := by
  unfold good_flag
  generalize zero_eps = ε
  by_cases hw : 0 < w
  · by_cases h1 : -ε < m
    · by_cases h2 : m < ε
      · have : ¬ ε ≤ |m| := by
          rw [not_le, abs_lt]; exact ⟨h1, h2⟩
        simp [hw, h1, h2, this]
      · have : ε ≤ |m| := le_trans (not_lt.mp h2) (le_abs_self m)
        simp [hw, h1, h2, this]
    · have : ε ≤ |m| := by
        have := not_lt.mp h1
        exact le_trans (by linarith) (neg_le_abs m)
      simp only [hw, h1, this, ↓reduceIte, zero_add, and_self, iff_true]
      split <;> simp
  · simp [hw]

theorem good_rows_eq (data : data_holder_base) (a e : Nat) (h : range_ok data a e) :
    good_rows data a e =
      (List.range (e + 1 - a)).filter (fun k => decide (is_good data (a + k))) := by
  obtain ⟨h1, h2, h3, h4⟩ := h
  unfold good_rows find
  simp only [block_len a e h1 h2]
  have hl : (List.zipWith good_flag (view data.weights a (e + 1 - a))
      ((view data.eta a (e + 1 - a)).map data.family.mu_eta)).length = e + 1 - a := by
    simp only [List.length_zipWith, List.length_map]
    rw [view_length _ _ _ (by omega), view_length _ _ _ (by omega)]
    simp
  rw [hl]
  apply List.filter_congr
  intro k hk
  have hk : k < e + 1 - a := List.mem_range.mp hk
  have hv : (List.zipWith good_flag (view data.weights a (e + 1 - a))
      ((view data.eta a (e + 1 - a)).map data.family.mu_eta)).getD k 0 =
      good_flag (data.weights.getD (a + k) 0) (mu_eta_at data (a + k)) := by
    have e1 : k < (view data.weights a (e + 1 - a)).length := by
      rw [view_length _ _ _ (by omega)]; exact hk
    have e2 : k < (view data.eta a (e + 1 - a)).length := by
      rw [view_length _ _ _ (by omega)]; exact hk
    rw [← view_getD data.weights a (e + 1 - a) k 0 hk, mu_eta_at,
      ← view_getD data.eta a (e + 1 - a) k 0 hk]
    simp [List.getD_eq_getElem?_getD, List.getElem?_zipWith, e1, e2]
  show decide (_ ≠ 0) = decide _
  rw [hv]
  exact decide_eq_decide.mpr (good_flag_ne_zero _ _)

theorem zipWith_map_same {α β γ δ : Type} (l : List α) (f : β → γ → δ) (g1 : α → β)
    (g2 : α → γ) : List.zipWith f (l.map g1) (l.map g2) = l.map (fun k => f (g1 k) (g2 k)) := by
  rw [List.zipWith_map, List.zipWith_same]

theorem good_rows_lt (data : data_holder_base) (a e : Nat) (h : range_ok data a e) :
    ∀ k ∈ good_rows data a e, k < e + 1 - a ∧ is_good data (a + k) := by
  intro k hk
  rw [good_rows_eq data a e h, List.mem_filter, List.mem_range] at hk
  exact ⟨hk.1, of_decide_eq_true hk.2⟩

theorem elem_view (v : vec) (a n : Nat) (idx : List Nat) (h : ∀ k ∈ idx, k < n) :
    elem (view v a n) idx = idx.map (fun k => v.getD (a + k) 0) := by
  unfold elem
  exact List.map_congr_left (fun k hk => view_getD v a n k 0 (h k hk))

theorem get_chunk_eq (K : kernels) (data : data_holder_base) (a e : Nat)
    (h : range_ok data a e) :
    get_chunk K data a e = chunk_of K data ((good_rows data a e).map (fun k => a + k)) := by
  have hlt : ∀ k ∈ good_rows data a e, k < e + 1 - a := fun k hk =>
    (good_rows_lt data a e h k hk).1
  obtain ⟨h1, h2, h3, h4⟩ := h
  have hmev : elem ((view data.eta a (e + 1 - a)).map data.family.mu_eta) (good_rows data a e) =
      (good_rows data a e).map (fun k => mu_eta_at data (a + k)) := by
    unfold elem
    apply List.map_congr_left
    intro k hk
    have hk1 := hlt k hk
    have e2 : k < (view data.eta a (e + 1 - a)).length := by
      rw [view_length _ _ _ (by omega)]; exact hk1
    rw [mu_eta_at, ← view_getD data.eta a (e + 1 - a) k 0 hk1]
    simp [List.getD_eq_getElem?_getD, e2]
  have hcol : (good_rows data a e).map
      (mat.col ⟨data.p, view data.X.cols a (e + 1 - a)⟩) =
      (good_rows data a e).map (fun k => data.X.col (a + k)) := by
    apply List.map_congr_left
    intro k hk
    simp only [mat.col]
    exact view_getD data.X.cols a (e + 1 - a) k [] (hlt k hk)
  unfold get_chunk chunk_of
  simp only [block_len a e h1 h2, hmev, hcol, elem_view _ a _ _ hlt, List.map_map,
    zipWith_map_same, List.map_map]
  simp only [weighted_row, working_weight, working_weight_sq, working_response, Function.comp_def]

theorem range_map_getD (l : List ℚ) (p : Nat) (h : l.length = p) :
    (List.range p).map (fun j => l.getD j 0) = l := by
  apply List.ext_getElem
  · simp [h]
  · intro i h1 h2
    simp [List.getD_eq_getElem?_getD, h2]

theorem kept_mem_iff (data : data_holder_base) (a e : Nat) (h : range_ok data a e) (i : Nat) :
    i ∈ (good_rows data a e).map (fun k => a + k) ↔ a ≤ i ∧ i ≤ e ∧ is_good data i := by
  rw [good_rows_eq data a e h]
  simp only [List.mem_map, List.mem_filter, List.mem_range, decide_eq_true_eq]
  constructor
  · rintro ⟨k, ⟨hk1, hk2⟩, rfl⟩
    exact ⟨by omega, by omega, hk2⟩
  · rintro ⟨h1, h2, h3⟩
    refine ⟨i - a, ⟨by omega, ?_⟩, by omega⟩
    have : a + (i - a) = i := by omega
    rw [this]; exact h3

theorem kept_sorted (data : data_holder_base) (a e : Nat) (h : range_ok data a e) :
    List.Pairwise (fun i j => i < j) ((good_rows data a e).map (fun k => a + k)) := by
  rw [good_rows_eq data a e h, List.pairwise_map]
  apply List.Pairwise.filter
  exact (List.pairwise_lt_range _).imp (fun h => by omega)

theorem chunk_of_row (K : kernels) (data : data_holder_base) (idx : List Nat) (r i : Nat)
    (hr : idx[r]? = some i) (hp : (data.X.col i).length = data.p) :
    (chunk_of K data idx).X.row r = weighted_row K data i ∧
      (chunk_of K data idx).Y[r]? = some (working_response data i * working_weight K data i) := by
  have hlt : r < idx.length := by
    by_contra hge
    rw [List.getElem?_eq_none (by omega)] at hr
    cases hr
  have hi : idx[r] = i := by
    rw [List.getElem?_eq_getElem hlt] at hr
    exact Option.some.inj hr
  constructor
  · simp only [chunk_of, mat.t, mat.rows, mat.row, List.map_map]
    have hw : (weighted_row K data i).length = data.p := by
      simp only [weighted_row, List.length_map]; exact hp
    rw [← range_map_getD (weighted_row K data i) data.p hw]
    apply List.map_congr_left
    intro j _
    simp [mat.row, List.getD_eq_getElem?_getD, hlt, hi]
  · simp [chunk_of, hr]

theorem chunk_of_congr (K : kernels) (d1 d2 : data_holder_base) (idx : List Nat)
    (hf : d1.family = d2.family) (hp : d1.p = d2.p)
    (h : ∀ i ∈ idx, d1.weights.getD i 0 = d2.weights.getD i 0 ∧
      d1.eta.getD i 0 = d2.eta.getD i 0 ∧ d1.mu.getD i 0 = d2.mu.getD i 0 ∧
      d1.Ys.getD i 0 = d2.Ys.getD i 0 ∧ d1.offsets.getD i 0 = d2.offsets.getD i 0 ∧
      d1.X.col i = d2.X.col i) :
    chunk_of K d1 idx = chunk_of K d2 idx := by
  have hw : ∀ i ∈ idx, working_weight K d1 i = working_weight K d2 i := by
    intro i hi
    obtain ⟨h1, h2, h3, h4, h5, h6⟩ := h i hi
    simp only [working_weight, working_weight_sq, mu_eta_at, h1, h2, h3, hf]
  have hz : ∀ i ∈ idx, working_response d1 i = working_response d2 i := by
    intro i hi
    obtain ⟨h1, h2, h3, h4, h5, h6⟩ := h i hi
    simp only [working_response, mu_eta_at, h2, h3, h4, h5, hf]
  have hrow : idx.map (weighted_row K d1) = idx.map (weighted_row K d2) := by
    apply List.map_congr_left
    intro i hi
    simp only [weighted_row, hw i hi, (h i hi).2.2.2.2.2]
  have hy : idx.map (fun i => working_response d1 i * working_weight K d1 i) =
      idx.map (fun i => working_response d2 i * working_weight K d2 i) := by
    apply List.map_congr_left
    intro i hi
    simp only [hw i hi, hz i hi]
  simp only [chunk_of, hrow, hy, hp]

theorem good_rows_congr (d1 d2 : data_holder_base) (a e : Nat) (h1 : range_ok d1 a e)
    (h2 : range_ok d2 a e) (hf : d1.family = d2.family)
    (h : ∀ i, a ≤ i → i ≤ e → d1.weights.getD i 0 = d2.weights.getD i 0 ∧
      d1.eta.getD i 0 = d2.eta.getD i 0) :
    good_rows d1 a e = good_rows d2 a e := by
  rw [good_rows_eq d1 a e h1, good_rows_eq d2 a e h2]
  apply List.filter_congr
  intro k hk
  have hk := List.mem_range.mp hk
  obtain ⟨e1, e2⟩ := h (a + k) (by omega) (by omega)
  simp only [is_good, mu_eta_at, e1, e2, hf]

/-! ## The block data generator over an arbitrary arithmetic, observation by observation -/

namespace fp

theorem good_flag_ne_zero_fp {S : Type} (A : arith S) (w m : S) :
    good_flag A w m ≠ 0 ↔
      A.lt A.zero w = true ∧
        ¬ (A.lt (A.neg A.zero_eps) m = true ∧ A.lt m A.zero_eps = true) := by
  unfold good_flag
  cases A.lt A.zero w <;> cases A.lt (A.neg A.zero_eps) m <;> cases A.lt m A.zero_eps <;> simp

theorem good_rows_eq_fp {S : Type} (A : arith S) (data : data_holder_base S) (a e : Nat)
    (h : range_ok data a e) :
    good_rows A data a e =
      (List.range (e + 1 - a)).filter (fun k => decide (is_good A data (a + k))) := by
  obtain ⟨h1, h2, h3, h4⟩ := h
  unfold good_rows find
  simp only [block_len a e h1 h2]
  have hl : (List.zipWith (good_flag A) (view data.weights a (e + 1 - a))
      ((view data.eta a (e + 1 - a)).map data.family.mu_eta)).length = e + 1 - a := by
    simp only [List.length_zipWith, List.length_map]
    rw [view_length _ _ _ (by omega), view_length _ _ _ (by omega)]
    simp
  rw [hl]
  apply List.filter_congr
  intro k hk
  have hk : k < e + 1 - a := List.mem_range.mp hk
  have hv : (List.zipWith (good_flag A) (view data.weights a (e + 1 - a))
      ((view data.eta a (e + 1 - a)).map data.family.mu_eta)).getD k 0 =
      good_flag A (data.weights.getD (a + k) A.zero) (mu_eta_at A data (a + k)) := by
    have e1 : k < (view data.weights a (e + 1 - a)).length := by
      rw [view_length _ _ _ (by omega)]; exact hk
    have e2 : k < (view data.eta a (e + 1 - a)).length := by
      rw [view_length _ _ _ (by omega)]; exact hk
    rw [← view_getD data.weights a (e + 1 - a) k A.zero hk, mu_eta_at,
      ← view_getD data.eta a (e + 1 - a) k A.zero hk]
    simp [List.getD_eq_getElem?_getD, List.getElem?_zipWith, e1, e2]
  show decide (_ ≠ 0) = decide _
  rw [hv]
  exact decide_eq_decide.mpr (good_flag_ne_zero_fp A _ _)

theorem good_rows_lt_fp {S : Type} (A : arith S) (data : data_holder_base S) (a e : Nat)
    (h : range_ok data a e) :
    ∀ k ∈ good_rows A data a e, k < e + 1 - a ∧ is_good A data (a + k) := by
  intro k hk
  rw [good_rows_eq_fp A data a e h, List.mem_filter, List.mem_range] at hk
  exact ⟨hk.1, of_decide_eq_true hk.2⟩

theorem elem_view_fp {S : Type} (z : S) (v : List S) (a n : Nat) (idx : List Nat)
    (h : ∀ k ∈ idx, k < n) :
    elem z (view v a n) idx = idx.map (fun k => v.getD (a + k) z) := by
  unfold elem
  exact List.map_congr_left (fun k hk => view_getD v a n k z (h k hk))

theorem get_chunk_eq_fp {S : Type} (A : arith S) (data : data_holder_base S) (a e : Nat)
    (h : range_ok data a e) :
    get_chunk A data a e = chunk_of A data ((good_rows A data a e).map (fun k => a + k)) := by
  have hlt : ∀ k ∈ good_rows A data a e, k < e + 1 - a := fun k hk =>
    (good_rows_lt_fp A data a e h k hk).1
  obtain ⟨h1, h2, h3, h4⟩ := h
  have hmev : elem A.zero ((view data.eta a (e + 1 - a)).map data.family.mu_eta)
      (good_rows A data a e) =
      (good_rows A data a e).map (fun k => mu_eta_at A data (a + k)) := by
    unfold elem
    apply List.map_congr_left
    intro k hk
    have hk1 := hlt k hk
    have e2 : k < (view data.eta a (e + 1 - a)).length := by
      rw [view_length _ _ _ (by omega)]; exact hk1
    rw [mu_eta_at, ← view_getD data.eta a (e + 1 - a) k A.zero hk1]
    simp [List.getD_eq_getElem?_getD, e2]
  have hcol : (good_rows A data a e).map
      (mat.col ⟨data.p, view data.X.cols a (e + 1 - a)⟩) =
      (good_rows A data a e).map (fun k => data.X.col (a + k)) := by
    apply List.map_congr_left
    intro k hk
    simp only [mat.col]
    exact view_getD data.X.cols a (e + 1 - a) k [] (hlt k hk)
  unfold get_chunk chunk_of
  simp only [block_len a e h1 h2, hmev, hcol, elem_view_fp _ _ a _ _ hlt, List.map_map,
    zipWith_map_same, List.map_map]
  simp only [weighted_row, working_weight, working_response, Function.comp_def]

theorem range_map_getD_fp {S : Type} (z : S) (l : List S) (p : Nat) (h : l.length = p) :
    (List.range p).map (fun j => l.getD j z) = l := by
  apply List.ext_getElem
  · simp [h]
  · intro i h1 h2
    simp [List.getD_eq_getElem?_getD, h2]

theorem kept_mem_iff_fp {S : Type} (A : arith S) (data : data_holder_base S) (a e : Nat)
    (h : range_ok data a e) (i : Nat) :
    i ∈ (good_rows A data a e).map (fun k => a + k) ↔ a ≤ i ∧ i ≤ e ∧ is_good A data i := by
  rw [good_rows_eq_fp A data a e h]
  simp only [List.mem_map, List.mem_filter, List.mem_range, decide_eq_true_eq]
  constructor
  · rintro ⟨k, ⟨hk1, hk2⟩, rfl⟩
    exact ⟨by omega, by omega, hk2⟩
  · rintro ⟨h1, h2, h3⟩
    refine ⟨i - a, ⟨by omega, ?_⟩, by omega⟩
    have : a + (i - a) = i := by omega
    rw [this]; exact h3

theorem kept_sorted_fp {S : Type} (A : arith S) (data : data_holder_base S) (a e : Nat)
    (h : range_ok data a e) :
    List.Pairwise (fun i j => i < j) ((good_rows A data a e).map (fun k => a + k)) := by
  rw [good_rows_eq_fp A data a e h, List.pairwise_map]
  apply List.Pairwise.filter
  exact (List.pairwise_lt_range _).imp (fun h => by omega)

theorem chunk_of_row_fp {S : Type} (A : arith S) (data : data_holder_base S) (idx : List Nat)
    (r i : Nat) (hr : idx[r]? = some i) (hp : (data.X.col i).length = data.p) :
    (chunk_of A data idx).X.row A.zero r = weighted_row A data i ∧
      (chunk_of A data idx).Y[r]? =
        some (A.mul (working_response A data i) (working_weight A data i)) := by
  have hlt : r < idx.length := by
    by_contra hge
    rw [List.getElem?_eq_none (by omega)] at hr
    cases hr
  have hi : idx[r] = i := by
    rw [List.getElem?_eq_getElem hlt] at hr
    exact Option.some.inj hr
  constructor
  · simp only [chunk_of, mat.t, mat.rows, mat.row, List.map_map]
    have hw : (weighted_row A data i).length = data.p := by
      simp only [weighted_row, List.length_map]; exact hp
    rw [← range_map_getD_fp A.zero (weighted_row A data i) data.p hw]
    apply List.map_congr_left
    intro j _
    simp [mat.row, List.getD_eq_getElem?_getD, hlt, hi]
  · simp [chunk_of, hr]

theorem chunk_of_congr_fp {S : Type} (A : arith S) (d1 d2 : data_holder_base S) (idx : List Nat)
    (hf : d1.family = d2.family) (hp : d1.p = d2.p)
    (h : ∀ i ∈ idx, d1.weights.getD i A.zero = d2.weights.getD i A.zero ∧
      d1.eta.getD i A.zero = d2.eta.getD i A.zero ∧ d1.mu.getD i A.zero = d2.mu.getD i A.zero ∧
      d1.Ys.getD i A.zero = d2.Ys.getD i A.zero ∧
      d1.offsets.getD i A.zero = d2.offsets.getD i A.zero ∧
      d1.X.col i = d2.X.col i) :
    chunk_of A d1 idx = chunk_of A d2 idx := by
  have hw : ∀ i ∈ idx, working_weight A d1 i = working_weight A d2 i := by
    intro i hi
    obtain ⟨h1, h2, h3, h4, h5, h6⟩ := h i hi
    simp only [working_weight, mu_eta_at, h1, h2, h3, hf]
  have hz : ∀ i ∈ idx, working_response A d1 i = working_response A d2 i := by
    intro i hi
    obtain ⟨h1, h2, h3, h4, h5, h6⟩ := h i hi
    simp only [working_response, mu_eta_at, h2, h3, h4, h5, hf]
  have hrow : idx.map (weighted_row A d1) = idx.map (weighted_row A d2) := by
    apply List.map_congr_left
    intro i hi
    simp only [weighted_row, hw i hi, (h i hi).2.2.2.2.2]
  have hy : idx.map (fun i => A.mul (working_response A d1 i) (working_weight A d1 i)) =
      idx.map (fun i => A.mul (working_response A d2 i) (working_weight A d2 i)) := by
    apply List.map_congr_left
    intro i hi
    simp only [hw i hi, hz i hi]
  simp only [chunk_of, hrow, hy, hp]

theorem good_rows_congr_fp {S : Type} (A : arith S) (d1 d2 : data_holder_base S) (a e : Nat)
    (h1 : range_ok d1 a e) (h2 : range_ok d2 a e) (hf : d1.family = d2.family)
    (h : ∀ i, a ≤ i → i ≤ e → d1.weights.getD i A.zero = d2.weights.getD i A.zero ∧
      d1.eta.getD i A.zero = d2.eta.getD i A.zero) :
    good_rows A d1 a e = good_rows A d2 a e := by
  rw [good_rows_eq_fp A d1 a e h1, good_rows_eq_fp A d2 a e h2]
  apply List.filter_congr
  intro k hk
  have hk := List.mem_range.mp hk
  obtain ⟨e1, e2⟩ := h (a + k) (by omega) (by omega)
  simp only [is_good, mu_eta_at, e1, e2, hf]

/-! ### The first embedding as an instance -/

theorem good_flag_rational (sq : ℚ → ℚ) (w m : ℚ) :
    good_flag (rational sq) w m = parglm.good_flag w m := by
  simp only [good_flag, parglm.good_flag, rational, decide_eq_true_eq, gt_iff_lt]

theorem good_rows_rational (sq : ℚ → ℚ) (data : parglm.data_holder_base) (a e : Nat) :
    good_rows (rational sq) (of_data data) a e = parglm.good_rows data a e := by
  unfold good_rows parglm.good_rows
  have : good_flag (rational sq) = parglm.good_flag := by
    funext w m; exact good_flag_rational sq w m
  simp only [this, of_data]

theorem get_chunk_rational (K : kernels) (data : parglm.data_holder_base) (a e : Nat) :
    get_chunk (rational K.sqrt) (of_data data) a e =
      { X := of_mat (parglm.get_chunk K data a e).X, Y := (parglm.get_chunk K data a e).Y,
        dev := of_mat (parglm.get_chunk K data a e).dev } := by
  unfold get_chunk parglm.get_chunk
  simp only [good_rows_rational]
  simp only [rational, of_data, of_mat, elem, parglm.elem, mat.t, parglm.mat.t, mat.rows,
    parglm.mat.rows, mat.row, parglm.mat.row, mat.col, parglm.mat.col, pow_two]
  rfl

/-! ### The comparisons of IEEE 754 -/

theorem value_band (x : value) (c : ℚ) :
    ¬ (value.lt (value.neg (value.fin c)) x = true ∧ value.lt x (value.fin c) = true) ↔
      x = value.nan ∨ value.le (value.fin c) (value.abs x) = true := by
  cases x with
  | fin q =>
    simp only [value.neg, value.lt, value.le, value.abs, decide_eq_true_eq, reduceCtorEq,
      false_or]
    rw [← abs_lt, not_lt]
  | pinf => simp [value.neg, value.lt, value.le, value.abs]
  | ninf => simp [value.neg, value.lt, value.le, value.abs]
  | nan => simp [value.neg, value.lt, value.le, value.abs]

theorem is_good_value {S : Type} (A : arith S) (v : S → value) (hv : ieee_comparisons A v)
    (data : data_holder_base S) (i : Nat) :
    is_good A data i ↔
      value.lt (value.fin 0) (v (data.weights.getD i A.zero)) = true ∧
        (v (data.family.mu_eta (data.eta.getD i A.zero)) = value.nan ∨
          value.le (value.fin (1 / 10 ^ 100))
            (value.abs (v (data.family.mu_eta (data.eta.getD i A.zero)))) = true) := by
  obtain ⟨h1, h2, h3, h4⟩ := hv
  unfold is_good mu_eta_at
  rw [h1, h1, h1, h2, h3, h4, value_band]

theorem ieee_reads_itself (sq : ℚ → ℚ) : ieee_comparisons (ieee sq) (fun x => x) :=
  ⟨fun _ _ => rfl, fun _ => rfl, rfl, rfl⟩

theorem get_chunk_zero_variance :
    get_chunk (ieee small_sqrt) data_zero_variance 0 2 =
      { X := ⟨2, [[value.pinf, value.fin 5]]⟩, Y := [value.pinf, value.fin 5],
        dev := ⟨1, [[value.fin 0]]⟩ } := by
  decide!

end fp

/-! ## One dispatch round -/

theorem view_zipWith {α β γ : Type} (f : α → β → γ) (l1 : List α) (l2 : List β) (a n : Nat) :
    view (List.zipWith f l1 l2) a n = List.zipWith f (view l1 a n) (view l2 a n) := by
  simp [view, List.drop_zipWith, List.take_zipWith]

theorem view_map {α β : Type} (f : α → β) (l : List α) (a n : Nat) :
    view (l.map f) a n = (view l a n).map f := by
  simp [view, List.map_drop, List.map_take]

theorem view_zipWith3 {α β γ δ : Type} (f : α → β → γ → δ) (l1 : List α) (l2 : List β)
    (l3 : List γ) (a n : Nat) :
    view (List.zipWith3 f l1 l2 l3) a n =
      List.zipWith3 f (view l1 a n) (view l2 a n) (view l3 a n) := by
  induction l1 generalizing l2 l3 a n with
  | nil => simp [view, List.zipWith3]
  | cons x xs ih =>
    cases l2 with
    | nil => simp [view, List.zipWith3]
    | cons y ys =>
      cases l3 with
      | nil => simp [view, List.zipWith3]
      | cons z zs =>
        cases a with
        | zero =>
          cases n with
          | zero => simp [view, List.zipWith3]
          | succ m =>
            have := ih ys zs 0 m
            simp only [view, List.drop_zero, List.zipWith3, List.take_succ_cons] at this ⊢
            rw [this]
        | succ b =>
          have := ih ys zs b n
          simp only [view, List.zipWith3, List.drop_succ_cons] at this ⊢
          exact this

theorem worker_eq (first_it : Bool) (data : data_holder_base) (a e : Nat) (h1 : a ≤ e)
    (h2 : e < 2 ^ 63) :
    worker first_it data a e =
      ({ data with
          eta := write_view data.eta a (view (eta_all first_it data) a (e + 1 - a)),
          mu := write_view data.mu a (view (mu_all first_it data) a (e + 1 - a)) },
        (view (dev_all first_it data) a (e + 1 - a)).sum) := by
  unfold worker
  simp only [block_len a e h1 h2]
  have he : (if first_it = true then
        List.zipWith data.family.initialise (view data.Ys a (e + 1 - a))
          (view data.weights a (e + 1 - a))
      else List.zipWith (fun a b => a + b)
        ((view data.X.cols a (e + 1 - a)).map (fun c => dot data.beta c))
        (view data.offsets a (e + 1 - a))) = view (eta_all first_it data) a (e + 1 - a) := by
    unfold eta_all
    split
    · rw [view_zipWith]
    · rw [view_zipWith, view_map]
  rw [he]
  have hm : (view (eta_all first_it data) a (e + 1 - a)).map data.family.linkinv =
      view (mu_all first_it data) a (e + 1 - a) := by
    rw [mu_all, view_map]
  rw [hm]
  have hd : List.zipWith3 data.family.dev_resids (view data.Ys a (e + 1 - a))
      (view (mu_all first_it data) a (e + 1 - a)) (view data.weights a (e + 1 - a)) =
      view (dev_all first_it data) a (e + 1 - a) := by
    rw [dev_all, view_zipWith3]
  rw [hd, ← List.sum_eq_foldl]

theorem length_zipWith3 {α β γ δ : Type} (f : α → β → γ → δ) :
    ∀ (l1 : List α) (l2 : List β) (l3 : List γ),
      (List.zipWith3 f l1 l2 l3).length = min l1.length (min l2.length l3.length)
  | [], _, _ => by simp [List.zipWith3]
  | _ :: _, [], _ => by simp [List.zipWith3]
  | _ :: _, _ :: _, [] => by simp [List.zipWith3]
  | _ :: xs, _ :: ys, _ :: zs => by
    simp only [List.zipWith3, List.length_cons, length_zipWith3 f xs ys zs]
    omega

theorem round_lengths (first_it : Bool) (data : data_holder_base) (h : data_ok data) :
    (eta_all first_it data).length = data.X.cols.length ∧
      (mu_all first_it data).length = data.X.cols.length ∧
      (dev_all first_it data).length = data.X.cols.length := by
  obtain ⟨-, h1, h2, h3, -, -, -⟩ := h
  have he : (eta_all first_it data).length = data.X.cols.length := by
    unfold eta_all
    split <;> simp [h1, h2, h3]
  have hm : (mu_all first_it data).length = data.X.cols.length := by
    simp [mu_all, he]
  refine ⟨he, hm, ?_⟩
  simp [dev_all, length_zipWith3, hm, h1, h2]

theorem write_view_take {α : Type} (v : List α) (a : Nat) (blk : List α) (h : a ≤ v.length) :
    (write_view v a blk).take (a + blk.length) = v.take a ++ blk := by
  unfold write_view
  have : (v.take a ++ blk).length = a + blk.length := by
    simp [List.length_take, Nat.min_eq_left h]
  rw [← this, List.take_left']
  rfl

theorem write_view_length {α : Type} (v : List α) (a : Nat) (blk : List α)
    (h : a + blk.length ≤ v.length) : (write_view v a blk).length = v.length := by
  unfold write_view
  simp only [List.length_append, List.length_take, List.length_drop]
  omega

theorem view_append_drop {α : Type} (l : List α) (a n : Nat) :
    view l a n ++ l.drop (a + n) = l.drop a := by
  unfold view
  rw [← List.drop_drop, List.take_append_drop]

theorem run_workers_spec (first_it : Bool) (n : Nat) (hn : n < 2 ^ 63) :
    ∀ (blocks : List (Nat × Nat)) (a : Nat) (data : data_holder_base), tiles a n blocks →
      data_ok data → data.X.cols.length = n →
      (run_workers first_it data blocks).1 =
          { data with
            eta := data.eta.take a ++ (eta_all first_it data).drop a,
            mu := data.mu.take a ++ (mu_all first_it data).drop a } ∧
        (run_workers first_it data blocks).2 =
          blocks.map (fun r => (view (dev_all first_it data) r.1 (r.2 + 1 - r.1)).sum) ∧
        ((run_workers first_it data blocks).2).sum = ((dev_all first_it data).drop a).sum := by
  intro blocks
  induction blocks with
  | nil =>
    intro a data ht hok hlen
    simp only [tiles] at ht
    obtain ⟨he, hm, hd⟩ := round_lengths first_it data hok
    obtain ⟨-, -, -, -, h5, h6, -⟩ := hok
    subst ht
    simp only [run_workers, List.map_nil, List.sum_nil, true_and]
    rw [List.drop_of_length_le (by omega), List.drop_of_length_le (by omega),
      List.drop_of_length_le (by omega), List.take_of_length_le (by omega),
      List.take_of_length_le (by omega)]
    simp
  | cons r rest ih =>
    intro a data ht hok hlen
    obtain ⟨hr1, hr2, hr3, hrest⟩ := ht
    obtain ⟨he, hm, hd⟩ := round_lengths first_it data hok
    have hok0 := hok
    obtain ⟨h0, h1, h2, h3, h5, h6, h7⟩ := hok
    have hw := worker_eq first_it data r.1 r.2 hr2 (by omega)
    have hvl : (view (eta_all first_it data) r.1 (r.2 + 1 - r.1)).length = r.2 + 1 - r.1 :=
      view_length _ _ _ (by omega)
    have hvm : (view (mu_all first_it data) r.1 (r.2 + 1 - r.1)).length = r.2 + 1 - r.1 :=
      view_length _ _ _ (by omega)
    have hok1 : data_ok (worker first_it data r.1 r.2).1 := by
      rw [hw]
      refine ⟨h0, h1, h2, h3, ?_, ?_, h7⟩
      · show (write_view _ _ _).length = _
        rw [write_view_length _ _ _ (by rw [hvl]; omega)]; exact h5
      · show (write_view _ _ _).length = _
        rw [write_view_length _ _ _ (by rw [hvm]; omega)]; exact h6
    have hlen1 : (worker first_it data r.1 r.2).1.X.cols.length = n := by
      rw [(worker_frame first_it data r.1 r.2).2.1]; exact hlen
    obtain ⟨ih1, ih2, ih3⟩ := ih (r.2 + 1) (worker first_it data r.1 r.2).1 hrest hok1 hlen1
    have hea : eta_all first_it (worker first_it data r.1 r.2).1 = eta_all first_it data := by
      rw [hw]; rfl
    have hma : mu_all first_it (worker first_it data r.1 r.2).1 = mu_all first_it data := by
      rw [hw]; rfl
    have hda : dev_all first_it (worker first_it data r.1 r.2).1 = dev_all first_it data := by
      rw [hw]; rfl
    have hidx : r.2 + 1 = r.1 + (r.2 + 1 - r.1) := by omega
    refine ⟨?_, ?_, ?_⟩
    · simp only [run_workers]
      rw [ih1, hea, hma]
      rw [hw]
      simp only
      have e1 : (write_view data.eta r.1 (view (eta_all first_it data) r.1 (r.2 + 1 - r.1))).take
          (r.2 + 1) = data.eta.take r.1 ++ view (eta_all first_it data) r.1 (r.2 + 1 - r.1) := by
        have := write_view_take data.eta r.1
          (view (eta_all first_it data) r.1 (r.2 + 1 - r.1)) (by omega)
        rw [hvl, ← hidx] at this
        exact this
      have e2 : (write_view data.mu r.1 (view (mu_all first_it data) r.1 (r.2 + 1 - r.1))).take
          (r.2 + 1) = data.mu.take r.1 ++ view (mu_all first_it data) r.1 (r.2 + 1 - r.1) := by
        have := write_view_take data.mu r.1
          (view (mu_all first_it data) r.1 (r.2 + 1 - r.1)) (by omega)
        rw [hvm, ← hidx] at this
        exact this
      rw [e1, e2, List.append_assoc, List.append_assoc]
      have e3 := view_append_drop (eta_all first_it data) r.1 (r.2 + 1 - r.1)
      have e4 := view_append_drop (mu_all first_it data) r.1 (r.2 + 1 - r.1)
      rw [← hidx] at e3 e4
      rw [e3, e4, hr1]
    · simp only [run_workers, List.map_cons]
      rw [ih2, hda, hw]
    · simp only [run_workers, List.sum_cons]
      rw [ih3, hda, hw]
      simp only
      have e5 := view_append_drop (dev_all first_it data) r.1 (r.2 + 1 - r.1)
      rw [← hidx] at e5
      rw [← hr1, ← e5, List.sum_append]

theorem join_futures_eq_sum (futures : List ℚ) : join_futures futures = futures.sum := by
  unfold join_futures
  induction futures with
  | nil => rfl
  | cons x xs ih => rw [List.foldr_cons, List.sum_cons, ih, add_comm]

theorem blocks_of_tiles (data : data_holder_base) (h : data_ok data) :
    tiles 0 data.X.cols.length (blocks_of data) :=
  block_ranges_tiles data.X.cols.length data.block_size h.1 h.2.2.2.2.2.2
    (data.X.cols.length + 1) 0 (Nat.zero_le _) (by omega) (fun _ => Or.inl rfl)

theorem set_eta_n_mu_spec (first_it : Bool) (s : fit_state) (h : data_ok s.data) :
    set_eta_n_mu first_it s =
      .ok ({ s with
              data := { s.data with eta := eta_all first_it s.data,
                                    mu := mu_all first_it s.data },
              events := s.events ++
                (blocks_of s.data).map (fun r => event.worker_task first_it r.1 r.2) },
        (dev_all first_it s.data).sum) := by
  unfold set_eta_n_mu
  dsimp only
  rw [set_eta_n_mu_loop_eq first_it s.data.X.n_cols s.data.block_size h.1 h.2.2.2.2.2.2
    (s.data.X.n_cols + 1) 0 s.data [] s.events rfl (Nat.zero_le _) (by omega)
    (fun _ => Or.inl rfl)]
  obtain ⟨e1, -, e3⟩ := run_workers_spec first_it s.data.X.cols.length h.1 (blocks_of s.data) 0
    s.data (blocks_of_tiles s.data h) h rfl
  simp only [List.take_zero, List.nil_append, List.drop_zero] at e1 e3
  simp only [List.nil_append, join_futures_eq_sum]
  unfold blocks_of at e1 e3 ⊢
  simp only [mat.n_cols] at e1 e3 ⊢
  rw [e1, e3]

/-! ## The chunks of one factorization, stacked -/

theorem kept_eq (data : data_holder_base) (a e : Nat) (h : range_ok data a e) :
    (good_rows data a e).map (fun k => a + k) = kept_in data a (e + 1 - a) := by
  rw [good_rows_eq data a e h, kept_in, List.range'_eq_map_range, List.filter_map]
  rfl

theorem kept_in_append (data : data_holder_base) (a m k : Nat) :
    kept_in data a m ++ kept_in data (a + m) k = kept_in data a (m + k) := by
  unfold kept_in
  rw [← List.filter_append]
  have := List.range'_append a m k 1
  rw [Nat.one_mul] at this
  rw [this, Nat.add_comm k m]

theorem chunk_of_nil (K : kernels) (data : data_holder_base) :
    (chunk_of K data []).X = mat.empty data.p ∧ (chunk_of K data []).Y = [] := by
  constructor
  · simp only [chunk_of, mat.t, mat.rows, List.map_nil, List.length_nil, mat.empty]
    congr 1
    rw [List.eq_replicate_iff]
    refine ⟨by simp, ?_⟩
    intro b hb
    obtain ⟨j, -, rfl⟩ := List.mem_map.mp hb
    rfl
  · rfl

theorem chunk_of_append (K : kernels) (data : data_holder_base) (idx1 idx2 : List Nat) :
    (chunk_of K data (idx1 ++ idx2)).X =
        mat.join_cols (chunk_of K data idx1).X (chunk_of K data idx2).X ∧
      (chunk_of K data (idx1 ++ idx2)).Y = (chunk_of K data idx1).Y ++ (chunk_of K data idx2).Y := by
  constructor
  · simp only [chunk_of, mat.t, mat.rows, mat.join_cols, List.map_append,
      List.length_append, List.length_map, zipWith_map_same]
    congr 1
    apply List.map_congr_left
    intro j _
    simp only [mat.row, List.map_append]
  · simp only [chunk_of, List.map_append]

theorem chunks_join (K : kernels) (data : data_holder_base) (n : Nat) (hn : n < 2 ^ 63)
    (hw : n ≤ data.weights.length) (he : n ≤ data.eta.length) :
    ∀ (blocks : List (Nat × Nat)) (a : Nat), tiles a n blocks →
      join_chunks data.p (chunks_of K data blocks) =
        ((chunk_of K data (kept_in data a (n - a))).X,
          (chunk_of K data (kept_in data a (n - a))).Y) := by
  intro blocks
  induction blocks with
  | nil =>
    intro a ht
    simp only [tiles] at ht
    subst ht
    simp only [join_chunks, chunks_of, List.map_nil, List.foldr_nil, List.flatten_nil,
      Nat.sub_self, kept_in, List.range'_zero, List.filter_nil]
    rw [(chunk_of_nil K data).1, (chunk_of_nil K data).2]
  | cons r rest ih =>
    intro a ht
    obtain ⟨hr1, hr2, hr3, hrest⟩ := ht
    subst hr1
    have hih := ih (r.2 + 1) hrest
    simp only [join_chunks, chunks_of, List.map_cons, List.foldr_cons, List.flatten_cons,
      Prod.mk.injEq] at hih ⊢
    have hrange : range_ok data r.1 r.2 := ⟨hr2, by omega, by omega, by omega⟩
    rw [hih.1, hih.2, get_chunk_eq K data r.1 r.2 hrange, kept_eq data r.1 r.2 hrange]
    have hsplit : kept_in data r.1 (n - r.1) =
        kept_in data r.1 (r.2 + 1 - r.1) ++ kept_in data (r.2 + 1) (n - (r.2 + 1)) := by
      have := kept_in_append data r.1 (r.2 + 1 - r.1) (n - (r.2 + 1))
      have e1 : r.1 + (r.2 + 1 - r.1) = r.2 + 1 := by omega
      have e2 : r.2 + 1 - r.1 + (n - (r.2 + 1)) = n - r.1 := by omega
      rw [e1, e2] at this
      rw [← this]
    rw [hsplit, (chunk_of_append K data _ _).1, (chunk_of_append K data _ _).2]
    exact ⟨rfl, rfl⟩

theorem get_R_f_spec (K : kernels) (s : fit_state) (h : data_ok s.data) :
    get_R_f K s =
      match K.qr_compute (chunks_of K s.data (blocks_of s.data)) with
      | none => .error (failure.kernel_failure,
          s.events ++ (blocks_of s.data).map (fun r => event.generator r.1 r.2) ++
            [event.qr_factorization])
      | some rf => .ok ({ s with events :=
          s.events ++ (blocks_of s.data).map (fun r => event.generator r.1 r.2) ++
            [event.qr_factorization] }, rf) := by
  unfold get_R_f
  dsimp only
  rw [get_R_f_loop_eq s.data.X.n_cols s.data.block_size h.1 h.2.2.2.2.2.2
    (s.data.X.n_cols + 1) 0 [] s.events (Nat.zero_le _) (by omega) (fun _ => Or.inl rfl)]
  simp only [List.nil_append]
  rfl

/-! ## Lists as vectors and matrices -/

theorem sum_zipWith_fin (p : Nat) :
    ∀ (l1 l2 : List ℚ), l1.length = p →
      (List.zipWith (fun a b => a * b) l1 l2).sum =
        ∑ j : Fin p, l1.getD j 0 * l2.getD j 0 := by
  induction p with
  | zero =>
    intro l1 l2 h
    have : l1 = [] := List.length_eq_zero.mp h
    subst this
    simp
  | succ q ih =>
    intro l1 l2 h
    cases l1 with
    | nil => simp at h
    | cons x xs =>
      have hx : xs.length = q := by simpa using h
      cases l2 with
      | nil =>
        simp
      | cons y ys =>
        rw [Fin.sum_univ_succ]
        simp only [List.zipWith_cons_cons, List.sum_cons, Fin.val_zero, List.getD_cons_zero,
          Fin.val_succ, List.getD_cons_succ]
        rw [ih xs ys hx]

theorem toVec_mulVec (p : Nat) (A : mat) (v : vec) (h1 : A.n_rows = p)
    (h2 : A.cols.length = p) :
    toVec p (A.mulVec v) = Matrix.mulVec (A.toMatrix p) (toVec p v) := by
  funext i
  have hi : (i : Nat) < A.n_rows := by rw [h1]; exact i.2
  simp only [toVec, mat.mulVec, Matrix.mulVec, Matrix.dotProduct, mat.toMatrix]
  rw [List.getD_eq_getElem?_getD, List.getElem?_map, List.getElem?_range hi]
  simp only [Option.map_some', Option.getD_some]
  rw [sum_zipWith_fin p (A.row i) v (by simp [mat.row, h2])]
  apply Finset.sum_congr rfl
  intro j _
  congr 1
  have hj : (j : Nat) < A.cols.length := by rw [h2]; exact j.2
  simp [mat.row, mat.col, List.getD_eq_getElem?_getD, hj]

theorem toMatrix_t (p : Nat) (A : mat) (h1 : A.n_rows = p) (h2 : A.cols.length = p) :
    A.t.toMatrix p = (A.toMatrix p).transpose := by
  funext i j
  have hi : (i : Nat) < A.cols.length := by rw [h2]; exact i.2
  have hj : (j : Nat) < A.n_rows := by rw [h1]; exact j.2
  simp [mat.toMatrix, mat.t, mat.col, mat.rows, mat.row, Matrix.transpose,
    List.getD_eq_getElem?_getD, hi, hj]

theorem toVec_injective (p : Nat) (u v : vec) (hu : u.length = p) (hv : v.length = p)
    (h : toVec p u = toVec p v) : u = v := by
  apply List.ext_getElem
  · rw [hu, hv]
  · intro i h1 h2
    have := congrFun h ⟨i, by omega⟩
    simpa [toVec, List.getD_eq_getElem?_getD, h1, h2] using this

theorem solve_step_ok (K : kernels) (A : mat) (b : vec) (ev : List event) (x : vec)
    (ev1 : List event) :
    solve_step K A b ev = .ok (x, ev1) ↔ K.solve A b = some x ∧ ev1 = ev ++ [event.solve] := by
  unfold solve_step
  split
  · rename_i h; simp [h]
  · rename_i y h
    simp only [h, Except.ok.injEq, Prod.mk.injEq, Option.some.injEq]
    constructor
    · rintro ⟨rfl, rfl⟩; exact ⟨rfl, rfl⟩
    · rintro ⟨rfl, rfl⟩; exact ⟨rfl, rfl⟩

theorem solve_some_of_exact (K : kernels) (p : Nat) (hs : solve_exact K p) (A : mat) (b x : vec)
    (h1 : A.n_rows = p) (h2 : A.cols.length = p) (h : K.solve A b = some x) :
    Matrix.det (A.toMatrix p) ≠ 0 ∧ x.length = p ∧
      Matrix.mulVec (A.toMatrix p) (toVec p x) = toVec p b := by
  obtain ⟨ha, hb⟩ := hs A b h1 h2
  by_cases hd : Matrix.det (A.toMatrix p) = 0
  · rw [hb hd] at h; cases h
  · obtain ⟨y, hy1, hy2, hy3⟩ := ha hd
    rw [h] at hy1
    cases hy1
    exact ⟨hd, hy2, hy3⟩

theorem qr_normal_of_factor (p : Nat) (R G : Matrix (Fin p) (Fin p) ℚ) (f g : Fin p → ℚ)
    (h1 : R.transpose * R = G) (h2 : Matrix.mulVec R.transpose f = g) :
    (Matrix.det R ≠ 0 ↔ Matrix.det G ≠ 0) ∧
      ∀ beta : Fin p → ℚ,
        Matrix.mulVec (R.transpose * R) beta = Matrix.mulVec R.transpose f ↔
          Matrix.mulVec G beta = g := by
  constructor
  · rw [← h1, Matrix.det_mul, Matrix.det_transpose]
    constructor
    · intro h; exact mul_ne_zero h h
    · intro h h0; apply h; rw [h0, mul_zero]
  · intro beta
    rw [h1, h2]

theorem update_beta_ok_elim (K : kernels) (s s2 : fit_state) (hok : data_ok s.data)
    (hq : qr_normal K s.data.p) (hs : solve_exact K s.data.p)
    (h : update_beta K s = .ok s2) :
    ∃ rf beta, K.qr_compute (chunks_of K s.data (blocks_of s.data)) = some rf ∧
      Matrix.det (gram_matrix s.data.p (stacked K s.data).1) ≠ 0 ∧
      beta.length = s.data.p ∧
      Matrix.mulVec (gram_matrix s.data.p (stacked K s.data).1) (toVec s.data.p beta) =
        gram_rhs s.data.p (stacked K s.data).1 (stacked K s.data).2 ∧
      s2.data = { s.data with beta := beta } ∧ s2.dev = s.dev ∧ s2.R_f_out = some rf := by
  unfold update_beta at h
  rw [get_R_f_spec K s hok] at h
  cases hqr : K.qr_compute (chunks_of K s.data (blocks_of s.data)) with
  | none => simp only [hqr] at h; cases h
  | some rf =>
    simp only [hqr] at h
    obtain ⟨hR1, hR2, hG, hg⟩ := hq _ rf hqr
    split at h
    · cases h
    · rename_i u ev hu
      split at h
      · cases h
      · rename_i beta ev1 hb
        cases h
        obtain ⟨hu1, -⟩ := (solve_step_ok _ _ _ _ _ _).mp hu
        obtain ⟨hb1, -⟩ := (solve_step_ok _ _ _ _ _ _).mp hb
        have ht1 : (K.R_rev_piv rf).t.n_rows = s.data.p := hR2
        have ht2 : (K.R_rev_piv rf).t.cols.length = s.data.p := by
          simp [mat.t, mat.rows, hR1]
        obtain ⟨hdu, hlu, heu⟩ := solve_some_of_exact K _ hs _ _ _ ht1 ht2 hu1
        obtain ⟨hdb, hlb, heb⟩ := solve_some_of_exact K _ hs _ _ _ hR1 hR2 hb1
        rw [toMatrix_t _ _ hR1 hR2] at heu hdu
        rw [toVec_mulVec _ _ _ ht1 ht2, toMatrix_t _ _ hR1 hR2] at heu
        refine ⟨rf, beta, rfl, hG.mp hdb, hlb, ?_, rfl, rfl, rfl⟩
        apply (hg (hG.mp hdb) (toVec s.data.p beta)).mp
        rw [← Matrix.mulVec_mulVec, heb, heu]

theorem update_beta_ok_intro (K : kernels) (s : fit_state) (rf : R_F) (hok : data_ok s.data)
    (hq : qr_normal K s.data.p) (hs : solve_exact K s.data.p)
    (hqr : K.qr_compute (chunks_of K s.data (blocks_of s.data)) = some rf)
    (hdet : Matrix.det (gram_matrix s.data.p (stacked K s.data).1) ≠ 0) :
    ∃ s2, update_beta K s = .ok s2 := by
  obtain ⟨hR1, hR2, hG, -⟩ := hq _ rf hqr
  have hdet2 : Matrix.det ((K.R_rev_piv rf).toMatrix s.data.p) ≠ 0 := hG.mpr hdet
  have ht1 : (K.R_rev_piv rf).t.n_rows = s.data.p := hR2
  have ht2 : (K.R_rev_piv rf).t.cols.length = s.data.p := by
    simp [mat.t, mat.rows, hR1]
  have hdet1 : Matrix.det ((K.R_rev_piv rf).t.toMatrix s.data.p) ≠ 0 := by
    rw [toMatrix_t _ _ hR1 hR2, Matrix.det_transpose]; exact hdet2
  unfold update_beta
  rw [get_R_f_spec K s hok]
  simp only [hqr]
  obtain ⟨u, hu, -, -⟩ := (hs _ ((K.R_rev_piv rf).t.mulVec (rf.F.col 0)) ht1 ht2).1 hdet1
  obtain ⟨b, hb, -, -⟩ := (hs _ u hR1 hR2).1 hdet2
  simp only [solve_step, hu, hb]
  exact ⟨_, rfl⟩

/-! ## Rounds and chunks in terms of observations -/

theorem eta_all_getD (first_it : Bool) (data : data_holder_base) (h : data_ok data) (i : Nat)
    (hi : i < data.X.cols.length) :
    (eta_all first_it data).getD i 0 =
      (if first_it then data.family.initialise (data.Ys.getD i 0) (data.weights.getD i 0)
        else dot data.beta (data.X.col i) + data.offsets.getD i 0) := by
  obtain ⟨-, h1, h2, h3, -, -, -⟩ := h
  unfold eta_all
  split
  · simp [List.getD_eq_getElem?_getD, List.getElem?_zipWith, h1, h2, hi]
  · simp [List.getD_eq_getElem?_getD, List.getElem?_zipWith, h3, hi, mat.col]

theorem observations_round (first_it : Bool) (data : data_holder_base) (h : data_ok data) :
    observations (round_data first_it data) =
      (observations data).map (round_obs first_it data.family data.beta) := by
  unfold observations
  rw [List.map_map]
  apply List.map_congr_left
  intro i hi
  have hi : i < data.X.cols.length := List.mem_range.mp hi
  have hl := (round_lengths first_it data h).1
  have e1 := eta_all_getD first_it data h i hi
  have e2 : (mu_all first_it data).getD i 0 =
      data.family.linkinv ((eta_all first_it data).getD i 0) := by
    simp [mu_all, List.getD_eq_getElem?_getD, hl, hi]
  simp only [Function.comp, obs_at, round_obs, round_data, e2, e1]

theorem data_ok_round (first_it : Bool) (data : data_holder_base) (h : data_ok data) :
    data_ok (round_data first_it data) := by
  obtain ⟨he, hm, -⟩ := round_lengths first_it data h
  obtain ⟨h0, h1, h2, h3, -, -, h7⟩ := h
  exact ⟨h0, h1, h2, h3, he, hm, h7⟩

theorem zipWith3_getD {α β γ δ : Type} (f : α → β → γ → δ) :
    ∀ (l1 : List α) (l2 : List β) (l3 : List γ) (i : Nat), i < l1.length → i < l2.length →
      i < l3.length → ∀ (d : δ) (d1 : α) (d2 : β) (d3 : γ),
      (List.zipWith3 f l1 l2 l3).getD i d = f (l1.getD i d1) (l2.getD i d2) (l3.getD i d3)
  | [], _, _, _, h, _, _ => by simp at h
  | _ :: _, [], _, _, _, h, _ => by simp at h
  | _ :: _, _ :: _, [], _, _, _, h => by simp at h
  | _ :: _, _ :: _, _ :: _, 0, _, _, _ => by intros; simp [List.zipWith3]
  | _ :: xs, _ :: ys, _ :: zs, i + 1, h1, h2, h3 => by
    intro d d1 d2 d3
    simp only [List.zipWith3, List.getD_cons_succ]
    exact zipWith3_getD f xs ys zs i (by simpa using h1) (by simpa using h2) (by simpa using h3)
      d d1 d2 d3

theorem dev_all_eq (first_it : Bool) (data : data_holder_base) (h : data_ok data) :
    dev_all first_it data =
      (observations (round_data first_it data)).map
        (fun o => data.family.dev_resids o.y o.mu o.weight) := by
  obtain ⟨-, hm, hd⟩ := round_lengths first_it data h
  obtain ⟨-, h1, h2, -, -, -, -⟩ := h
  apply List.ext_getElem
  · simp [hd, observations, round_data]
  · intro i hi1 hi2
    have hi : i < data.X.cols.length := by rw [hd] at hi1; exact hi1
    simp only [observations, round_data, List.getElem_map, List.getElem_range, obs_at]
    rw [← List.getD_eq_getElem _ 0 hi1]
    exact zipWith3_getD _ _ _ _ i (by omega) (by omega) (by omega) 0 0 0 0

theorem sum_map_filter {α : Type} (q : α → Bool) (f : α → ℚ) (l : List α)
    (h : ∀ o ∈ l, q o = false → f o = 0) : (l.map f).sum = ((l.filter q).map f).sum := by
  induction l with
  | nil => rfl
  | cons a as ih =>
    have ih := ih (fun o ho => h o (List.mem_cons_of_mem _ ho))
    by_cases hq : q a = true
    · simp [List.filter_cons, hq, ih]
    · have hq : q a = false := by simpa using hq
      simp [List.filter_cons, hq, ih, h a (List.mem_cons_self _ _) hq]

theorem chunk_of_eq_stack (K : kernels) (data : data_holder_base) (idx : List Nat) :
    ((chunk_of K data idx).X, (chunk_of K data idx).Y) =
      stack_of K data.family data.p (idx.map (obs_at data)) := by
  simp only [chunk_of, stack_of, List.map_map]
  rfl

theorem kept_in_obs (data : data_holder_base) :
    (kept_in data 0 data.X.cols.length).map (obs_at data) =
      (observations data).filter (good_obs data.family) := by
  unfold kept_in observations
  rw [List.filter_map, ← List.range_eq_range']
  rfl

theorem stacked_eq (K : kernels) (data : data_holder_base) (h : data_ok data) :
    stacked K data =
      stack_of K data.family data.p ((observations data).filter (good_obs data.family)) := by
  unfold stacked
  rw [chunks_join K data data.X.cols.length h.1 (by rw [h.2.2.1]) (by rw [h.2.2.2.2.1])
    (blocks_of data) 0 (blocks_of_tiles data h), Nat.sub_zero, chunk_of_eq_stack, kept_in_obs]

theorem filter_good_of_negligible (family : glm_base) (q : observation → Bool)
    (hq : negligible family q) (l : List observation) :
    l.filter (good_obs family) = (l.filter q).filter (good_obs family) := by
  rw [List.filter_filter]
  apply List.filter_congr
  intro o _
  by_cases hqo : q o = true
  · simp [hqo]
  · have hqo : q o = false := by simpa using hqo
    have := hq.2.1 o hqo
    simp [good_obs, hqo, this]

theorem stacked_same_fit (K : kernels) (q : observation → Bool) (d1 d2 : data_holder_base)
    (hq : negligible d1.family q) (h : same_fit q d1 d2) (h1 : data_ok d1) (h2 : data_ok d2) :
    stacked K d1 = stacked K d2 := by
  obtain ⟨hf, hp, -, hl⟩ := h
  rw [stacked_eq K d1 h1, stacked_eq K d2 h2, filter_good_of_negligible d1.family q hq,
    hl, hf, hp]
  rw [hf] at hq
  rw [← filter_good_of_negligible d2.family q hq]

theorem round_same_fit (first_it : Bool) (q : observation → Bool) (d1 d2 : data_holder_base)
    (hq : negligible d1.family q) (h : same_fit q d1 d2) (h1 : data_ok d1) (h2 : data_ok d2) :
    same_fit q (round_data first_it d1) (round_data first_it d2) ∧
      (dev_all first_it d1).sum = (dev_all first_it d2).sum := by
  obtain ⟨hf, hp, hb, hl⟩ := h
  have hfilter : ∀ d : data_holder_base, data_ok d →
      (observations (round_data first_it d)).filter q =
        ((observations d).filter q).map (round_obs first_it d.family d.beta) := by
    intro d hd
    rw [observations_round first_it d hd, List.filter_map]
    congr 1
    apply List.filter_congr
    intro o _
    exact hq.1 o _ _
  have hl2 : (observations (round_data first_it d1)).filter q =
      (observations (round_data first_it d2)).filter q := by
    rw [hfilter d1 h1, hfilter d2 h2, hl, hf, hb]
  refine ⟨⟨hf, hp, hb, hl2⟩, ?_⟩
  have s1 : (dev_all first_it d1).sum =
      (((observations (round_data first_it d1)).filter q).map
        (fun o => d1.family.dev_resids o.y o.mu o.weight)).sum := by
    rw [dev_all_eq first_it d1 h1]
    exact sum_map_filter q _ _ (fun o _ hqo => hq.2.2 o hqo o.mu)
  have s2 : (dev_all first_it d2).sum =
      (((observations (round_data first_it d2)).filter q).map
        (fun o => d2.family.dev_resids o.y o.mu o.weight)).sum := by
    rw [dev_all_eq first_it d2 h2]
    exact sum_map_filter q _ _ (fun o _ hqo => by rw [← hf]; exact hq.2.2 o hqo o.mu)
  rw [s1, s2, hl2, hf]

/-! ## Two fits in lockstep -/

theorem set_eta_n_mu_round (first_it : Bool) (s : fit_state) (h : data_ok s.data) :
    ∃ ev, set_eta_n_mu first_it s =
      .ok ({ s with data := round_data first_it s.data, events := ev },
        (dev_all first_it s.data).sum) :=
  ⟨_, set_eta_n_mu_spec first_it s h⟩

theorem same_state_symm (q : observation → Bool) (family : glm_base) (p : Nat)
    (s1 s2 : fit_state) (h : same_state q family p s1 s2) : same_state q family p s2 s1 := by
  obtain ⟨hf, hp, ⟨h1, h2, h3, h4⟩, h5, h6, h7, h8⟩ := h
  exact ⟨by rw [← h1]; exact hf, by rw [← h2]; exact hp, ⟨h1.symm, h2.symm, h3.symm, h4.symm⟩,
    h5.symm, h6.symm, h8, h7⟩

theorem set_eta_n_mu_same (first_it : Bool) (q : observation → Bool) (family : glm_base)
    (p : Nat) (s1 s2 : fit_state) (hq : negligible family q)
    (h : same_state q family p s1 s2) :
    ∃ t1 t2 d, set_eta_n_mu first_it s1 = .ok (t1, d) ∧ set_eta_n_mu first_it s2 = .ok (t2, d) ∧
      same_state q family p { t1 with dev := d } { t2 with dev := d } := by
  obtain ⟨hf, hp, hfit, hdev, hrf, hok1, hok2⟩ := h
  obtain ⟨ev1, e1⟩ := set_eta_n_mu_round first_it s1 hok1
  obtain ⟨ev2, e2⟩ := set_eta_n_mu_round first_it s2 hok2
  obtain ⟨hr, hsum⟩ := round_same_fit first_it q s1.data s2.data (hf ▸ hq) hfit hok1 hok2
  rw [← hsum] at e2
  exact ⟨_, _, _, e1, e2, hf, hp, hr, rfl, hrf, data_ok_round _ _ hok1, data_ok_round _ _ hok2⟩

theorem first_deviance_same (i : Nat) (q : observation → Bool) (family : glm_base) (p : Nat)
    (s1 s2 : fit_state) (hq : negligible family q) (h : same_state q family p s1 s2) :
    ∃ t1 t2, first_deviance i s1 = .ok t1 ∧ first_deviance i s2 = .ok t2 ∧
      same_state q family p t1 t2 ∧ t1.data.beta = s1.data.beta ∧
      t2.data.beta = s2.data.beta := by
  unfold first_deviance
  by_cases hi : i = 0
  · obtain ⟨t1, t2, d, e1, e2, hs⟩ := set_eta_n_mu_same true q family p s1 s2 hq h
    simp only [hi, ↓reduceIte, e1, e2]
    refine ⟨_, _, rfl, rfl, hs, ?_, ?_⟩
    · rw [set_eta_n_mu_spec true s1 h.2.2.2.2.2.1] at e1
      cases e1; rfl
    · rw [set_eta_n_mu_spec true s2 h.2.2.2.2.2.2] at e2
      cases e2; rfl
  · simp only [hi, ↓reduceIte]
    exact ⟨_, _, rfl, rfl, h, rfl, rfl⟩

theorem update_beta_of_stacked (K : kernels) (p : Nat) (s1 s2 t1 : fit_state)
    (hK : exact_kernels K p) (hp1 : s1.data.p = p) (hp2 : s2.data.p = p)
    (hok1 : data_ok s1.data) (hok2 : data_ok s2.data)
    (hst : stacked K s1.data = stacked K s2.data) (h1 : update_beta K s1 = .ok t1) :
    ∃ t2, update_beta K s2 = .ok t2 ∧ t2.data = { s2.data with beta := t1.data.beta } ∧
      t2.dev = s2.dev ∧ t2.R_f_out.isSome = true ∧
      t1.data = { s1.data with beta := t1.data.beta } ∧ t1.dev = s1.dev ∧
      t1.R_f_out.isSome = true := by
  obtain ⟨hqr, hbf, hsolve⟩ := hK
  subst hp1
  have hp : s1.data.p = s2.data.p := hp2.symm
  obtain ⟨rf1, b1, hc1, hdet1, hlen1, heq1, hd1, hdev1, hr1⟩ :=
    update_beta_ok_elim K s1 t1 hok1 hqr hsolve h1
  have hsome : (K.qr_compute (chunks_of K s2.data (blocks_of s2.data))).isSome := by
    have hj : join_chunks s1.data.p (chunks_of K s1.data (blocks_of s1.data)) =
        join_chunks s1.data.p (chunks_of K s2.data (blocks_of s2.data)) := by
      have := hst
      unfold stacked at this
      rw [← hp] at this
      exact this
    rw [← hbf _ _ hj, hc1]; rfl
  obtain ⟨rf2, hc2⟩ := Option.isSome_iff_exists.mp hsome
  have hdet2 : Matrix.det (gram_matrix s2.data.p (stacked K s2.data).1) ≠ 0 := by
    rw [← hp, ← hst]; exact hdet1
  obtain ⟨t2, ht2⟩ := update_beta_ok_intro K s2 rf2 hok2 (hp ▸ hqr) (hp ▸ hsolve) hc2 hdet2
  obtain ⟨rf3, b2, -, -, hlen2, heq2, hd2, hdev2, hr2⟩ :=
    update_beta_ok_elim K s2 t2 hok2 (hp ▸ hqr) (hp ▸ hsolve) ht2
  have hb : b1 = b2 := by
    apply toVec_injective s1.data.p b1 b2 hlen1 (by rw [hp]; exact hlen2)
    have hinj := Matrix.mulVec_injective_iff_isUnit.mpr
      ((Matrix.isUnit_iff_isUnit_det _).mpr (Ne.isUnit hdet1))
    apply hinj
    rw [← hp, ← hst] at heq2
    rw [heq1, heq2]
  have hb1 : t1.data.beta = b1 := by rw [hd1]
  refine ⟨t2, ht2, ?_, hdev2, by rw [hr2]; rfl, ?_, hdev1, by rw [hr1]; rfl⟩
  · rw [hd2, hb1, hb]
  · rw [hb1]; exact hd1

theorem update_beta_same (K : kernels) (q : observation → Bool) (family : glm_base) (p : Nat)
    (s1 s2 t1 : fit_state) (hq : negligible family q) (hK : exact_kernels K p)
    (h : same_state q family p s1 s2) (h1 : update_beta K s1 = .ok t1) :
    ∃ t2, update_beta K s2 = .ok t2 ∧ same_state q family p t1 t2 := by
  obtain ⟨hf, hp1, hfit, hdev, hrf, hok1, hok2⟩ := h
  have hst := stacked_same_fit K q s1.data s2.data (hf ▸ hq) hfit hok1 hok2
  obtain ⟨t2, ht2, hd2, hdev2, hr2, hd1, hdev1, hr1⟩ :=
    update_beta_of_stacked K p s1 s2 t1 hK hp1 (by rw [← hfit.2.1]; exact hp1) hok1 hok2 hst h1
  refine ⟨t2, ht2, ?_, ?_, ?_, ?_, ?_, ?_, ?_⟩
  · rw [hd1]; exact hf
  · rw [hd1]; exact hp1
  · rw [hd2]
    obtain ⟨f1, f2, f3, f4⟩ := hfit
    refine ⟨by rw [hd1]; exact f1, by rw [hd1]; exact f2, rfl, ?_⟩
    rw [hd1]
    exact f4
  · rw [hdev1, hdev2]; exact hdev
  · rw [hr1, hr2]
  · rw [hd1]; exact hok1
  · rw [hd2]; exact hok2

theorem trace_step_same (K : kernels) (q : observation → Bool) (family : glm_base) (p : Nat)
    (tr1 tr2 : Bool) (i : Nat) (b1 b2 : vec) (s1 s2 : fit_state)
    (h : same_state q family p s1 s2) :
    same_state q family p (trace_step K tr1 i b1 s1) (trace_step K tr2 i b2 s2) ∧
      (trace_step K tr1 i b1 s1).dev = s1.dev := by
  unfold trace_step
  cases tr1 <;> cases tr2 <;> exact ⟨h, rfl⟩

theorem iteration_same (K : kernels) (q : observation → Bool) (family : glm_base) (p : Nat)
    (tr1 tr2 : Bool) (i : Nat) (s1 s2 : fit_state) (r1 : fit_state × ℚ)
    (hq : negligible family q) (hK : exact_kernels K p) (h : same_state q family p s1 s2)
    (h1 : iteration K tr1 i s1 = .ok r1) :
    ∃ r2, iteration K tr2 i s2 = .ok r2 ∧ same_state q family p r1.1 r2.1 ∧ r1.2 = r2.2 := by
  obtain ⟨a1, a2, ha1, ha2, hsa, -, -⟩ := first_deviance_same i q family p s1 s2 hq h
  unfold iteration at h1 ⊢
  rw [ha1] at h1
  rw [ha2]
  dsimp only at h1 ⊢
  split at h1
  · cases h1
  · rename_i b1 hb1
    obtain ⟨b2, hb2, hsb⟩ := update_beta_same K q family p a1 a2 b1 hq hK hsa hb1
    rw [hb2]
    dsimp only
    obtain ⟨hst, -⟩ := trace_step_same K q family p tr1 tr2 i s1.data.beta s2.data.beta b1 b2 hsb
    obtain ⟨c1, c2, d, hc1, hc2, hsc⟩ := set_eta_n_mu_same false q family p _ _ hq hst
    rw [hc1] at h1
    rw [hc2]
    cases h1
    exact ⟨_, rfl, hsc, hsb.2.2.2.1⟩

theorem irls_loop_same (K : kernels) (tol : ℚ) (q : observation → Bool) (family : glm_base)
    (p : Nat) (tr1 tr2 : Bool) (hq : negligible family q) (hK : exact_kernels K p)
    (remaining : Nat) :
    ∀ (i : Nat) (s1 s2 : fit_state) (r1 : fit_state × Nat), same_state q family p s1 s2 →
      irls_loop K tol tr1 remaining i s1 = .ok r1 →
      ∃ r2, irls_loop K tol tr2 remaining i s2 = .ok r2 ∧ same_state q family p r1.1 r2.1 ∧
        r1.2 = r2.2 := by
  induction remaining with
  | zero =>
    intro i s1 s2 r1 h h1
    simp only [irls_loop] at h1 ⊢
    cases h1
    exact ⟨_, rfl, h, rfl⟩
  | succ m ih =>
    intro i s1 s2 r1 h h1
    unfold irls_loop at h1 ⊢
    split at h1
    · cases h1
    · rename_i t1 devold hit
      obtain ⟨r2, hr2, hs2, hd2⟩ :=
        iteration_same K q family p tr1 tr2 i s1 s2 (t1, devold) hq hK h hit
      rw [hr2]
      dsimp only at hs2 hd2 ⊢
      have hdev : t1.dev = r2.1.dev := hs2.2.2.2.1
      rw [← hdev, ← hd2]
      split at h1
      · rename_i hc
        cases h1
        simp only [hc, ↓reduceIte]
        exact ⟨_, rfl, hs2, rfl⟩
      · rename_i hc
        simp only [hc]
        exact ih (i + 1) t1 r2.1 r1 hs2 h1

theorem initial_data_ok (X : mat) (beta0 Ys weights offsets : vec) (family : glm_base)
    (nthreads block_size : Nat) (hv : valid_input X beta0 Ys weights offsets)
    (hn : X.n_cols < 2 ^ 63) (hbs : block_size < uword_size) :
    data_ok (initial_state X beta0 Ys weights offsets family nthreads block_size).data := by
  obtain ⟨-, h2, h3, h4⟩ := hv
  unfold mat.n_cols at *
  exact ⟨hn, h4, h2, h3, by simp [initial_state, data_holder_base.mk0, h4],
    by simp [initial_state, data_holder_base.mk0, h4], hbs⟩

theorem compute_same (K : kernels) (q : observation → Bool) (family : glm_base) (tol : ℚ)
    (it_max : Nat) (X1 X2 : mat) (b1 b2 Ys1 Ys2 w1 w2 off1 off2 : vec) (nt1 nt2 : Nat)
    (tr1 tr2 : Bool) (bs1 bs2 : Nat) (hq : negligible family q)
    (hK : exact_kernels K X1.n_rows) (hv1 : valid_input X1 b1 Ys1 w1 off1)
    (hv2 : valid_input X2 b2 Ys2 w2 off2)
    (hs : same_state q family X1.n_rows (initial_state X1 b1 Ys1 w1 off1 family nt1 bs1)
      (initial_state X2 b2 Ys2 w2 off2 family nt2 bs2))
    (res1 : parallelglm_res) (ev1 : List event)
    (h : compute K X1 b1 Ys1 w1 off1 family tol nt1 it_max tr1 bs1 = .ok (res1, ev1)) :
    ∃ res2 ev2, compute K X2 b2 Ys2 w2 off2 family tol nt2 it_max tr2 bs2 = .ok (res2, ev2) ∧
      res2.coefficients = res1.coefficients ∧ res2.dev = res1.dev ∧
      res2.n_iter = res1.n_iter ∧ res2.conv = res1.conv := by
  rw [compute_valid K X1 b1 Ys1 w1 off1 family tol nt1 it_max tr1 bs1 hv1] at h
  rw [compute_valid K X2 b2 Ys2 w2 off2 family tol nt2 it_max tr2 bs2 hv2]
  split at h
  · cases h
  · rename_i r1 hr1
    obtain ⟨r2, hr2, hsame, hi⟩ :=
      irls_loop_same K tol q family X1.n_rows tr1 tr2 hq hK it_max 0 _ _ r1 hs hr1
    rw [hr2]
    dsimp only
    obtain ⟨-, -, hfit, hdev, hrf, -, -⟩ := hsame
    unfold finish at h ⊢
    split at h
    · cases h
    · rename_i rf1 hrf1
      cases h
      rw [hrf1] at hrf
      obtain ⟨rf2, hrf2⟩ := Option.isSome_iff_exists.mp hrf.symm
      rw [hrf2]
      exact ⟨_, _, rfl, hfit.2.2.1.symm, hdev.symm, by rw [hi], by rw [hi]⟩

theorem whole_chunk_eq (K : kernels) (data : data_holder_base) (hn : data.X.n_cols < 2 ^ 63)
    (hw : data.X.n_cols ≤ data.weights.length) (he : data.X.n_cols ≤ data.eta.length) :
    get_chunk K data 0 (usub data.X.n_cols 1) =
      chunk_of K data (kept_in data 0 data.X.n_cols) := by
  by_cases h0 : data.X.n_cols = 0
  · rw [h0]
    have e1 : uadd (usub (usub 0 1) 0) 1 = 0 := by decide
    simp only [get_chunk, good_rows, e1, view, List.take_zero, List.map_nil, List.zipWith_nil_left,
      find, List.length_nil, List.range_zero, List.filter_nil, elem, List.zipWith_nil_right,
      kept_in, List.range'_zero, chunk_of]
  · have e1 : usub data.X.n_cols 1 = data.X.n_cols - 1 := by
      unfold usub uword_size; omega
    have hr : range_ok data 0 (data.X.n_cols - 1) := ⟨Nat.zero_le _, by omega, by omega, by omega⟩
    rw [e1, get_chunk_eq K data 0 _ hr, kept_eq data 0 _ hr]
    have e2 : data.X.n_cols - 1 + 1 - 0 = data.X.n_cols := by omega
    rw [e2]

theorem negligible_all (family : glm_base) : negligible family (fun _ => true) := by
  refine ⟨fun _ _ _ => rfl, ?_, ?_⟩
  · intro o h; cases h
  · intro o h; cases h

theorem insert_at_length {α : Type} (l : List α) (k : Nat) (a : α) (hk : k ≤ l.length) :
    (insert_at l k a).length = l.length + 1 := by
  simp only [insert_at, List.length_append, List.length_take, List.length_drop,
    List.length_singleton]
  omega

theorem insert_at_getD {α : Type} (l : List α) (k : Nat) (a d : α) (hk : k ≤ l.length)
    (i : Nat) :
    (insert_at l k a).getD i d =
      if i < k then l.getD i d else if i = k then a else l.getD (i - 1) d := by
  have hlen : (l.take k).length = k := by simp [List.length_take, hk]
  unfold insert_at
  rw [List.append_assoc]
  simp only [List.getD_eq_getElem?_getD]
  by_cases h1 : i < k
  · rw [List.getElem?_append_left (by rw [hlen]; exact h1), if_pos h1, List.getElem?_take, if_pos h1]
  · rw [List.getElem?_append_right (by rw [hlen]; omega), hlen, if_neg h1]
    by_cases h2 : i = k
    · subst h2
      simp
    · rw [if_neg h2]
      have : i - k = (i - k - 1) + 1 := by omega
      rw [this, List.singleton_append, List.getElem?_cons_succ, List.getElem?_drop]
      congr 2
      omega

theorem observations_getD (d : data_holder_base) (i : Nat) (o : observation)
    (h : i < d.X.cols.length) : (observations d).getD i o = obs_at d i := by
  rw [List.getD_eq_getElem _ _ (by simp [observations, h])]
  simp [observations]

theorem observations_insert (d d1 : data_holder_base) (k : Nat) (c : List ℚ) (y w off : ℚ)
    (hk : k ≤ d.X.cols.length) (hy : d.Ys.length = d.X.cols.length)
    (hw : d.weights.length = d.X.cols.length) (ho : d.offsets.length = d.X.cols.length)
    (hX : d1.X.cols = insert_at d.X.cols k c) (hY : d1.Ys = insert_at d.Ys k y)
    (hW : d1.weights = insert_at d.weights k w) (hO : d1.offsets = insert_at d.offsets k off)
    (he : ∀ i, d.eta.getD i 0 = 0) (hm : ∀ i, d.mu.getD i 0 = 0)
    (he1 : ∀ i, d1.eta.getD i 0 = 0) (hm1 : ∀ i, d1.mu.getD i 0 = 0) :
    observations d1 = insert_at (observations d) k ⟨c, y, w, off, 0, 0⟩ := by
  have hlen : (observations d).length = d.X.cols.length := by simp [observations]
  have hlen1 : d1.X.cols.length = d.X.cols.length + 1 := by
    rw [hX, insert_at_length _ _ _ hk]
  apply List.ext_getElem
  · rw [insert_at_length _ _ _ (by rw [hlen]; exact hk), hlen]
    simp [observations, hlen1]
  · intro i h1 h2
    have hi : i < d.X.cols.length + 1 := by
      rw [insert_at_length _ _ _ (by rw [hlen]; exact hk), hlen] at h2
      exact h2
    rw [← List.getD_eq_getElem _ ⟨c, y, w, off, 0, 0⟩ h2,
      insert_at_getD _ _ _ _ (by rw [hlen]; exact hk),
      ← List.getD_eq_getElem _ ⟨c, y, w, off, 0, 0⟩ h1,
      observations_getD d1 i _ (by rw [hlen1]; exact hi)]
    have hobs : obs_at d1 i =
        ⟨if i < k then d.X.col i else if i = k then c else d.X.col (i - 1),
          if i < k then d.Ys.getD i 0 else if i = k then y else d.Ys.getD (i - 1) 0,
          if i < k then d.weights.getD i 0 else if i = k then w else d.weights.getD (i - 1) 0,
          if i < k then d.offsets.getD i 0 else if i = k then off else d.offsets.getD (i - 1) 0,
          0, 0⟩ := by
      simp only [obs_at, mat.col, hX, hY, hW, hO, he1, hm1, insert_at_getD _ _ _ _ hk,
        insert_at_getD _ _ _ _ (hy ▸ hk), insert_at_getD _ _ _ _ (hw ▸ hk),
        insert_at_getD _ _ _ _ (ho ▸ hk)]
    rw [hobs]
    by_cases c1 : i < k
    · simp only [c1, ↓reduceIte]
      rw [observations_getD d i _ (by omega)]
      simp only [obs_at, he, hm]
    · by_cases c2 : i = k
      · simp only [c1, c2, ↓reduceIte, lt_self_iff_false]
      · simp only [c1, c2, ↓reduceIte]
        rw [observations_getD d (i - 1) _ (by omega)]
        simp only [obs_at, he, hm]

theorem filter_insert_at {α : Type} (q : α → Bool) (l : List α) (k : Nat) (a : α)
    (ha : q a = false) : (insert_at l k a).filter q = l.filter q := by
  unfold insert_at
  rw [List.filter_append, List.filter_append, List.filter_singleton, ha]
  simp only [cond_false, Bool.false_eq_true, ↓reduceIte, List.append_nil]
  rw [← List.filter_append, List.take_append_drop]

theorem negligible_has_weight (family : glm_base) (h : ∀ y mu, family.dev_resids y mu 0 = 0) :
    negligible family has_weight := by
  refine ⟨fun _ _ _ => rfl, ?_, ?_⟩
  · intro o ho
    have : o.weight = 0 := by simpa [has_weight] using ho
    rw [this]; exact lt_irrefl 0
  · intro o ho m
    have : o.weight = 0 := by simpa [has_weight] using ho
    rw [this]; exact h _ _

theorem getD_replicate_zero (n i : Nat) : (List.replicate n (0 : ℚ)).getD i 0 = 0 := by
  rw [List.getD_eq_getElem?_getD]
  by_cases h : i < n
  · simp [h]
  · simp [List.getElem?_eq_none (by simpa using h : (List.replicate n (0 : ℚ)).length ≤ i)]

/-! ## The exact one-predictor kernels -/

theorem kernels_p1_qr_normal : qr_normal kernels_p1 1 := by
  intro chunks rf h
  simp only [kernels_p1] at h
  split at h
  · rename_i hc
    obtain ⟨hc1, hc2⟩ := hc
    cases h
    have e1 : ((kernels_p1.R_rev_piv
        ⟨⟨1, [[small_sqrt (dot ((join_chunks 1 chunks).1.col 0)
            ((join_chunks 1 chunks).1.col 0))]]⟩, [0],
          ⟨1, [[dot ((join_chunks 1 chunks).1.col 0) (join_chunks 1 chunks).2 /
            small_sqrt (dot ((join_chunks 1 chunks).1.col 0)
              ((join_chunks 1 chunks).1.col 0))]]⟩, ⟨1, [[0]]⟩⟩).toMatrix 1).transpose *
        (kernels_p1.R_rev_piv
          ⟨⟨1, [[small_sqrt (dot ((join_chunks 1 chunks).1.col 0)
              ((join_chunks 1 chunks).1.col 0))]]⟩, [0],
            ⟨1, [[dot ((join_chunks 1 chunks).1.col 0) (join_chunks 1 chunks).2 /
              small_sqrt (dot ((join_chunks 1 chunks).1.col 0)
                ((join_chunks 1 chunks).1.col 0))]]⟩, ⟨1, [[0]]⟩⟩).toMatrix 1 =
        gram_matrix 1 (join_chunks 1 chunks).1 := by
      funext i j
      have hi : i = 0 := Subsingleton.elim _ _
      have hj : j = 0 := Subsingleton.elim _ _
      subst hi hj
      simp only [kernels_p1, Matrix.mul_apply, Matrix.transpose_apply, mat.toMatrix, mat.col,
        gram_matrix, Finset.univ_unique, Fin.default_eq_zero, Fin.isValue, Fin.val_zero,
        List.getD_cons_zero, Finset.sum_singleton]
      exact hc1
    have e2 : Matrix.mulVec ((kernels_p1.R_rev_piv
        ⟨⟨1, [[small_sqrt (dot ((join_chunks 1 chunks).1.col 0)
            ((join_chunks 1 chunks).1.col 0))]]⟩, [0],
          ⟨1, [[dot ((join_chunks 1 chunks).1.col 0) (join_chunks 1 chunks).2 /
            small_sqrt (dot ((join_chunks 1 chunks).1.col 0)
              ((join_chunks 1 chunks).1.col 0))]]⟩, ⟨1, [[0]]⟩⟩).toMatrix 1).transpose
        (toVec 1 ((⟨1, [[dot ((join_chunks 1 chunks).1.col 0) (join_chunks 1 chunks).2 /
            small_sqrt (dot ((join_chunks 1 chunks).1.col 0)
              ((join_chunks 1 chunks).1.col 0))]]⟩ : mat).col 0)) =
        gram_rhs 1 (join_chunks 1 chunks).1 (join_chunks 1 chunks).2 := by
      funext i
      have hi : i = 0 := Subsingleton.elim _ _
      subst hi
      simp only [kernels_p1, Matrix.mulVec, Matrix.dotProduct, Matrix.transpose_apply,
        mat.toMatrix, mat.col, gram_rhs, toVec, Finset.univ_unique, Fin.default_eq_zero,
        Fin.isValue, Fin.val_zero, List.getD_cons_zero, Finset.sum_singleton]
      exact mul_div_cancel₀ _ hc2
    obtain ⟨f1, f2⟩ := qr_normal_of_factor 1 _ _ _ _ e1 e2
    exact ⟨rfl, rfl, f1, fun _ => f2⟩
  · cases h

theorem kernels_p1_blocking_free : qr_blocking_free kernels_p1 1 := by
  intro c1 c2 h
  simp only [kernels_p1, h]

theorem kernels_p1_solve_exact : solve_exact kernels_p1 1 := by
  intro A b h1 h2
  have hdet : Matrix.det (A.toMatrix 1) = (A.col 0).getD 0 0 := by
    rw [Matrix.det_fin_one]; rfl
  rw [hdet]
  constructor
  · intro hne
    refine ⟨[b.getD 0 0 / (A.col 0).getD 0 0], ?_, rfl, ?_⟩
    · simp only [kernels_p1, hne, ↓reduceIte]
    · funext i
      have hi : i = 0 := Subsingleton.elim _ _
      subst hi
      simp only [Matrix.mulVec, Matrix.dotProduct, mat.toMatrix, toVec, Finset.univ_unique,
        Fin.default_eq_zero, Fin.isValue, Fin.val_zero, List.getD_cons_zero,
        Finset.sum_singleton]
      exact mul_div_cancel₀ _ hne
  · intro h0
    simp only [kernels_p1, h0, ↓reduceIte]

theorem kernels_p1_exact : exact_kernels kernels_p1 1 :=
  ⟨kernels_p1_qr_normal, kernels_p1_blocking_free, kernels_p1_solve_exact⟩

theorem fit_two_block30 :
    compute kernels_p1 X_two [0] [0, 5] [1, 1] [0, 0] gaussian (1 / 10 ^ 8) 4 25 false 30 =
      .ok ({ coefficients := [4 / 5], R_F := ⟨⟨1, [[5]]⟩, [0], ⟨1, [[4]]⟩, ⟨1, [[0]]⟩⟩, dev := 9,
             n_iter := 2, conv := true },
        [event.worker_task true 0 1, event.generator 0 1, event.qr_factorization, event.solve,
          event.solve, event.worker_task false 0 1, event.generator 0 1,
          event.qr_factorization, event.solve, event.solve, event.worker_task false 0 1]) := by
  decide!

/-! ## The one-predictor kernels without a square root in the aggregator -/

theorem dot_self_eq_zero : ∀ (a b : vec), dot a a = 0 → dot a b = 0 := by
  intro a
  induction a with
  | nil => intro b _; simp [dot]
  | cons x xs ih =>
    intro b h
    cases b with
    | nil => simp [dot]
    | cons y ys =>
      simp only [dot, List.zipWith_cons_cons, List.sum_cons] at h ⊢
      have h1 : 0 ≤ x * x := mul_self_nonneg x
      have h2 : 0 ≤ (List.zipWith (fun x y => x * y) xs xs).sum := by
        apply List.sum_nonneg
        intro z hz
        obtain ⟨i, hi⟩ := List.getElem_of_mem hz
        obtain ⟨hi1, hi2⟩ := hi
        rw [List.getElem_zipWith] at hi2
        rw [← hi2]
        exact mul_self_nonneg _
      have hx : x * x = 0 := by linarith
      have hs : (List.zipWith (fun x y => x * y) xs xs).sum = 0 := by linarith
      have hx0 : x = 0 := mul_self_eq_zero.mp hx
      have := ih ys hs
      simp only [dot] at this
      rw [hx0, this]
      simp

theorem mul_self_cancel_iff (c g b : ℚ) (h : c = 0 → g = 0) :
    c * c * b = c * g ↔ c * b = g := by
  by_cases hc : c = 0
  · rw [hc, h hc]; simp
  · rw [mul_assoc]
    exact ⟨fun e => mul_left_cancel₀ hc e, fun e => by rw [e]⟩

theorem fin_one_ext (v w : Fin 1 → ℚ) : v = w ↔ v 0 = w 0 := by
  constructor
  · intro h; rw [h]
  · intro h
    funext i
    have hi : i = 0 := Subsingleton.elim _ _
    subst hi
    exact h

theorem kernels_gram_qr_normal : qr_normal kernels_gram 1 := by
  intro chunks rf h
  simp only [kernels_gram, Option.some.injEq] at h
  subst h
  refine ⟨rfl, rfl, ?_, ?_⟩
  · have e : Matrix.det ((kernels_gram.R_rev_piv
        ⟨⟨1, [[dot ((join_chunks 1 chunks).1.col 0) ((join_chunks 1 chunks).1.col 0)]]⟩, [0],
          ⟨1, [[dot ((join_chunks 1 chunks).1.col 0) (join_chunks 1 chunks).2]]⟩,
          ⟨1, [[0]]⟩⟩).toMatrix 1) =
        Matrix.det (gram_matrix 1 (join_chunks 1 chunks).1) := by
      rw [Matrix.det_fin_one, Matrix.det_fin_one]
      rfl
    rw [e]
  · intro _ beta
    rw [fin_one_ext, fin_one_ext]
    simp only [kernels_gram, Matrix.mulVec, Matrix.dotProduct, Matrix.mul_apply,
      Matrix.transpose_apply, mat.toMatrix, mat.col, toVec, Finset.univ_unique,
      Fin.default_eq_zero, Fin.isValue, Fin.val_zero, List.getD_cons_zero,
      Finset.sum_singleton, gram_matrix, gram_rhs]
    exact mul_self_cancel_iff _ _ _ (dot_self_eq_zero _ _)

theorem kernels_gram_blocking_free : qr_blocking_free kernels_gram 1 := by
  intro c1 c2 _
  simp only [kernels_gram, Option.isSome_some]

theorem kernels_gram_solve_exact : solve_exact kernels_gram 1 := by
  intro A b h1 h2
  have hdet : Matrix.det (A.toMatrix 1) = (A.col 0).getD 0 0 := by
    rw [Matrix.det_fin_one]; rfl
  rw [hdet]
  constructor
  · intro hne
    refine ⟨[b.getD 0 0 / (A.col 0).getD 0 0], ?_, rfl, ?_⟩
    · simp only [kernels_gram, hne, ↓reduceIte]
    · funext i
      have hi : i = 0 := Subsingleton.elim _ _
      subst hi
      simp only [Matrix.mulVec, Matrix.dotProduct, mat.toMatrix, toVec, Finset.univ_unique,
        Fin.default_eq_zero, Fin.isValue, Fin.val_zero, List.getD_cons_zero,
        Finset.sum_singleton]
      exact mul_div_cancel₀ _ hne
  · intro h0
    simp only [kernels_gram, h0, ↓reduceIte]

theorem kernels_gram_exact : exact_kernels kernels_gram 1 :=
  ⟨kernels_gram_qr_normal, kernels_gram_blocking_free, kernels_gram_solve_exact⟩

theorem fit_ones_block30 :
    compute kernels_gram X_ones [0] [0, 2] [1, 1] [0, 0] gaussian (1 / 10 ^ 8) 4 25 false 30 =
      .ok ({ coefficients := [1], R_F := ⟨⟨1, [[2]]⟩, [0], ⟨1, [[2]]⟩, ⟨1, [[0]]⟩⟩, dev := 2,
             n_iter := 2, conv := true },
        [event.worker_task true 0 1, event.generator 0 1, event.qr_factorization, event.solve,
          event.solve, event.worker_task false 0 1, event.generator 0 1,
          event.qr_factorization, event.solve, event.solve, event.worker_task false 0 1]) := by
  decide!

/-! ## Exact kernels for every number of predictors -/

theorem toMatrix_ofFn (p : Nat) (G : Matrix (Fin p) (Fin p) ℚ) :
    (⟨p, List.ofFn (fun j : Fin p => List.ofFn (fun i : Fin p => G i j))⟩ : mat).toMatrix p =
      G := by
  funext i j
  simp [mat.toMatrix, mat.col, List.getD_eq_getElem?_getD, List.getElem?_ofFn]

theorem toVec_ofFn (p : Nat) (f : Fin p → ℚ) : toVec p (List.ofFn f) = f := by
  funext i
  simp [toVec, List.getD_eq_getElem?_getD, List.getElem?_ofFn]

/-- Kernels that meet the exact-arithmetic contracts exist for every number
of predictors `p` and every square-root kernel: the aggregator may return
the factor `A^T A` with the projected response `A^T b`, and the solver the
solution of a non-singular system. -/
theorem exact_kernels_exist (p : Nat) (sq : ℚ → ℚ) :
    ∃ K : kernels, K.sqrt = sq ∧ exact_kernels K p ∧ ∀ cs, (K.qr_compute cs).isSome := by
  classical
  refine ⟨{ sqrt := sq,
            solve := fun A b => if Matrix.det (A.toMatrix p) ≠ 0 then
              some (List.ofFn (Matrix.mulVec (A.toMatrix p)⁻¹ (toVec p b))) else none,
            qr_compute := fun cs => some
              ⟨⟨p, List.ofFn (fun j : Fin p => List.ofFn
                  (fun i : Fin p => gram_matrix p (join_chunks p cs).1 i j))⟩, [],
                ⟨p, [List.ofFn (gram_rhs p (join_chunks p cs).1 (join_chunks p cs).2)]⟩,
                ⟨1, [[0]]⟩⟩,
            R_rev_piv := fun rf => rf.R }, rfl, ⟨?_, ?_, ?_⟩, ?_⟩
  · intro chunks rf h
    simp only [Option.some.injEq] at h
    subst h
    refine ⟨rfl, by simp, by rw [toMatrix_ofFn], ?_⟩
    intro hdet beta
    rw [toMatrix_ofFn]
    have hF : toVec p ((⟨p, [List.ofFn (gram_rhs p (join_chunks p chunks).1
        (join_chunks p chunks).2)]⟩ : mat).col 0) =
        gram_rhs p (join_chunks p chunks).1 (join_chunks p chunks).2 := by
      simp only [mat.col, List.getD_cons_zero]
      exact toVec_ofFn p _
    rw [hF, ← Matrix.mulVec_mulVec]
    have hu : IsUnit (Matrix.det (gram_matrix p (join_chunks p chunks).1).transpose) := by
      rw [Matrix.det_transpose]; exact isUnit_iff_ne_zero.mpr hdet
    constructor
    · intro e
      have := congrArg (Matrix.mulVec (gram_matrix p (join_chunks p chunks).1).transpose⁻¹) e
      have key : ∀ v : Fin p → ℚ,
          Matrix.mulVec (gram_matrix p (join_chunks p chunks).1).transpose⁻¹
            (Matrix.mulVec (gram_matrix p (join_chunks p chunks).1).transpose v) = v := by
        intro v
        rw [Matrix.mulVec_mulVec, Matrix.nonsing_inv_mul _ hu, Matrix.one_mulVec]
      rw [key, key] at this
      exact this
    · intro e; rw [e]
  · intro c1 c2 _
    simp
  · intro A b h1 h2
    constructor
    · intro hne
      refine ⟨_, if_pos hne, by simp, ?_⟩
      rw [toVec_ofFn, Matrix.mulVec_mulVec, Matrix.mul_nonsing_inv _ (isUnit_iff_ne_zero.mpr hne),
        Matrix.one_mulVec]
    · intro h0
      simp only [h0, ne_eq, not_true_eq_false, ↓reduceIte]
  · intro cs
    rfl

/-! ## The gaussian family -/

theorem zero_eps_le_one : zero_eps ≤ |(1 : ℚ)| := by
  unfold zero_eps
  rw [abs_one, div_le_one (by positivity)]
  exact one_le_pow₀ (by norm_num)

theorem gaussian_stacked (K : kernels) (d : data_holder_base) (hg : is_gaussian d.family)
    (hok : data_ok d) (hw : ∀ i, i < d.X.cols.length → 0 < d.weights.getD i 0)
    (hmu : d.mu = d.eta) :
    stacked K d = gaussian_stack K d.p d.X d.weights d.Ys d.offsets := by
  obtain ⟨-, -, g3, g4, -⟩ := hg
  rw [stacked_eq K d hok]
  have hall : (observations d).filter (good_obs d.family) = observations d := by
    rw [List.filter_eq_self]
    intro o ho
    obtain ⟨i, hi, rfl⟩ := List.mem_map.mp ho
    have hi := List.mem_range.mp hi
    simp only [good_obs, obs_at, g3, decide_eq_true_eq]
    exact ⟨hw i hi, zero_eps_le_one⟩
  rw [hall]
  have e1 : (observations d).map (obs_row K d.family) =
      (List.range d.X.cols.length).map
        (fun i => (d.X.col i).map (fun x => x * K.sqrt (d.weights.getD i 0))) := by
    simp only [observations, List.map_map]
    apply List.map_congr_left
    intro i _
    simp only [Function.comp, obs_row, obs_at, g3, g4, one_pow, mul_one, div_one]
  have e2 : (observations d).map (obs_response K d.family) =
      (List.range d.X.cols.length).map
        (fun i => (d.Ys.getD i 0 - d.offsets.getD i 0) * K.sqrt (d.weights.getD i 0)) := by
    simp only [observations, List.map_map]
    apply List.map_congr_left
    intro i _
    simp only [Function.comp, obs_response, obs_at, g3, g4, one_pow, mul_one, div_one, hmu]
    ring
  simp only [stack_of, gaussian_stack, e1, e2]

theorem getD_map_mul (l : List ℚ) (s : ℚ) (j : Nat) :
    (l.map (fun x => x * s)).getD j 0 = l.getD j 0 * s := by
  simp only [List.getD_eq_getElem?_getD, List.getElem?_map]
  cases l[j]? <;> simp

theorem t_col (A : mat) (j : Nat) (hj : j < A.n_rows) :
    A.t.col j = A.cols.map (fun c => c.getD j 0) := by
  simp [mat.t, mat.col, mat.rows, mat.row, List.getD_eq_getElem?_getD, hj]

theorem dot_map_map {α : Type} (l : List α) (f g : α → ℚ) :
    dot (l.map f) (l.map g) = (l.map (fun a => f a * g a)).sum := by
  unfold dot
  rw [zipWith_map_same]

theorem squared_roots_getD (K : kernels) (weights : vec) (i : Nat) (hi : i < weights.length) :
    (squared_roots K weights).getD i 0 =
      K.sqrt (weights.getD i 0) * K.sqrt (weights.getD i 0) := by
  simp [squared_roots, List.getD_eq_getElem?_getD, hi]

theorem gaussian_gram (K : kernels) (p : Nat) (X : mat) (weights Ys offsets : vec)
    (hlen : weights.length = X.cols.length) :
    gram_matrix p (gaussian_stack K p X weights Ys offsets).1 =
        wls_matrix p X (squared_roots K weights) ∧
      gram_rhs p (gaussian_stack K p X weights Ys offsets).1
        (gaussian_stack K p X weights Ys offsets).2 =
          wls_rhs p X (squared_roots K weights) Ys offsets := by
  constructor
  · funext j k
    simp only [gram_matrix, gaussian_stack, wls_matrix]
    rw [t_col _ _ j.2, t_col _ _ k.2]
    simp only [List.map_map]
    rw [dot_map_map]
    congr 1
    apply List.map_congr_left
    intro i hi
    have hi := List.mem_range.mp hi
    simp only [Function.comp, getD_map_mul]
    rw [squared_roots_getD K weights i (by rw [hlen]; exact hi)]
    ring
  · funext j
    simp only [gram_rhs, gaussian_stack, wls_rhs]
    rw [t_col _ _ j.2]
    simp only [List.map_map]
    rw [dot_map_map]
    congr 1
    apply List.map_congr_left
    intro i hi
    have hi := List.mem_range.mp hi
    simp only [Function.comp, getD_map_mul]
    rw [squared_roots_getD K weights i (by rw [hlen]; exact hi)]
    ring

theorem wls_exact_roots (K : kernels) (p : Nat) (X : mat) (weights Ys offsets : vec)
    (hlen : weights.length = X.cols.length)
    (hs : ∀ i, i < X.cols.length →
      K.sqrt (weights.getD i 0) * K.sqrt (weights.getD i 0) = weights.getD i 0) :
    wls_matrix p X (squared_roots K weights) = wls_matrix p X weights ∧
      wls_rhs p X (squared_roots K weights) Ys offsets = wls_rhs p X weights Ys offsets := by
  constructor
  · funext j k
    simp only [wls_matrix]
    congr 1
    apply List.map_congr_left
    intro i hi
    have hi := List.mem_range.mp hi
    rw [squared_roots_getD K weights i (by rw [hlen]; exact hi), hs i hi]
  · funext j
    simp only [wls_rhs]
    congr 1
    apply List.map_congr_left
    intro i hi
    have hi := List.mem_range.mp hi
    rw [squared_roots_getD K weights i (by rw [hlen]; exact hi), hs i hi]

theorem gaussian_round_mu (first_it : Bool) (d : data_holder_base) (hg : is_gaussian d.family) :
    (round_data first_it d).mu = (round_data first_it d).eta := by
  simp only [round_data, mu_all]
  rw [List.map_congr_left (fun e _ => hg.2.1 e), List.map_id']

theorem gaussian_dev_first (d : data_holder_base) (hg : is_gaussian d.family)
    (hok : data_ok d) : (dev_all true d).sum = 0 := by
  rw [dev_all_eq true d hok, observations_round true d hok, List.map_map]
  apply List.sum_eq_zero
  intro x hx
  obtain ⟨o, -, rfl⟩ := List.mem_map.mp hx
  simp [round_obs, hg.1, hg.2.1, hg.2.2.2.2]

theorem gaussian_dev_next (d : data_holder_base) (hg : is_gaussian d.family)
    (hok : data_ok d) :
    (dev_all false d).sum = wls_rss d.X d.weights d.Ys d.offsets d.beta := by
  rw [dev_all_eq false d hok, observations_round false d hok, List.map_map]
  simp only [wls_rss, observations, List.map_map]
  congr 1
  apply List.map_congr_left
  intro i _
  simp [round_obs, obs_at, hg.2.1, hg.2.2.2.2]

theorem gaussian_update (K : kernels) (s : fit_state) (hg : is_gaussian s.data.family)
    (hok : data_ok s.data) (hw : ∀ i, i < s.data.X.cols.length → 0 < s.data.weights.getD i 0)
    (hmu : s.data.mu = s.data.eta)
    (hK : exact_kernels K s.data.p)
    (hrank : Matrix.det (wls_matrix s.data.p s.data.X (squared_roots K s.data.weights)) ≠ 0)
    (hqr : (K.qr_compute (chunks_of K s.data (blocks_of s.data))).isSome) :
    ∃ t beta, update_beta K s = .ok t ∧ t.data = { s.data with beta := beta } ∧
      t.dev = s.dev ∧ t.R_f_out.isSome = true ∧ beta.length = s.data.p ∧
      Matrix.mulVec (wls_matrix s.data.p s.data.X (squared_roots K s.data.weights))
          (toVec s.data.p beta) =
        wls_rhs s.data.p s.data.X (squared_roots K s.data.weights) s.data.Ys
          s.data.offsets := by
  obtain ⟨hq, -, hsolve⟩ := hK
  have hst := gaussian_stacked K s.data hg hok hw hmu
  obtain ⟨hG, hg2⟩ := gaussian_gram K s.data.p s.data.X s.data.weights s.data.Ys s.data.offsets
    hok.2.2.1
  obtain ⟨rf, hrf⟩ := Option.isSome_iff_exists.mp hqr
  have hdet : Matrix.det (gram_matrix s.data.p (stacked K s.data).1) ≠ 0 := by
    rw [hst, hG]; exact hrank
  obtain ⟨t, ht⟩ := update_beta_ok_intro K s rf hok hq hsolve hrf hdet
  obtain ⟨rf1, beta, -, -, hlen, heq, hd, hdev, hr⟩ := update_beta_ok_elim K s t hok hq hsolve ht
  rw [hst, hG, hg2] at heq
  exact ⟨t, beta, ht, hd, hdev, by rw [hr]; rfl, hlen, heq⟩

theorem wls_unique (p : Nat) (X : mat) (weights Ys offsets b1 b2 : vec)
    (hrank : Matrix.det (wls_matrix p X weights) ≠ 0) (h1 : b1.length = p) (h2 : b2.length = p)
    (e1 : Matrix.mulVec (wls_matrix p X weights) (toVec p b1) = wls_rhs p X weights Ys offsets)
    (e2 : Matrix.mulVec (wls_matrix p X weights) (toVec p b2) = wls_rhs p X weights Ys offsets) :
    b1 = b2 := by
  apply toVec_injective p b1 b2 h1 h2
  have hinj := Matrix.mulVec_injective_iff_isUnit.mpr
    ((Matrix.isUnit_iff_isUnit_det _).mpr (Ne.isUnit hrank))
  apply hinj
  rw [e1, e2]

theorem gaussian_iteration (K : kernels) (trace : Bool) (i : Nat) (s : fit_state)
    (hg : is_gaussian s.data.family) (hok : data_ok s.data)
    (hw : ∀ i, i < s.data.X.cols.length → 0 < s.data.weights.getD i 0)
    (hmu : i ≠ 0 → s.data.mu = s.data.eta)
    (hK : exact_kernels K s.data.p)
    (hrank : Matrix.det (wls_matrix s.data.p s.data.X (squared_roots K s.data.weights)) ≠ 0)
    (hqr : ∃ cs, (K.qr_compute cs).isSome ∧
      join_chunks s.data.p cs = gaussian_stack K s.data.p s.data.X s.data.weights s.data.Ys
        s.data.offsets) :
    ∃ r beta, iteration K trace i s = .ok r ∧ r.1.data.beta = beta ∧ beta.length = s.data.p ∧
      Matrix.mulVec (wls_matrix s.data.p s.data.X (squared_roots K s.data.weights))
          (toVec s.data.p beta) =
        wls_rhs s.data.p s.data.X (squared_roots K s.data.weights) s.data.Ys s.data.offsets ∧
      r.1.dev = wls_rss s.data.X s.data.weights s.data.Ys s.data.offsets beta ∧
      r.2 = (if i = 0 then 0 else s.dev) ∧ r.1.R_f_out.isSome = true ∧
      r.1.data.family = s.data.family ∧ r.1.data.X = s.data.X ∧
      r.1.data.weights = s.data.weights ∧ r.1.data.Ys = s.data.Ys ∧
      r.1.data.offsets = s.data.offsets ∧ r.1.data.p = s.data.p ∧ data_ok r.1.data ∧
      r.1.data.mu = r.1.data.eta := by
  -- the state the factorization starts from
  have hA : ∃ sa, first_deviance i s = .ok sa ∧ sa.dev = (if i = 0 then 0 else s.dev) ∧
      sa.data.mu = sa.data.eta ∧ data_ok sa.data ∧ sa.data.family = s.data.family ∧
      sa.data.X = s.data.X ∧ sa.data.weights = s.data.weights ∧ sa.data.Ys = s.data.Ys ∧
      sa.data.offsets = s.data.offsets ∧ sa.data.p = s.data.p ∧
      sa.data.beta = s.data.beta := by
    unfold first_deviance
    by_cases hi : i = 0
    · simp only [hi, ↓reduceIte]
      rw [set_eta_n_mu_spec true s hok]
      refine ⟨_, rfl, gaussian_dev_first s.data hg hok, gaussian_round_mu true s.data hg,
        data_ok_round true s.data hok, rfl, rfl, rfl, rfl, rfl, rfl, rfl⟩
    · simp only [hi, ↓reduceIte]
      exact ⟨s, rfl, rfl, hmu hi, hok, rfl, rfl, rfl, rfl, rfl, rfl, rfl⟩
  obtain ⟨sa, hsa, hdev_a, hmu_a, hok_a, hf_a, hX_a, hW_a, hY_a, hO_a, hp_a, hb_a⟩ := hA
  have hqr_a : (K.qr_compute (chunks_of K sa.data (blocks_of sa.data))).isSome := by
    obtain ⟨cs, hcs1, hcs2⟩ := hqr
    have hst := gaussian_stacked K sa.data (hf_a ▸ hg) hok_a
      (by rw [hX_a, hW_a]; exact hw) hmu_a
    rw [hp_a, hX_a, hW_a, hY_a, hO_a, ← hcs2] at hst
    have hj : join_chunks s.data.p (chunks_of K sa.data (blocks_of sa.data)) =
        join_chunks s.data.p cs := by
      rw [← hst, stacked, hp_a]
    rw [hK.2.1 _ _ hj]
    exact hcs1
  obtain ⟨t, beta, ht, hd_t, hdev_t, hr_t, hlen, heq⟩ := gaussian_update K sa (hf_a ▸ hg) hok_a
    (by rw [hX_a, hW_a]; exact hw) hmu_a (hp_a ▸ hK)
    (by rw [hp_a, hX_a, hW_a]; exact hrank) hqr_a
  rw [hp_a] at hlen
  rw [hp_a, hX_a, hW_a, hY_a, hO_a] at heq
  have hok_t : data_ok (trace_step K trace i s.data.beta t).data := by
    have : (trace_step K trace i s.data.beta t).data = t.data := by
      unfold trace_step; split <;> rfl
    rw [this, hd_t]; exact hok_a
  have htd : (trace_step K trace i s.data.beta t).data = { sa.data with beta := beta } := by
    have : (trace_step K trace i s.data.beta t).data = t.data := by
      unfold trace_step; split <;> rfl
    rw [this, hd_t]
  have htdev : (trace_step K trace i s.data.beta t).dev = sa.dev := by
    have : (trace_step K trace i s.data.beta t).dev = t.dev := by
      unfold trace_step; split <;> rfl
    rw [this, hdev_t]
  have htr : (trace_step K trace i s.data.beta t).R_f_out = t.R_f_out := by
    unfold trace_step; split <;> rfl
  have hfin := set_eta_n_mu_spec false (trace_step K trace i s.data.beta t) hok_t
  have hit : ∃ r, iteration K trace i s = .ok r ∧
      r.1.data = round_data false (trace_step K trace i s.data.beta t).data ∧
      r.1.dev = (dev_all false (trace_step K trace i s.data.beta t).data).sum ∧
      r.2 = t.dev ∧ r.1.R_f_out = (trace_step K trace i s.data.beta t).R_f_out := by
    unfold iteration
    rw [hsa]
    dsimp only
    rw [ht]
    dsimp only
    rw [hfin]
    exact ⟨_, rfl, rfl, rfl, rfl, rfl⟩
  obtain ⟨r, hr, hr_data, hr_dev, hr_old, hr_rf⟩ := hit
  have hg1 : is_gaussian (trace_step K trace i s.data.beta t).data.family := by
    rw [htd]; exact hf_a ▸ hg
  have hdev := gaussian_dev_next _ hg1 hok_t
  have hrss : wls_rss (trace_step K trace i s.data.beta t).data.X
      (trace_step K trace i s.data.beta t).data.weights
      (trace_step K trace i s.data.beta t).data.Ys
      (trace_step K trace i s.data.beta t).data.offsets
      (trace_step K trace i s.data.beta t).data.beta =
      wls_rss s.data.X s.data.weights s.data.Ys s.data.offsets beta := by
    rw [htd]
    simp only
    rw [hX_a, hW_a, hY_a, hO_a]
  have hround := gaussian_round_mu false _ hg1
  have hokr := data_ok_round false _ hok_t
  rw [← hr_data] at hround hokr
  refine ⟨r, beta, hr, ?_, hlen, heq, ?_, ?_, ?_, ?_, ?_, ?_, ?_, ?_, ?_, hokr, hround⟩
  · rw [hr_data, htd]; rfl
  · rw [hr_dev, hdev, hrss]
  · rw [hr_old, hdev_t, hdev_a]
  · rw [hr_rf, htr]; exact hr_t
  · rw [hr_data, htd]; exact hf_a
  · rw [hr_data, htd]; exact hX_a
  · rw [hr_data, htd]; exact hW_a
  · rw [hr_data, htd]; exact hY_a
  · rw [hr_data, htd]; exact hO_a
  · rw [hr_data, htd]; exact hp_a

theorem wls_rss_nonneg (X : mat) (weights Ys offsets beta : vec)
    (hw : ∀ i, i < X.cols.length → 0 < weights.getD i 0) :
    0 ≤ wls_rss X weights Ys offsets beta := by
  unfold wls_rss
  apply List.sum_nonneg
  intro x hx
  obtain ⟨i, hi, rfl⟩ := List.mem_map.mp hx
  exact mul_nonneg (le_of_lt (hw i (List.mem_range.mp hi))) (sq_nonneg _)

theorem converged_first (tol rss : ℚ) (h : 0 ≤ rss) :
    converged tol rss 0 = decide (rss / (1 / 10 + rss) < tol) := by
  unfold converged
  rw [sub_zero, abs_of_nonneg h]

theorem converged_same (tol rss : ℚ) (htol : 0 < tol) : converged tol rss rss = true := by
  unfold converged
  rw [sub_self, abs_zero, zero_div]
  exact decide_eq_true htol


/-! ## One round, one pass, and the partition count -/

theorem dot_eq_sum (p : Nat) (beta c : vec) (h : beta.length = p) :
    dot beta c = ∑ j : Fin p, c.getD j 0 * beta.getD j 0 := by
  unfold dot
  rw [sum_zipWith_fin p beta c h]
  apply Finset.sum_congr rfl
  intro j _
  exact mul_comm _ _

theorem mu_all_getD (first_it : Bool) (data : data_holder_base) (h : data_ok data) (i : Nat)
    (hi : i < data.X.cols.length) :
    (mu_all first_it data).getD i 0 = data.family.linkinv ((eta_all first_it data).getD i 0) := by
  have hl := (round_lengths first_it data h).1
  simp [mu_all, List.getD_eq_getElem?_getD, hl, hi]

theorem dev_all_eq_range (first_it : Bool) (data : data_holder_base) (h : data_ok data) :
    dev_all first_it data =
      (List.range data.X.n_cols).map (fun i =>
        data.family.dev_resids (data.Ys.getD i 0) ((mu_all first_it data).getD i 0)
          (data.weights.getD i 0)) := by
  rw [dev_all_eq first_it data h]
  simp only [observations, round_data, List.map_map, mat.n_cols]
  rfl

theorem data_ok_block_size (data : data_holder_base) (bs : Nat) (h : data_ok data)
    (hbs : bs < uword_size) : data_ok { data with block_size := bs } := by
  obtain ⟨h0, h1, h2, h3, h4, h5, -⟩ := h
  exact ⟨h0, h1, h2, h3, h4, h5, hbs⟩

theorem set_eta_n_mu_loop_spec (first_it : Bool) (data : data_holder_base) (ev : List event)
    (h : data_ok data) :
    set_eta_n_mu_loop first_it data.X.n_cols (data.X.n_cols + 1) 0 data [] ev =
      some ({ data with eta := eta_all first_it data, mu := mu_all first_it data },
        (blocks_of data).map (fun r => (view (dev_all first_it data) r.1 (r.2 + 1 - r.1)).sum),
        ev ++ (blocks_of data).map (fun r => event.worker_task first_it r.1 r.2)) := by
  have ht := blocks_of_tiles data h
  obtain ⟨r1, r2, -⟩ := run_workers_spec first_it data.X.cols.length h.1 (blocks_of data) 0 data ht
    h rfl
  rw [set_eta_n_mu_loop_eq first_it data.X.n_cols data.block_size h.1 h.2.2.2.2.2.2
    (data.X.n_cols + 1) 0 data [] ev rfl (Nat.zero_le _) (by omega) (fun _ => Or.inl rfl)]
  have e : block_ranges data.X.n_cols data.block_size (data.X.n_cols + 1) 0 = blocks_of data := rfl
  rw [e, r1, r2]
  simp

theorem set_eta_n_mu_loop_frame (first_it : Bool) (n : Nat) :
    ∀ (fuel i : Nat) (data : data_holder_base) (futures : List ℚ) (ev : List event)
      (r : data_holder_base × List ℚ × List event),
      set_eta_n_mu_loop first_it n fuel i data futures ev = some r →
      r.1.beta = data.beta ∧ r.1.X = data.X ∧ r.1.Ys = data.Ys ∧ r.1.weights = data.weights ∧
        r.1.offsets = data.offsets ∧ r.1.family = data.family ∧ r.1.p = data.p ∧
        r.1.block_size = data.block_size := by
  intro fuel
  induction fuel with
  | zero =>
    intro i data futures ev r h
    unfold set_eta_n_mu_loop at h
    split at h
    · cases h
    · cases h
      exact ⟨rfl, rfl, rfl, rfl, rfl, rfl, rfl, rfl⟩
  | succ fuel ih =>
    intro i data futures ev r h
    unfold set_eta_n_mu_loop at h
    split at h
    · obtain ⟨h1, h2, h3, h4, h5, h6, h7, h8⟩ := ih _ _ _ _ r h
      obtain ⟨f1, f2, f3, f4, f5, f6, f7, f8, -, -⟩ := worker_frame first_it data i
        (min (usub n 1) (usub (uadd i data.block_size) 1))
      exact ⟨h1.trans f6, h2.trans f2, h3.trans f3, h4.trans f4, h5.trans f5, h6.trans f7,
        h7.trans f8, h8.trans f1⟩
    · cases h
      exact ⟨rfl, rfl, rfl, rfl, rfl, rfl, rfl, rfl⟩

theorem set_eta_n_mu_frame (first_it : Bool) (s s1 : fit_state) (d : ℚ)
    (h : set_eta_n_mu first_it s = .ok (s1, d)) :
    s1.data.beta = s.data.beta ∧ s1.data.X = s.data.X ∧ s1.data.Ys = s.data.Ys ∧
      s1.data.weights = s.data.weights ∧ s1.data.offsets = s.data.offsets ∧
      s1.data.family = s.data.family ∧ s1.data.p = s.data.p ∧
      s1.data.block_size = s.data.block_size := by
  unfold set_eta_n_mu at h
  dsimp only at h
  split at h
  · cases h
  · rename_i data futures ev hl
    cases h
    exact set_eta_n_mu_loop_frame first_it _ _ _ _ _ _ _ hl

theorem iteration_beta (K : kernels) (trace : Bool) (i : Nat) (s : fit_state)
    (r : fit_state × ℚ) (h : iteration K trace i s = .ok r) :
    ∃ s1 s2, first_deviance i s = .ok s1 ∧ update_beta K s1 = .ok s2 ∧
      r.1.data.beta = s2.data.beta ∧ r.1.R_f_out = s2.R_f_out := by
  unfold iteration at h
  split at h
  · cases h
  · rename_i s1 h1
    split at h
    · cases h
    · rename_i s2 h2
      split at h
      · cases h
      · rename_i s3 d h3
        cases h
        obtain ⟨hb, -⟩ := set_eta_n_mu_frame false _ _ _ h3
        obtain ⟨hr, -⟩ := set_eta_n_mu_R_f_out false _ _ _ h3
        refine ⟨s1, s2, h1, h2, ?_, ?_⟩
        · rw [hb]; unfold trace_step; split <;> rfl
        · show s3.R_f_out = _
          rw [hr]; unfold trace_step; split <;> rfl

theorem get_R_f_state_round :
    get_R_f kernels_p1 state_round =
      .ok ({ state_round with events := [event.generator 0 1, event.qr_factorization] },
        rf_two) := by
  have hb : blocks_of state_round.data = [(0, 1)] := by decide
  have h2 : kernels_p1.qr_compute (chunks_of kernels_p1 state_round.data [(0, 1)]) =
      some rf_two := by
    decide!
  rw [get_R_f_spec kernels_p1 state_round (by unfold data_ok; decide), hb, h2]
  rfl

theorem write_view_outside {α : Type} (v : List α) (a : Nat) (blk : List α) (e : Nat)
    (ha : a ≤ v.length) (hlen : a + blk.length ≤ e + 1) (j : Nat) (hj : j < a ∨ e < j) :
    (write_view v a blk)[j]? = v[j]? := by
  unfold write_view
  have hl : (v.take a).length = a := by simp [List.length_take, ha]
  rcases hj with hj | hj
  · rw [List.append_assoc, List.getElem?_append_left (by rw [hl]; exact hj), List.getElem?_take,
      if_pos hj]
  · rw [List.getElem?_append_right (by simp [hl]; omega), List.getElem?_drop]
    congr 1
    simp only [List.length_append, hl]
    omega

theorem worker_block_lengths (first_it : Bool) (data : data_holder_base) (a e : Nat) :
    ∃ eta mu : vec, (worker first_it data a e).1.eta = write_view data.eta a eta ∧
      (worker first_it data a e).1.mu = write_view data.mu a mu ∧
      eta.length ≤ uadd (usub e a) 1 ∧ mu.length ≤ uadd (usub e a) 1 := by
  refine ⟨_, _, rfl, rfl, ?_, ?_⟩
  · cases first_it <;>
      simp only [Bool.false_eq_true, ↓reduceIte, List.length_zipWith, List.length_map, view,
        List.length_take, List.length_drop] <;> omega
  · cases first_it <;>
      simp only [Bool.false_eq_true, ↓reduceIte, List.length_zipWith, List.length_map, view,
        List.length_take, List.length_drop] <;> omega

theorem passes_succ_elim (K : kernels) (trace : Bool) (s0 : fit_state) (k : Nat)
    (s1 : fit_state) (h : passes K trace s0 (k + 1) = .ok s1) :
    ∃ s r, passes K trace s0 k = .ok s ∧ iteration K trace k s = .ok r ∧ r.1 = s1 := by
  simp only [passes] at h
  split at h
  · cases h
  · rename_i s hs
    split at h
    · cases h
    · rename_i r hr
      cases h
      exact ⟨s, r, hs, hr, rfl⟩

theorem irls_loop_cap (K : kernels) (tol : ℚ) (trace : Bool) (s0 : fit_state)
    (remaining : Nat) :
    ∀ (i : Nat) (s sN : fit_state), passes K trace s0 i = .ok s →
      passes K trace s0 (i + remaining) = .ok sN →
      (∀ j, i ≤ j → j < i + remaining → ¬ conv_at K tol trace s0 j) →
      irls_loop K tol trace remaining i s = .ok (sN, i + remaining) := by
  induction remaining with
  | zero =>
    intro i s sN hs hN _
    rw [Nat.add_zero, hs] at hN
    cases hN
    rfl
  | succ m ih =>
    intro i s sN hs hN hno
    obtain ⟨s1, hs1⟩ := passes_ok_of_le K trace s0 (i + (m + 1)) sN hN (i + 1) (by omega)
    obtain ⟨s', r, e1, e2, e3⟩ := passes_succ_elim K trace s0 i s1 hs1
    rw [hs] at e1
    cases e1
    have hc : converged tol r.1.dev r.2 = false := by
      by_contra hcon
      have hcon : converged tol r.1.dev r.2 = true := by simpa using hcon
      exact hno i (Nat.le_refl _) (by omega) ⟨s, r, hs, e2, hcon⟩
    unfold irls_loop
    rw [e2]
    dsimp only
    rw [hc]
    simp only [Bool.false_eq_true, ↓reduceIte]
    have := ih (i + 1) r.1 sN (by rw [e3]; exact hs1) (by rw [← hN]; congr 1; omega)
      (fun j hj1 hj2 => hno j (by omega) (by omega))
    rw [this]
    congr 2
    omega

theorem block_ranges_steps (n bs : Nat) (hn : n < 2 ^ 63) (hbs : bs < uword_size) :
    ∀ (fuel i : Nat), (i < n → i = 0 ∨ (1 ≤ bs ∧ bs ≤ i)) →
      ∀ r ∈ block_ranges n bs fuel i,
        r.2 = block_end n bs r.1 ∧ r.1 < uadd r.2 1 ∧ uadd r.2 1 ≤ n := by
  intro fuel
  induction fuel with
  | zero =>
    intro i _ r hr
    simp [block_ranges] at hr
  | succ f ih =>
    intro i hinv r hr
    unfold block_ranges at hr
    by_cases hi : i < n
    · simp only [hi, ↓reduceIte, List.mem_cons] at hr
      obtain ⟨-, hu⟩ := block_end_eq n bs i hi hn hbs (hinv hi)
      obtain ⟨hb1, hb2, hb3, -⟩ := block_end_bounds n bs i hi hn hbs (hinv hi)
      rcases hr with hr | hr
      · subst hr
        refine ⟨rfl, ?_, ?_⟩
        · show i < uadd (block_end n bs i) 1
          rw [hu]; omega
        · show uadd (block_end n bs i) 1 ≤ n
          rw [hu]; omega
      · apply ih (uadd (block_end n bs i) 1) _ r hr
        intro hlt
        rw [hu] at hlt ⊢
        obtain ⟨hh1, hh2⟩ := hb3 hlt
        right; omega
    · simp [hi] at hr

theorem block_ranges_chain (n bs : Nat) :
    ∀ (fuel i : Nat), List.Chain' (fun r r1 => r1.1 = uadd r.2 1) (block_ranges n bs fuel i) := by
  intro fuel
  induction fuel with
  | zero =>
    intro i
    simp [block_ranges]
  | succ f ih =>
    intro i
    unfold block_ranges
    by_cases hi : i < n
    · simp only [hi, ↓reduceIte]
      rw [List.chain'_cons']
      refine ⟨?_, ih _⟩
      intro y hy
      exact (block_ranges_head n bs f _ y hy).1
    · simp [hi]

theorem block_ranges_length_le (n bs : Nat) :
    ∀ (fuel i : Nat), (block_ranges n bs fuel i).length ≤ fuel := by
  intro fuel
  induction fuel with
  | zero =>
    intro i
    simp [block_ranges]
  | succ f ih =>
    intro i
    unfold block_ranges
    split
    · simp only [List.length_cons]
      have := ih (uadd (block_end n bs i) 1)
      omega
    · simp

theorem block_ranges_count (n bs : Nat) (hn : n < 2 ^ 63) (hbs : bs < uword_size)
    (h1 : 1 ≤ bs) :
    ∀ (fuel i : Nat), i ≤ n → n - i ≤ fuel → (i < n → i = 0 ∨ (1 ≤ bs ∧ bs ≤ i)) →
      (block_ranges n bs fuel i).length = (n - i + bs - 1) / bs := by
  intro fuel
  induction fuel with
  | zero =>
    intro i h2 h3 _
    have e : n - i + bs - 1 = bs - 1 := by omega
    rw [e, Nat.div_eq_of_lt (by omega)]
    simp [block_ranges]
  | succ f ih =>
    intro i h2 h3 hinv
    unfold block_ranges
    by_cases hi : i < n
    · simp only [hi, ↓reduceIte, List.length_cons]
      obtain ⟨he, hu⟩ := block_end_eq n bs i hi hn hbs (hinv hi)
      obtain ⟨hb1, hb2, hb3, -⟩ := block_end_bounds n bs i hi hn hbs (hinv hi)
      have hne : bs ≠ 0 := by omega
      rw [if_neg hne] at he
      rw [hu, ih (block_end n bs i + 1) (by omega) (by omega) (by
        intro hlt
        obtain ⟨hh1, hh2⟩ := hb3 hlt
        right; omega)]
      by_cases hlast : n - 1 ≤ i + bs - 1
      · have e1 : block_end n bs i = n - 1 := by rw [he]; omega
        have e2 : n - (block_end n bs i + 1) + bs - 1 = bs - 1 := by rw [e1]; omega
        rw [e2, Nat.div_eq_of_lt (by omega)]
        have e3 : n - i + bs - 1 = (n - i - 1) + bs := by omega
        rw [e3, Nat.add_div_right _ (by omega), Nat.div_eq_of_lt (by omega)]
      · have e1 : block_end n bs i = i + bs - 1 := by rw [he]; omega
        have e2 : n - i + bs - 1 = (n - (block_end n bs i + 1) + bs - 1) + bs := by
          rw [e1]; omega
        rw [e2, Nat.add_div_right _ (by omega)]
    · have e : n - i + bs - 1 = bs - 1 := by omega
      rw [e, Nat.div_eq_of_lt (by omega)]
      simp [hi]

theorem block_ranges_zero_size (n fuel : Nat) (hn : n < 2 ^ 63) (h0 : 0 < n) (hf : 1 ≤ fuel) :
    block_ranges n 0 fuel 0 = [(0, n - 1)] := by
  obtain ⟨f, rfl⟩ : ∃ f, fuel = f + 1 := ⟨fuel - 1, by omega⟩
  obtain ⟨he, hu⟩ := block_end_eq n 0 0 h0 hn (by decide) (Or.inl rfl)
  simp only [↓reduceIte] at he
  unfold block_ranges
  rw [he] at hu
  simp only [h0, ↓reduceIte, he, hu]
  have e : n - 1 + 1 = n := by omega
  rw [e]
  cases f with
  | zero => rfl
  | succ g => simp [block_ranges]

/-! ## The join loop against a pool -/

theorem await_future_some (k : Nat) :
    ∀ (completions done : List Nat), k ∈ done ∨ k ∈ completions →
      ∃ c d, await_future k completions done = some (c, d) ∧
        ∀ j, j ∈ done ∨ j ∈ completions → j ∈ d ∨ j ∈ c := by
  intro completions
  induction completions with
  | nil =>
    intro done h
    have hk : k ∈ done := by
      rcases h with h | h
      · exact h
      · cases h
    exact ⟨[], done, by simp [await_future, hk], fun j hj => hj⟩
  | cons c rest ih =>
    intro done h
    by_cases hk : k ∈ done
    · exact ⟨c :: rest, done, by simp [await_future, hk], fun j hj => hj⟩
    · have h1 : k ∈ c :: done ∨ k ∈ rest := by
        rcases h with h | h
        · exact absurd h hk
        · rcases List.mem_cons.mp h with h | h
          · exact Or.inl (by rw [h]; exact List.mem_cons_self _ _)
          · exact Or.inr h
      obtain ⟨c1, d1, e1, e2⟩ := ih (c :: done) h1
      refine ⟨c1, d1, by simp [await_future, hk, e1], ?_⟩
      intro j hj
      apply e2
      rcases hj with hj | hj
      · exact Or.inl (List.mem_cons_of_mem _ hj)
      · rcases List.mem_cons.mp hj with hj | hj
        · exact Or.inl (by rw [hj]; exact List.mem_cons_self _ _)
        · exact Or.inr hj

theorem join_loop_eq (add : ℚ → ℚ → ℚ) :
    ∀ (stack : List (Nat × ℚ)) (completions done : List Nat) (dev : ℚ) (order : List Nat),
      (∀ f ∈ stack, f.1 ∈ done ∨ f.1 ∈ completions) →
      join_loop add stack completions done dev order =
        some (stack.foldl (fun d f => add d f.2) dev, order ++ stack.map (fun f => f.1)) := by
  intro stack
  induction stack with
  | nil =>
    intro completions done dev order _
    simp [join_loop]
  | cons f rest ih =>
    intro completions done dev order h
    obtain ⟨c, d, e1, e2⟩ := await_future_some f.1 completions done
      (h f (List.mem_cons_self _ _))
    unfold join_loop
    rw [e1]
    dsimp only
    rw [ih c d _ _ (fun g hg => e2 _ (h g (List.mem_cons_of_mem _ hg)))]
    simp

theorem join_scheduled_eq (add : ℚ → ℚ → ℚ) (futures : List ℚ) (completions : List Nat)
    (h : ∀ k, k < futures.length → k ∈ completions) :
    join_scheduled add futures completions =
      some (futures.foldr (fun f dev => add dev f) 0, (List.range futures.length).reverse) := by
  unfold join_scheduled
  rw [join_loop_eq add _ _ _ _ _ (by
    intro f hf
    right
    apply h
    have := List.mem_enum_iff_getElem?.mp (List.mem_reverse.mp hf)
    exact (List.getElem?_eq_some.mp this).1)]
  have e1 : (futures.enum.reverse).map (fun f => f.1) = (List.range futures.length).reverse := by
    rw [List.map_reverse]
    congr 1
    exact List.enum_map_fst futures
  have e2 : (futures.enum.reverse).foldl (fun d f => add d f.2) 0 =
      futures.foldr (fun f dev => add dev f) 0 := by
    rw [List.foldl_reverse]
    conv_rhs => rw [← List.enum_map_snd futures]
    rw [List.foldr_map]
  rw [e1, e2, List.nil_append]

theorem run_workers_values (first_it : Bool) (n : Nat) (hn : n < 2 ^ 63)
    (blocks : List (Nat × Nat)) (a : Nat) (data : data_holder_base) (ht : tiles a n blocks)
    (hok : data_ok data) (hlen : data.X.cols.length = n) :
    (run_workers first_it data blocks).2 =
      blocks.map (fun r => (worker first_it data r.1 r.2).2) := by
  obtain ⟨-, r2, -⟩ := run_workers_spec first_it n hn blocks a data ht hok hlen
  rw [r2]
  apply List.map_congr_left
  intro r hr
  obtain ⟨-, h1, h2⟩ := tiles_mem _ _ _ ht r hr
  rw [worker_eq first_it data r.1 r.2 h1 (by omega)]

/-! ## The starting vector -/

theorem same_outcome_cases {α : Type} (g : event → event) (R : α → α → Prop)
    (x y : run α) (h : same_outcome g R x y) :
    (∃ e1 e2, x = .error e1 ∧ y = .error e2 ∧ e1.1 = e2.1 ∧
        e1.2.map g = e2.2.map g) ∨
      ∃ a b, x = .ok a ∧ y = .ok b ∧ R a b := by
  cases x with
  | error e1 =>
    cases y with
    | error e2 => exact Or.inl ⟨e1, e2, rfl, rfl, h.1, h.2⟩
    | ok b => exact h.elim
  | ok a =>
    cases y with
    | error e2 => exact h.elim
    | ok b => exact Or.inr ⟨a, b, rfl, rfl, h⟩

theorem set_eta_n_mu_loop_events (first_it : Bool) (n : Nat) :
    ∀ (fuel i : Nat) (data : data_holder_base) (futures : List ℚ) (ev : List event),
      set_eta_n_mu_loop first_it n fuel i data futures ev =
        (set_eta_n_mu_loop first_it n fuel i data futures []).map
          (fun r => (r.1, r.2.1, ev ++ r.2.2)) := by
  intro fuel
  induction fuel with
  | zero =>
    intro i data futures ev
    unfold set_eta_n_mu_loop
    split <;> simp
  | succ f ih =>
    intro i data futures ev
    unfold set_eta_n_mu_loop
    split
    · dsimp only
      rw [ih _ _ _ (ev ++ _), ih _ _ _ ([] ++ _), Option.map_map]
      congr 1
      funext r
      simp
    · simp

theorem worker_beta (data : data_holder_base) (b : vec) (a e : Nat) :
    worker true { data with beta := b } a e =
      ({ (worker true data a e).1 with beta := b }, (worker true data a e).2) := rfl

theorem set_eta_n_mu_loop_beta (n : Nat) (b : vec) :
    ∀ (fuel i : Nat) (data : data_holder_base) (futures : List ℚ) (ev : List event),
      set_eta_n_mu_loop true n fuel i { data with beta := b } futures ev =
        (set_eta_n_mu_loop true n fuel i data futures ev).map
          (fun r => ({ r.1 with beta := b }, r.2)) := by
  intro fuel
  induction fuel with
  | zero =>
    intro i data futures ev
    unfold set_eta_n_mu_loop
    split <;> simp
  | succ f ih =>
    intro i data futures ev
    unfold set_eta_n_mu_loop
    split
    · dsimp only
      rw [worker_beta]
      dsimp only
      exact ih _ _ _ _
    · simp

theorem set_eta_n_mu_loop_any_beta (first_it : Bool) (n : Nat) (b : vec) (fuel i : Nat)
    (data : data_holder_base) (futures : List ℚ) (ev : List event)
    (h : first_it = true ∨ data.beta = b) :
    set_eta_n_mu_loop first_it n fuel i { data with beta := b } futures ev =
      (set_eta_n_mu_loop first_it n fuel i data futures ev).map
        (fun r => ({ r.1 with beta := b }, r.2)) := by
  rcases h with h | h
  · subst h
    exact set_eta_n_mu_loop_beta n b fuel i data futures ev
  · subst h
    show set_eta_n_mu_loop first_it n fuel i data futures ev = _
    cases hl : set_eta_n_mu_loop first_it n fuel i data futures ev with
    | none => rfl
    | some r =>
      obtain ⟨hb, -⟩ := set_eta_n_mu_loop_frame first_it n fuel i data futures ev r hl
      simp only [Option.map_some', ← hb]

theorem get_R_f_loop_events (n bs : Nat) :
    ∀ (fuel i : Nat) (gens : List (Nat × Nat)) (ev : List event),
      get_R_f_loop n bs fuel i gens ev =
        (get_R_f_loop n bs fuel i gens []).map (fun r => (r.1, ev ++ r.2)) := by
  intro fuel
  induction fuel with
  | zero =>
    intro i gens ev
    unfold get_R_f_loop
    split <;> simp
  | succ f ih =>
    intro i gens ev
    unfold get_R_f_loop
    split
    · dsimp only
      rw [ih _ _ (ev ++ _), ih _ _ ([] ++ _), Option.map_map]
      congr 1
      funext r
      simp
    · simp

theorem chunks_of_beta (K : kernels) (data : data_holder_base) (b : vec)
    (gens : List (Nat × Nat)) :
    chunks_of K { data with beta := b } gens = chunks_of K data gens := rfl

theorem set_eta_n_mu_same_outcome (g : event → event) (first_it : Bool) (s1 s2 : fit_state)
    (h : same_up_to_beta g s1 s2) (hb : first_it = true ∨ s1.data.beta = s2.data.beta) :
    same_outcome g
      (fun a b => same_up_to_beta g a.1 b.1 ∧ a.1.data.beta = s1.data.beta ∧
        b.1.data.beta = s2.data.beta ∧ a.2 = b.2)
      (set_eta_n_mu first_it s1) (set_eta_n_mu first_it s2) := by
  obtain ⟨hd, hdev, hrf, hev⟩ := h
  unfold set_eta_n_mu
  dsimp only
  rw [set_eta_n_mu_loop_events first_it _ _ _ s1.data, set_eta_n_mu_loop_events first_it _ _ _ s2.data,
    hd]
  have hX : ({ s1.data with beta := s2.data.beta } : data_holder_base).X.n_cols =
      s1.data.X.n_cols := rfl
  rw [hX, set_eta_n_mu_loop_any_beta first_it _ _ _ _ _ _ _ hb]
  cases hl : set_eta_n_mu_loop first_it s1.data.X.n_cols (s1.data.X.n_cols + 1) 0 s1.data [] []
    with
  | none =>
    exact ⟨rfl, hev⟩
  | some r =>
    obtain ⟨hfb, -⟩ := set_eta_n_mu_loop_frame first_it _ _ _ _ _ _ r hl
    refine ⟨⟨rfl, hdev, hrf, ?_⟩, hfb, rfl, rfl⟩
    show (s1.events ++ r.2.2).map g = (s2.events ++ r.2.2).map g
    rw [List.map_append, List.map_append, hev]

theorem get_R_f_same_outcome (g : event → event) (K : kernels) (s1 s2 : fit_state)
    (h : same_up_to_beta g s1 s2) :
    same_outcome g
      (fun a b => same_up_to_beta g a.1 b.1 ∧ a.1.data = s1.data ∧ b.1.data = s2.data ∧
        a.2 = b.2)
      (get_R_f K s1) (get_R_f K s2) := by
  obtain ⟨hd, hdev, hrf, hev⟩ := h
  unfold get_R_f
  dsimp only
  rw [get_R_f_loop_events _ _ _ _ _ s1.events, get_R_f_loop_events _ _ _ _ _ s2.events]
  have hX : s2.data.X.n_cols = s1.data.X.n_cols := by rw [hd]
  have hB : s2.data.block_size = s1.data.block_size := by rw [hd]
  rw [hX, hB]
  cases hl : get_R_f_loop s1.data.X.n_cols s1.data.block_size (s1.data.X.n_cols + 1) 0 [] [] with
  | none =>
    exact ⟨rfl, hev⟩
  | some r =>
    have hc : chunks_of K s2.data r.1 = chunks_of K s1.data r.1 := by
      rw [hd]; rfl
    simp only [Option.map_some', hc]
    have hev2 : (s1.events ++ r.2 ++ [event.qr_factorization]).map g =
        (s2.events ++ r.2 ++ [event.qr_factorization]).map g := by
      simp only [List.map_append, hev]
    cases hq : K.qr_compute (chunks_of K s1.data r.1) with
    | none => exact ⟨rfl, hev2⟩
    | some rf => exact ⟨⟨hd, hdev, hrf, hev2⟩, rfl, rfl, rfl⟩

theorem solve_step_same_outcome (g : event → event) (K : kernels) (A : mat) (b : vec)
    (ev1 ev2 : List event)
    (h : ev1.map g = ev2.map g) :
    same_outcome g (fun x y => x.1 = y.1 ∧ x.2.map g = y.2.map g)
      (solve_step K A b ev1) (solve_step K A b ev2) := by
  have h2 : (ev1 ++ [event.solve]).map g = (ev2 ++ [event.solve]).map g := by
    simp only [List.map_append, h]
  unfold solve_step
  cases K.solve A b with
  | none => exact ⟨rfl, h2⟩
  | some x => exact ⟨rfl, h2⟩

theorem update_beta_same_outcome (g : event → event) (K : kernels) (s1 s2 : fit_state)
    (h : same_up_to_beta g s1 s2) :
    same_outcome g
      (fun a b => same_up_to_beta g a b ∧ a.data.beta = b.data.beta)
      (update_beta K s1) (update_beta K s2) := by
  unfold update_beta
  rcases same_outcome_cases g _ _ _ (get_R_f_same_outcome g K s1 s2 h) with
    ⟨e1, e2, hx, hy, hf, he⟩ | ⟨a, b, hx, hy, hR, ha, hb, hrf⟩
  · rw [hx, hy]
    exact ⟨hf, he⟩
  · rw [hx, hy]
    dsimp only
    rw [← hrf]
    obtain ⟨hd, hdev, hr, hev⟩ := hR
    rcases same_outcome_cases g _ _ _
        (solve_step_same_outcome g K (K.R_rev_piv a.2).t
          ((K.R_rev_piv a.2).t.mulVec (a.2.F.col 0)) a.1.events b.1.events hev) with
      ⟨e1, e2, hx1, hy1, hf1, he1⟩ | ⟨u1, u2, hx1, hy1, hu, hue⟩
    · rw [hx1, hy1]
      exact ⟨hf1, he1⟩
    · rw [hx1, hy1]
      dsimp only
      rw [← hu]
      rcases same_outcome_cases g _ _ _
          (solve_step_same_outcome g K (K.R_rev_piv a.2) u1.1 u1.2 u2.2 hue) with
        ⟨e1, e2, hx2, hy2, hf2, he2⟩ | ⟨v1, v2, hx2, hy2, hv, hve⟩
      · rw [hx2, hy2]
        exact ⟨hf2, he2⟩
      · rw [hx2, hy2]
        refine ⟨⟨?_, hdev, rfl, hve⟩, hv⟩
        show ({ b.1.data with beta := v2.1 } : data_holder_base) =
          { ({ a.1.data with beta := v1.1 } : data_holder_base) with beta := v2.1 }
        rw [hd]

theorem first_deviance_same_outcome (g : event → event) (i : Nat) (s1 s2 : fit_state)
    (h : same_up_to_beta g s1 s2) :
    same_outcome g
      (fun a b => same_up_to_beta g a b ∧ a.data.beta = s1.data.beta ∧
        b.data.beta = s2.data.beta)
      (first_deviance i s1) (first_deviance i s2) := by
  unfold first_deviance
  by_cases hi : i = 0
  · simp only [hi, ↓reduceIte]
    rcases same_outcome_cases g _ _ _ (set_eta_n_mu_same_outcome g true s1 s2 h (Or.inl rfl)) with
      ⟨e1, e2, hx, hy, hf, he⟩ | ⟨a, b, hx, hy, ⟨hd, -, hr, hev⟩, ha, hb2, hab⟩
    · rw [hx, hy]
      exact ⟨hf, he⟩
    · rw [hx, hy]
      exact ⟨⟨hd, hab, hr, hev⟩, ha, hb2⟩
  · simp only [hi, ↓reduceIte]
    exact ⟨h, rfl, rfl⟩

theorem trace_step_same_outcome (g : event → event) (K : kernels) (trace : Bool) (i : Nat)
    (b1 b2 : vec) (s1 s2 : fit_state)
    (hg : trace = true → ∀ (c1 c2 beta : vec) (n1 n2 dev : ℚ),
      g (event.trace_out 0 c1 beta n1 dev) = g (event.trace_out 0 c2 beta n2 dev))
    (h : same_up_to_beta g s1 s2) (hs : s1.data.beta = s2.data.beta) (hb : i = 0 ∨ b1 = b2) :
    same_up_to_beta g (trace_step K trace i b1 s1) (trace_step K trace i b2 s2) ∧
      (trace_step K trace i b1 s1).data.beta = (trace_step K trace i b2 s2).data.beta := by
  obtain ⟨hd, hdev, hrf, hev⟩ := h
  unfold trace_step
  cases trace with
  | false => exact ⟨⟨hd, hdev, hrf, hev⟩, hs⟩
  | true =>
    refine ⟨⟨hd, hdev, hrf, ?_⟩, hs⟩
    simp only [↓reduceIte, List.map_append, hev, List.map_cons, List.map_nil, hs, hdev]
    congr 2
    rcases hb with hb | hb
    · subst hb
      exact hg rfl _ _ _ _ _ _
    · rw [hb]

theorem iteration_same_outcome (g : event → event) (K : kernels) (trace : Bool) (i : Nat)
    (s1 s2 : fit_state)
    (hg : trace = true → ∀ (c1 c2 beta : vec) (n1 n2 dev : ℚ),
      g (event.trace_out 0 c1 beta n1 dev) = g (event.trace_out 0 c2 beta n2 dev))
    (h : same_up_to_beta g s1 s2) (hb : i = 0 ∨ s1.data.beta = s2.data.beta) :
    same_outcome g
      (fun a b => same_up_to_beta g a.1 b.1 ∧ a.1.data.beta = b.1.data.beta ∧ a.2 = b.2)
      (iteration K trace i s1) (iteration K trace i s2) := by
  unfold iteration
  rcases same_outcome_cases g _ _ _ (first_deviance_same_outcome g i s1 s2 h) with
    ⟨e1, e2, hx, hy, hf, he⟩ | ⟨t1, t2, hx, hy, ht, -, -⟩
  · rw [hx, hy]
    exact ⟨hf, he⟩
  · rw [hx, hy]
    dsimp only
    rcases same_outcome_cases g _ _ _ (update_beta_same_outcome g K t1 t2 ht) with
      ⟨e1, e2, hx1, hy1, hf1, he1⟩ | ⟨u1, u2, hx1, hy1, hu, hub⟩
    · rw [hx1, hy1]
      exact ⟨hf1, he1⟩
    · rw [hx1, hy1]
      dsimp only
      obtain ⟨hw, hwb⟩ := trace_step_same_outcome g K trace i s1.data.beta s2.data.beta u1 u2 hg
        hu hub hb
      rcases same_outcome_cases g _ _ _
          (set_eta_n_mu_same_outcome g false _ _ hw (Or.inr hwb)) with
        ⟨e1, e2, hx2, hy2, hf2, he2⟩ | ⟨v1, v2, hx2, hy2, ⟨hd, -, hr, hev⟩, hv1, hv2, hv⟩
      · rw [hx2, hy2]
        exact ⟨hf2, he2⟩
      · rw [hx2, hy2]
        exact ⟨⟨hd, hv, hr, hev⟩, by rw [hv1, hv2]; exact hwb, hu.2.1⟩

theorem irls_loop_same_outcome (g : event → event) (K : kernels) (tol : ℚ) (trace : Bool)
    (hg : trace = true → ∀ (c1 c2 beta : vec) (n1 n2 dev : ℚ),
      g (event.trace_out 0 c1 beta n1 dev) = g (event.trace_out 0 c2 beta n2 dev))
    (remaining : Nat) :
    ∀ (i : Nat) (s1 s2 : fit_state), same_up_to_beta g s1 s2 →
      (s1.data.beta = s2.data.beta ∨ (i = 0 ∧ s1.R_f_out = none)) →
      same_outcome g
        (fun a b => same_up_to_beta g a.1 b.1 ∧ a.2 = b.2 ∧
          (a.1.data.beta = b.1.data.beta ∨ a.1.R_f_out = none))
        (irls_loop K tol trace remaining i s1) (irls_loop K tol trace remaining i s2) := by
  induction remaining with
  | zero =>
    intro i s1 s2 h hb
    refine ⟨h, rfl, ?_⟩
    rcases hb with hb | hb
    · exact Or.inl hb
    · exact Or.inr hb.2
  | succ m ih =>
    intro i s1 s2 h hb
    have hb1 : i = 0 ∨ s1.data.beta = s2.data.beta := by
      rcases hb with hb | hb
      · exact Or.inr hb
      · exact Or.inl hb.1
    unfold irls_loop
    rcases same_outcome_cases g _ _ _ (iteration_same_outcome g K trace i s1 s2 hg h hb1) with
      ⟨e1, e2, hx, hy, hf, he⟩ | ⟨a, b, hx, hy, hab, hbeta, hold⟩
    · rw [hx, hy]
      exact ⟨hf, he⟩
    · rw [hx, hy]
      dsimp only
      rw [← hold, ← hab.2.1]
      by_cases hc : converged tol a.1.dev a.2 = true
      · simp only [hc, ↓reduceIte]
        exact ⟨hab, rfl, Or.inl hbeta⟩
      · simp only [hc, Bool.false_eq_true, ↓reduceIte]
        exact ih (i + 1) a.1 b.1 hab (Or.inl hbeta)

theorem compute_invalid_eq (K : kernels) (X : mat) (beta0 beta1 Ys weights offsets : vec)
    (family : glm_base) (tol : ℚ) (nthreads it_max : Nat) (trace : Bool) (block_size : Nat)
    (hlen : beta0.length = beta1.length) (hv : ¬ valid_input X beta0 Ys weights offsets) :
    compute K X beta0 Ys weights offsets family tol nthreads it_max trace block_size =
      compute K X beta1 Ys weights offsets family tol nthreads it_max trace block_size := by
  unfold valid_input at hv
  unfold compute
  dsimp only
  rw [← hlen]
  by_cases h1 : X.n_rows ≠ beta0.length
  · rw [if_pos h1, if_pos h1]
  · rw [if_neg h1, if_neg h1]
    by_cases h2 : X.n_cols ≠ weights.length
    · rw [if_pos h2, if_pos h2]
    · rw [if_neg h2, if_neg h2]
      by_cases h3 : X.n_cols ≠ offsets.length
      · rw [if_pos h3, if_pos h3]
      · rw [if_neg h3, if_neg h3]
        by_cases h4 : X.n_cols ≠ Ys.length
        · rw [if_pos h4, if_pos h4]
        · exfalso
          apply hv
          simp only [ne_eq, not_not] at h1 h2 h3 h4
          exact ⟨h1.symm, h2.symm, h3.symm, h4.symm⟩

theorem map_events_id (x : run (parallelglm_res × List event)) : map_events id x = x := by
  cases x with
  | error e => simp [map_events]
  | ok r => simp [map_events]

theorem compute_same_outcome (g : event → event) (K : kernels) (X : mat)
    (beta0 beta1 Ys weights offsets : vec) (family : glm_base) (tol : ℚ) (nthreads it_max : Nat)
    (trace : Bool) (block_size : Nat)
    (hg : trace = true → ∀ (c1 c2 beta : vec) (n1 n2 dev : ℚ),
      g (event.trace_out 0 c1 beta n1 dev) = g (event.trace_out 0 c2 beta n2 dev))
    (hlen : beta0.length = beta1.length) :
    map_events g
        (compute K X beta0 Ys weights offsets family tol nthreads it_max trace block_size) =
      map_events g
        (compute K X beta1 Ys weights offsets family tol nthreads it_max trace block_size) := by
  by_cases hv : valid_input X beta0 Ys weights offsets
  · have hv1 : valid_input X beta1 Ys weights offsets := by
      obtain ⟨h1, h2, h3, h4⟩ := hv
      exact ⟨by rw [← hlen]; exact h1, h2, h3, h4⟩
    rw [compute_valid K X beta0 Ys weights offsets family tol nthreads it_max trace block_size
        hv,
      compute_valid K X beta1 Ys weights offsets family tol nthreads it_max trace block_size
        hv1]
    have hs : same_up_to_beta g
        (initial_state X beta0 Ys weights offsets family nthreads block_size)
        (initial_state X beta1 Ys weights offsets family nthreads block_size) :=
      ⟨rfl, rfl, rfl, rfl⟩
    rcases same_outcome_cases g _ _ _
        (irls_loop_same_outcome g K tol trace hg it_max 0 _ _ hs (Or.inr ⟨rfl, rfl⟩)) with
      ⟨e1, e2, hx, hy, hf, he⟩ | ⟨a, b, hx, hy, ⟨hd, hdev, hrf, hev⟩, hi, hbeta⟩
    · rw [hx, hy]
      show Except.error (e1.1, e1.2.map g) = Except.error (e2.1, e2.2.map g)
      rw [hf, he]
    · rw [hx, hy]
      dsimp only
      unfold finish
      rw [← hrf, ← hi, ← hdev]
      cases hr : a.1.R_f_out with
      | none =>
        show Except.error (failure.null_dereference, a.1.events.map g) =
          Except.error (failure.null_dereference, b.1.events.map g)
        rw [hev]
      | some rf =>
        have hbe : a.1.data.beta = b.1.data.beta := by
          rcases hbeta with hbeta | hbeta
          · exact hbeta
          · rw [hr] at hbeta; cases hbeta
        show Except.ok (_, a.1.events.map g) = Except.ok (_, b.1.events.map g)
        rw [hev, hbe]
  · rw [compute_invalid_eq K X beta0 beta1 Ys weights offsets family tol nthreads it_max trace
      block_size hlen hv]

/-! ## The claims -/

/-- C1: a call of `compute` fails with a fatal input error if and only if
`beta0.n_elem != X.n_rows`, or `weights.n_elem != X.n_cols`, or
`offsets.n_elem != X.n_cols`, or `Ys.n_elem != X.n_cols`; when the four
lengths match no input error is raised. -/
theorem compute_input_error_iff (K : kernels) (X : mat) (beta0 Ys weights offsets : vec)
    (family : glm_base) (tol : ℚ) (nthreads it_max : Nat) (trace : Bool) (block_size : Nat) :
    (∃ msg ev, compute K X beta0 Ys weights offsets family tol nthreads it_max trace block_size =
        .error (failure.invalid_input msg, ev)) ↔
      (beta0.length ≠ X.n_rows ∨ weights.length ≠ X.n_cols ∨ offsets.length ≠ X.n_cols ∨
        Ys.length ≠ X.n_cols) := by
  constructor
  · rintro ⟨msg, ev, h⟩
    by_contra hne
    have hv : valid_input X beta0 Ys weights offsets := by
      unfold valid_input
      simp only [not_or, not_not] at hne
      exact hne
    rw [compute_valid K X beta0 Ys weights offsets family tol nthreads it_max trace block_size hv]
      at h
    split at h
    · rename_i e he
      cases h
      exact irls_loop_error _ _ _ _ _ _ _ he
    · rename_i r hr
      unfold finish at h
      split at h <;> cases h
  · intro h
    have hv : ¬ valid_input X beta0 Ys weights offsets := by
      unfold valid_input
      intro hv
      rcases h with h | h | h | h
      · exact h hv.1
      · exact h hv.2.1
      · exact h hv.2.2.1
      · exact h hv.2.2.2
    obtain ⟨msg, hmsg⟩ :=
      compute_invalid K X beta0 Ys weights offsets family tol nthreads it_max trace block_size hv
    exact ⟨msg, [], hmsg⟩

/-- C3 (the code departs from the claim at `it_max = 0`): with a
dimensionally valid input and an iteration cap of zero the loop body never
runs, `R_f_out` is still empty when `compute` dereferences it for the result,
and the call ends in that null dereference instead of returning
`conv = false`. -/
theorem compute_zero_cap_null_dereference (K : kernels) (X : mat)
    (beta0 Ys weights offsets : vec) (family : glm_base) (tol : ℚ) (nthreads : Nat)
    (trace : Bool) (block_size : Nat) (hv : valid_input X beta0 Ys weights offsets) :
    compute K X beta0 Ys weights offsets family tol nthreads 0 trace block_size =
      .error (failure.null_dereference, []) := by
  rw [compute_valid K X beta0 Ys weights offsets family tol nthreads 0 trace block_size hv]
  rfl

theorem compute_zero_cap_null_dereference_witness :
    compute kernels_p1 X_two [0] [0, 5] [1, 1] [0, 0] gaussian (1 / 10 ^ 8) 4 0 false 30 =
      .error (failure.null_dereference, []) :=
  compute_zero_cap_null_dereference kernels_p1 X_two [0] [0, 5] [1, 1] [0, 0] gaussian
    (1 / 10 ^ 8) 4 false 30 (by decide)

/-- C8: when the input of `compute` fails validation, the call ends with the
input error and an empty event list: no worker task and no QR data generator
was submitted, and neither the factorization nor a solve was invoked. -/
theorem invalid_input_dispatches_nothing (K : kernels) (X : mat)
    (beta0 Ys weights offsets : vec) (family : glm_base) (tol : ℚ) (nthreads it_max : Nat)
    (trace : Bool) (block_size : Nat)
    (h : beta0.length ≠ X.n_rows ∨ weights.length ≠ X.n_cols ∨ offsets.length ≠ X.n_cols ∨
      Ys.length ≠ X.n_cols) :
    ∃ msg, compute K X beta0 Ys weights offsets family tol nthreads it_max trace block_size =
      .error (failure.invalid_input msg, []) := by
  apply compute_invalid
  unfold valid_input
  intro hv
  rcases h with h | h | h | h
  · exact h hv.1
  · exact h hv.2.1
  · exact h hv.2.2.1
  · exact h hv.2.2.2

theorem invalid_input_dispatches_nothing_witness :
    ∃ msg, compute kernels_p1 X_two [] [0, 5] [1, 1] [0, 0] gaussian (1 / 10 ^ 8) 4 25 false 30 =
      .error (failure.invalid_input msg, []) :=
  invalid_input_dispatches_nothing kernels_p1 X_two [] [0, 5] [1, 1] [0, 0] gaussian
    (1 / 10 ^ 8) 4 25 false 30 (Or.inl (by decide))

/-- C2: for a dimensionally valid input and an iteration cap `it_max` (a
`uword`; the case `1 ≤ it_max` of the claim included), with `dev_seq 0` the
deviance computed from the initialised `eta` and `dev_seq k` the deviance
recomputed after the `k`-th coefficient update, `compute` returns
`conv = true` if and only if some `k` in `1..it_max` has
`|dev_k - dev_(k-1)| / (0.1 + |dev_k|) < tol`; and then the driver stops at
the first such `k`: the result carries the coefficients, the deviance and the
event list of the state after exactly `k` passes, and `n_iter = k`. -/
theorem compute_conv_iff_first_convergence (K : kernels) (X : mat)
    (beta0 Ys weights offsets : vec) (family : glm_base) (tol : ℚ) (nthreads it_max : Nat)
    (trace : Bool) (block_size : Nat) (hv : valid_input X beta0 Ys weights offsets)
    (hmax : it_max < uword_size) :
    ((∃ res ev, compute K X beta0 Ys weights offsets family tol nthreads it_max trace block_size =
          .ok (res, ev) ∧ res.conv = true) ↔
      ∃ k, 1 ≤ k ∧ k ≤ it_max ∧ ∃ d0 d1,
        dev_seq K trace (initial_state X beta0 Ys weights offsets family nthreads block_size)
            (k - 1) = some d0 ∧
          dev_seq K trace (initial_state X beta0 Ys weights offsets family nthreads block_size)
            k = some d1 ∧
          |d1 - d0| / (1 / 10 + |d1|) < tol) ∧
    (∀ k, 1 ≤ k → k ≤ it_max →
      (∃ d0 d1,
        dev_seq K trace (initial_state X beta0 Ys weights offsets family nthreads block_size)
            (k - 1) = some d0 ∧
          dev_seq K trace (initial_state X beta0 Ys weights offsets family nthreads block_size)
            k = some d1 ∧
          |d1 - d0| / (1 / 10 + |d1|) < tol) →
      (∀ j, 1 ≤ j → j < k → ¬ ∃ d0 d1,
        dev_seq K trace (initial_state X beta0 Ys weights offsets family nthreads block_size)
            (j - 1) = some d0 ∧
          dev_seq K trace (initial_state X beta0 Ys weights offsets family nthreads block_size)
            j = some d1 ∧
          |d1 - d0| / (1 / 10 + |d1|) < tol) →
      ∃ s rf,
        passes K trace (initial_state X beta0 Ys weights offsets family nthreads block_size) k =
            .ok s ∧
          s.R_f_out = some rf ∧
          compute K X beta0 Ys weights offsets family tol nthreads it_max trace block_size =
            .ok ({ coefficients := s.data.beta, R_F := rf, dev := s.dev, n_iter := k,
                   conv := true }, s.events)) := by
  have key : ∀ k, 1 ≤ k →
      ((∃ d0 d1,
        dev_seq K trace (initial_state X beta0 Ys weights offsets family nthreads block_size)
            (k - 1) = some d0 ∧
          dev_seq K trace (initial_state X beta0 Ys weights offsets family nthreads block_size)
            k = some d1 ∧
          |d1 - d0| / (1 / 10 + |d1|) < tol) ↔
        conv_at K tol trace
          (initial_state X beta0 Ys weights offsets family nthreads block_size) (k - 1)) := by
    intro k hk
    rw [conv_at_iff]
    have hk1 : k - 1 + 1 = k := by omega
    rw [hk1]
    simp only [converged_iff]
  have second : ∀ k, 1 ≤ k → k ≤ it_max →
      conv_at K tol trace
        (initial_state X beta0 Ys weights offsets family nthreads block_size) (k - 1) →
      (∀ j, 1 ≤ j → j < k → ¬ conv_at K tol trace
        (initial_state X beta0 Ys weights offsets family nthreads block_size) (j - 1)) →
      ∃ s rf,
        passes K trace (initial_state X beta0 Ys weights offsets family nthreads block_size) k =
            .ok s ∧
          s.R_f_out = some rf ∧
          compute K X beta0 Ys weights offsets family tol nthreads it_max trace block_size =
            .ok ({ coefficients := s.data.beta, R_F := rf, dev := s.dev, n_iter := k,
                   conv := true }, s.events) := by
    intro k hk1 hk2 hc hmin
    obtain ⟨s1, hs1, hloop⟩ := irls_loop_complete K tol trace
      (initial_state X beta0 Ys weights offsets family nthreads block_size) it_max 0
      (initial_state X beta0 Ys weights offsets family nthreads block_size) (k - 1) rfl
      (Nat.zero_le _) (by omega) hc
      (fun j _ hj => by
        have := hmin (j + 1) (by omega) (by omega)
        simpa using this)
    have hk : k - 1 + 1 = k := by omega
    rw [hk] at hs1
    obtain ⟨rf, hrf⟩ := passes_succ_R_f_out K trace _ (k - 1) s1 (by rw [hk]; exact hs1)
    refine ⟨s1, rf, hs1, hrf, ?_⟩
    rw [compute_valid K X beta0 Ys weights offsets family tol nthreads it_max trace block_size hv,
      hloop]
    simp only [finish, hrf]
    have h1 : uadd (k - 1) 1 = k := by
      rw [uadd_one_of_lt _ (by omega)]; exact hk
    have h2 : decide (k - 1 < it_max) = true := by
      simp only [decide_eq_true_eq]; omega
    rw [h1, h2]
  refine ⟨⟨?_, ?_⟩, ?_⟩
  · rintro ⟨res, ev, hres, hconv⟩
    rw [compute_valid K X beta0 Ys weights offsets family tol nthreads it_max trace block_size hv]
      at hres
    split at hres
    · cases hres
    · rename_i r hr
      obtain ⟨-, hb⟩ := irls_loop_sound K tol trace _ it_max 0 _ r rfl hr
      unfold finish at hres
      split at hres
      · cases hres
      · cases hres
        simp only [decide_eq_true_eq] at hconv
        rcases hb with hb | hb
        · refine ⟨r.2 + 1, by omega, by omega, ?_⟩
          rw [key (r.2 + 1) (by omega)]
          exact hb.2.2.1
        · omega
  · rintro ⟨k, hk1, hk2, htest⟩
    have hex : ∃ k, 1 ≤ k ∧ k ≤ it_max ∧ conv_at K tol trace
        (initial_state X beta0 Ys weights offsets family nthreads block_size) (k - 1) :=
      ⟨k, hk1, hk2, (key k hk1).mp htest⟩
    classical
    have hfind := Nat.find_spec hex
    have hmin := fun j => @Nat.find_min _ _ hex j
    obtain ⟨s, rf, -, -, hcomp⟩ := second (Nat.find hex) hfind.1 hfind.2.1 hfind.2.2
      (fun j hj1 hj2 hc => hmin j hj2 ⟨hj1, by omega, hc⟩)
    exact ⟨_, _, hcomp, rfl⟩
  · intro k hk1 hk2 htest hmin
    exact second k hk1 hk2 ((key k hk1).mp htest)
      (fun j hj1 hj2 hc => hmin j hj1 hj2 ((key j hj1).mpr hc))

theorem compute_conv_iff_first_convergence_witness :
    (∃ res ev, compute kernels_p1 X_two [0] [0, 5] [1, 1] [0, 0] gaussian (1 / 10 ^ 8) 4 25
        false 30 = .ok (res, ev) ∧ res.conv = true) ↔
      ∃ k, 1 ≤ k ∧ k ≤ 25 ∧ ∃ d0 d1,
        dev_seq kernels_p1 false (initial_state X_two [0] [0, 5] [1, 1] [0, 0] gaussian 4 30)
            (k - 1) = some d0 ∧
          dev_seq kernels_p1 false (initial_state X_two [0] [0, 5] [1, 1] [0, 0] gaussian 4 30)
            k = some d1 ∧
          |d1 - d0| / (1 / 10 + |d1|) < 1 / 10 ^ 8 :=
  (compute_conv_iff_first_convergence kernels_p1 X_two [0] [0, 5] [1, 1] [0, 0] gaussian
    (1 / 10 ^ 8) 4 25 false 30 (by decide) (by decide)).1

/-- C9: for an observation count `n` (below `2 ^ 63`, as every count of
stored observations is) and a block size `block_size ≥ 1` (a `uword`), the
dispatch loops of `set_eta_n_mu` and of `get_R_f` go through the same
sequence `blocks` of index ranges, whatever the fuel from `n` on; the ranges
are non-empty and inside `0..n-1`, each holds at most `block_size` indices,
each range that has a successor holds exactly `block_size` indices and its
successor starts right after it, the ranges are pairwise disjoint and in
increasing order, and an index lies in one of them exactly when it is below
`n`. -/
theorem dispatch_ranges_partition (first_it : Bool) (data : data_holder_base) (n : Nat)
    (hn : n < 2 ^ 63) (h1 : 1 ≤ data.block_size) (hbs : data.block_size < uword_size) :
    ∃ blocks : List (Nat × Nat),
      (∀ fuel, n ≤ fuel →
        get_R_f_loop n data.block_size fuel 0 [] [] =
          some (blocks, blocks.map (fun r => event.generator r.1 r.2))) ∧
      (∀ fuel, n ≤ fuel → ∃ data1 futures,
        set_eta_n_mu_loop first_it n fuel 0 data [] [] =
          some (data1, futures, blocks.map (fun r => event.worker_task first_it r.1 r.2))) ∧
      (∀ r ∈ blocks, r.1 ≤ r.2 ∧ r.2 < n ∧ r.2 + 1 - r.1 ≤ data.block_size) ∧
      List.Chain' (fun r r1 => r1.1 = r.2 + 1 ∧ r.2 + 1 - r.1 = data.block_size) blocks ∧
      List.Pairwise (fun r r1 => r.2 < r1.1) blocks ∧
      (∀ i, i < n ↔ ∃ r ∈ blocks, r.1 ≤ i ∧ i ≤ r.2) := by
  have hfuel : ∀ fuel, n ≤ fuel →
      block_ranges n data.block_size fuel 0 = block_ranges n data.block_size n 0 :=
    fun fuel hf => block_ranges_fuel n data.block_size hn hbs fuel n 0 (by omega) (by omega)
      (fun _ => Or.inl rfl)
  have ht := block_ranges_tiles n data.block_size hn hbs n 0 (Nat.zero_le _) (by omega)
    (fun _ => Or.inl rfl)
  obtain ⟨hs1, hs2⟩ := block_ranges_sizes n data.block_size hn hbs h1 n 0 (fun _ => Or.inl rfl)
  refine ⟨block_ranges n data.block_size n 0, ?_, ?_, ?_, hs2, tiles_pairwise _ _ _ ht, ?_⟩
  · intro fuel hf
    rw [get_R_f_loop_eq n data.block_size hn hbs fuel 0 [] [] (Nat.zero_le _) (by omega)
      (fun _ => Or.inl rfl), hfuel fuel hf]
    simp
  · intro fuel hf
    rw [set_eta_n_mu_loop_eq first_it n data.block_size hn hbs fuel 0 data [] [] rfl
      (Nat.zero_le _) (by omega) (fun _ => Or.inl rfl), hfuel fuel hf]
    simp only [List.nil_append]
    exact ⟨_, _, rfl⟩
  · intro r hr
    obtain ⟨-, h2, h3⟩ := tiles_mem _ _ _ ht r hr
    exact ⟨h2, h3, hs1 r hr⟩
  · intro i
    constructor
    · intro hi
      exact tiles_cover _ _ _ ht i (Nat.zero_le _) hi
    · rintro ⟨r, hr, -, hr2⟩
      obtain ⟨-, -, h3⟩ := tiles_mem _ _ _ ht r hr
      omega

theorem dispatch_ranges_partition_witness :
    ∃ blocks : List (Nat × Nat),
      (∀ fuel, 10 ≤ fuel →
        get_R_f_loop 10 3 fuel 0 [] [] =
          some (blocks, blocks.map (fun r => event.generator r.1 r.2))) ∧
      (∀ fuel, 10 ≤ fuel → ∃ data1 futures,
        set_eta_n_mu_loop true 10 fuel 0
            (data_holder_base.mk0 X_two [0, 5] [1, 1] [0, 0] 4 1 2 gaussian 3) [] [] =
          some (data1, futures, blocks.map (fun r => event.worker_task true r.1 r.2))) ∧
      (∀ r ∈ blocks, r.1 ≤ r.2 ∧ r.2 < 10 ∧ r.2 + 1 - r.1 ≤ 3) ∧
      List.Chain' (fun r r1 => r1.1 = r.2 + 1 ∧ r.2 + 1 - r.1 = 3) blocks ∧
      List.Pairwise (fun r r1 => r.2 < r1.1) blocks ∧
      (∀ i, i < 10 ↔ ∃ r ∈ blocks, r.1 ≤ i ∧ i ≤ r.2) :=
  dispatch_ranges_partition true (data_holder_base.mk0 X_two [0, 5] [1, 1] [0, 0] 4 1 2 gaussian 3)
    10 (by decide) (by decide) (by decide)

/-- C7, as the code has it: for a row range `[i_start, i_end]` inside the
vectors of the state, in every arithmetic of `double`, `get_chunk` builds its
output from the list `kept` of observations, one output row per entry and in
that order, where observation `i` is in `kept` if and only if it lies in the
range, `weight[i] > 0` is true and the comparisons
`-1e-100 < family.mu_eta(eta[i])` and `family.mu_eta(eta[i]) < 1e-100` are
not both true; when the comparisons are those of IEEE 754 this is: it lies
in the range, `weight[i] > 0`, and `family.mu_eta(eta[i])` is NaN or
`|family.mu_eta(eta[i])| >= 1e-100`; `kept` is strictly increasing; and the
output is the same for every state that agrees with this one on the range, so
no row outside the range contributes. -/
theorem get_chunk_keeps_rows_outside_band {S : Type} (A : fp.arith S)
    (data : fp.data_holder_base S) (i_start i_end : Nat)
    (h1 : i_start ≤ i_end) (h2 : i_end < 2 ^ 63) (h3 : i_end < data.weights.length)
    (h4 : i_end < data.eta.length) :
    ∃ kept : List Nat,
      fp.get_chunk A data i_start i_end = fp.chunk_of A data kept ∧
      fp.good_rows A data i_start i_end = kept.map (fun i => i - i_start) ∧
      (∀ i, i ∈ kept ↔ i_start ≤ i ∧ i ≤ i_end ∧
        A.lt A.zero (data.weights.getD i A.zero) = true ∧
        ¬ (A.lt (A.neg A.zero_eps) (data.family.mu_eta (data.eta.getD i A.zero)) = true ∧
          A.lt (data.family.mu_eta (data.eta.getD i A.zero)) A.zero_eps = true)) ∧
      (∀ v : S → fp.value, fp.ieee_comparisons A v →
        ∀ i, i ∈ kept ↔ i_start ≤ i ∧ i ≤ i_end ∧
          fp.value.lt (fp.value.fin 0) (v (data.weights.getD i A.zero)) = true ∧
          (v (data.family.mu_eta (data.eta.getD i A.zero)) = fp.value.nan ∨
            fp.value.le (fp.value.fin (1 / 10 ^ 100))
              (fp.value.abs (v (data.family.mu_eta (data.eta.getD i A.zero)))) = true)) ∧
      List.Pairwise (fun i j => i < j) kept ∧
      ∀ data1 : fp.data_holder_base S, data1.family = data.family → data1.p = data.p →
        i_end < data1.weights.length → i_end < data1.eta.length →
        (∀ i, i_start ≤ i → i ≤ i_end →
          data1.weights.getD i A.zero = data.weights.getD i A.zero ∧
          data1.eta.getD i A.zero = data.eta.getD i A.zero ∧
          data1.mu.getD i A.zero = data.mu.getD i A.zero ∧
          data1.Ys.getD i A.zero = data.Ys.getD i A.zero ∧
          data1.offsets.getD i A.zero = data.offsets.getD i A.zero ∧
          data1.X.col i = data.X.col i) →
        fp.get_chunk A data1 i_start i_end = fp.get_chunk A data i_start i_end := by
  have hr : fp.range_ok data i_start i_end := ⟨h1, h2, h3, h4⟩
  refine ⟨(fp.good_rows A data i_start i_end).map (fun k => i_start + k),
    fp.get_chunk_eq_fp A data _ _ hr, ?_, ?_, ?_, fp.kept_sorted_fp A data _ _ hr, ?_⟩
  · rw [List.map_map]
    have : (fun i => i - i_start) ∘ (fun k => i_start + k) = id := by
      funext k; simp
    rw [this, List.map_id]
  · intro i
    rw [fp.kept_mem_iff_fp A data _ _ hr i]
    rfl
  · intro v hv i
    rw [fp.kept_mem_iff_fp A data _ _ hr i, fp.is_good_value A v hv]
  · intro data1 hf hp h5 h6 hag
    have hr1 : fp.range_ok data1 i_start i_end := ⟨h1, h2, h5, h6⟩
    rw [fp.get_chunk_eq_fp A data1 _ _ hr1, fp.get_chunk_eq_fp A data _ _ hr,
      fp.good_rows_congr_fp A data1 data _ _ hr1 hr hf (fun i hi1 hi2 =>
        ⟨(hag i hi1 hi2).1, (hag i hi1 hi2).2.1⟩)]
    apply fp.chunk_of_congr_fp A data1 data _ hf hp
    intro i hi
    obtain ⟨hi1, hi2, -⟩ := (fp.kept_mem_iff_fp A data _ _ hr i).mp hi
    exact hag i hi1 hi2

theorem get_chunk_keeps_rows_outside_band_witness :
    fp.ieee_comparisons (fp.ieee small_sqrt) (fun x => x) ∧
    ∃ kept : List Nat,
      fp.get_chunk (fp.ieee small_sqrt) fp.data_nan 0 1 =
        fp.chunk_of (fp.ieee small_sqrt) fp.data_nan kept ∧
      fp.good_rows (fp.ieee small_sqrt) fp.data_nan 0 1 = kept.map (fun i => i - 0) ∧
      (∀ i, i ∈ kept ↔ 0 ≤ i ∧ i ≤ 1 ∧
        (fp.ieee small_sqrt).lt (fp.ieee small_sqrt).zero
          (fp.data_nan.weights.getD i (fp.ieee small_sqrt).zero) = true ∧
        ¬ ((fp.ieee small_sqrt).lt ((fp.ieee small_sqrt).neg (fp.ieee small_sqrt).zero_eps)
            (fp.data_nan.family.mu_eta (fp.data_nan.eta.getD i (fp.ieee small_sqrt).zero)) =
              true ∧
          (fp.ieee small_sqrt).lt
            (fp.data_nan.family.mu_eta (fp.data_nan.eta.getD i (fp.ieee small_sqrt).zero))
            (fp.ieee small_sqrt).zero_eps = true)) ∧
      (∀ v : fp.value → fp.value, fp.ieee_comparisons (fp.ieee small_sqrt) v →
        ∀ i, i ∈ kept ↔ 0 ≤ i ∧ i ≤ 1 ∧
          fp.value.lt (fp.value.fin 0)
            (v (fp.data_nan.weights.getD i (fp.ieee small_sqrt).zero)) = true ∧
          (v (fp.data_nan.family.mu_eta (fp.data_nan.eta.getD i (fp.ieee small_sqrt).zero)) =
              fp.value.nan ∨
            fp.value.le (fp.value.fin (1 / 10 ^ 100))
              (fp.value.abs (v (fp.data_nan.family.mu_eta
                (fp.data_nan.eta.getD i (fp.ieee small_sqrt).zero)))) = true)) ∧
      List.Pairwise (fun i j => i < j) kept ∧
      ∀ data1 : fp.data_holder_base fp.value, data1.family = fp.data_nan.family →
        data1.p = fp.data_nan.p → 1 < data1.weights.length → 1 < data1.eta.length →
        (∀ i, 0 ≤ i → i ≤ 1 →
          data1.weights.getD i (fp.ieee small_sqrt).zero =
            fp.data_nan.weights.getD i (fp.ieee small_sqrt).zero ∧
          data1.eta.getD i (fp.ieee small_sqrt).zero =
            fp.data_nan.eta.getD i (fp.ieee small_sqrt).zero ∧
          data1.mu.getD i (fp.ieee small_sqrt).zero =
            fp.data_nan.mu.getD i (fp.ieee small_sqrt).zero ∧
          data1.Ys.getD i (fp.ieee small_sqrt).zero =
            fp.data_nan.Ys.getD i (fp.ieee small_sqrt).zero ∧
          data1.offsets.getD i (fp.ieee small_sqrt).zero =
            fp.data_nan.offsets.getD i (fp.ieee small_sqrt).zero ∧
          data1.X.col i = fp.data_nan.X.col i) →
        fp.get_chunk (fp.ieee small_sqrt) data1 0 1 =
          fp.get_chunk (fp.ieee small_sqrt) fp.data_nan 0 1 :=
  ⟨⟨fun _ _ => rfl, fun _ => rfl, rfl, rfl⟩,
    get_chunk_keeps_rows_outside_band (fp.ieee small_sqrt) fp.data_nan 0 1 (by decide)
      (by decide) (by decide) (by decide)⟩

/-- C7 fails as stated: in the state `data_nan` both observations have weight
one and the derivative `family.mu_eta(eta[0])` of the first one is NaN, so
`|family.mu_eta(eta[0])| >= 1e-100` is false; `get_chunk` on the range
`[0, 1]` keeps both observations, the first one as a row of NaN. -/
theorem get_chunk_keeps_nan_derivative :
    fp.data_nan.family.mu_eta (fp.data_nan.eta.getD 0 (fp.value.fin 0)) = fp.value.nan ∧
      fp.value.le (fp.value.fin (1 / 10 ^ 100))
        (fp.value.abs (fp.data_nan.family.mu_eta (fp.data_nan.eta.getD 0 (fp.value.fin 0)))) =
          false ∧
      fp.good_rows (fp.ieee small_sqrt) fp.data_nan 0 1 = [0, 1] ∧
      fp.get_chunk (fp.ieee small_sqrt) fp.data_nan 0 1 =
        { X := ⟨2, [[fp.value.nan, fp.value.fin 16]]⟩, Y := [fp.value.nan, fp.value.fin 2],
          dev := ⟨1, [[fp.value.fin 0]]⟩ } := by
  decide!

/-- C10: for a row range inside the vectors of a state whose design columns
have `p` entries, in every arithmetic of `double`, the block work unit of
`get_chunk` has one row per kept observation and `p` columns; the row of the
kept observation `i` is `X[:, i] * w_i` and its response entry is
`z_i * w_i`, with
`z_i = (eta[i] - offset[i]) + (y[i] - mu[i]) / mu_eta(eta[i])` and
`w_i = sqrt(weight[i] * (mu_eta(eta[i]) * mu_eta(eta[i])) / variance(mu[i]))`,
each operation being the one of the arithmetic. -/
theorem get_chunk_rows {S : Type} (A : fp.arith S) (data : fp.data_holder_base S)
    (i_start i_end : Nat)
    (h1 : i_start ≤ i_end) (h2 : i_end < 2 ^ 63) (h3 : i_end < data.weights.length)
    (h4 : i_end < data.eta.length)
    (hp : ∀ i, i_start ≤ i → i ≤ i_end → (data.X.col i).length = data.p) :
    ∃ kept : List Nat,
      (∀ i, i ∈ kept ↔ i_start ≤ i ∧ i ≤ i_end ∧
        A.lt A.zero (data.weights.getD i A.zero) = true ∧
        ¬ (A.lt (A.neg A.zero_eps) (data.family.mu_eta (data.eta.getD i A.zero)) = true ∧
          A.lt (data.family.mu_eta (data.eta.getD i A.zero)) A.zero_eps = true)) ∧
      List.Pairwise (fun i j => i < j) kept ∧
      (fp.get_chunk A data i_start i_end).X.n_rows = kept.length ∧
      (fp.get_chunk A data i_start i_end).X.n_cols = data.p ∧
      (fp.get_chunk A data i_start i_end).Y.length = kept.length ∧
      ∀ r i, kept[r]? = some i →
        (fp.get_chunk A data i_start i_end).X.row A.zero r =
          (data.X.col i).map (fun x => A.mul x
            (A.sqrt (A.div
              (A.mul (data.weights.getD i A.zero)
                (A.mul (data.family.mu_eta (data.eta.getD i A.zero))
                  (data.family.mu_eta (data.eta.getD i A.zero))))
              (data.family.variance (data.mu.getD i A.zero))))) ∧
        (fp.get_chunk A data i_start i_end).Y[r]? =
          some (A.mul
            (A.add (A.sub (data.eta.getD i A.zero) (data.offsets.getD i A.zero))
              (A.div (A.sub (data.Ys.getD i A.zero) (data.mu.getD i A.zero))
                (data.family.mu_eta (data.eta.getD i A.zero))))
            (A.sqrt (A.div
              (A.mul (data.weights.getD i A.zero)
                (A.mul (data.family.mu_eta (data.eta.getD i A.zero))
                  (data.family.mu_eta (data.eta.getD i A.zero))))
              (data.family.variance (data.mu.getD i A.zero))))) := by
  have hr : fp.range_ok data i_start i_end := ⟨h1, h2, h3, h4⟩
  refine ⟨(fp.good_rows A data i_start i_end).map (fun k => i_start + k), ?_,
    fp.kept_sorted_fp A data _ _ hr, ?_, ?_, ?_, ?_⟩
  · intro i
    rw [fp.kept_mem_iff_fp A data _ _ hr i]
    rfl
  · rw [fp.get_chunk_eq_fp A data _ _ hr]
    simp [fp.chunk_of, fp.mat.t]
  · rw [fp.get_chunk_eq_fp A data _ _ hr]
    simp [fp.chunk_of, fp.mat.t, fp.mat.n_cols, fp.mat.rows]
  · rw [fp.get_chunk_eq_fp A data _ _ hr]
    simp [fp.chunk_of]
  · intro r i hri
    have hmem : i ∈ (fp.good_rows A data i_start i_end).map (fun k => i_start + k) :=
      List.getElem?_mem hri
    obtain ⟨hi1, hi2, -⟩ := (fp.kept_mem_iff_fp A data _ _ hr i).mp hmem
    obtain ⟨hrow, hy⟩ := fp.chunk_of_row_fp A data _ r i hri (hp i hi1 hi2)
    rw [fp.get_chunk_eq_fp A data _ _ hr]
    exact ⟨hrow, hy⟩

theorem get_chunk_rows_witness :
    ∃ kept : List Nat,
      (∀ i, i ∈ kept ↔ 0 ≤ i ∧ i ≤ 2 ∧
        (fp.ieee small_sqrt).lt (fp.ieee small_sqrt).zero
          (fp.data_zero_variance.weights.getD i (fp.ieee small_sqrt).zero) = true ∧
        ¬ ((fp.ieee small_sqrt).lt ((fp.ieee small_sqrt).neg (fp.ieee small_sqrt).zero_eps)
            (fp.data_zero_variance.family.mu_eta
              (fp.data_zero_variance.eta.getD i (fp.ieee small_sqrt).zero)) = true ∧
          (fp.ieee small_sqrt).lt
            (fp.data_zero_variance.family.mu_eta
              (fp.data_zero_variance.eta.getD i (fp.ieee small_sqrt).zero))
            (fp.ieee small_sqrt).zero_eps = true)) ∧
      List.Pairwise (fun i j => i < j) kept ∧
      (fp.get_chunk (fp.ieee small_sqrt) fp.data_zero_variance 0 2).X.n_rows = kept.length ∧
      (fp.get_chunk (fp.ieee small_sqrt) fp.data_zero_variance 0 2).X.n_cols =
        fp.data_zero_variance.p ∧
      (fp.get_chunk (fp.ieee small_sqrt) fp.data_zero_variance 0 2).Y.length = kept.length ∧
      ∀ r i, kept[r]? = some i →
        (fp.get_chunk (fp.ieee small_sqrt) fp.data_zero_variance 0 2).X.row
            (fp.ieee small_sqrt).zero r =
          (fp.data_zero_variance.X.col i).map (fun x => (fp.ieee small_sqrt).mul x
            ((fp.ieee small_sqrt).sqrt ((fp.ieee small_sqrt).div
              ((fp.ieee small_sqrt).mul
                (fp.data_zero_variance.weights.getD i (fp.ieee small_sqrt).zero)
                ((fp.ieee small_sqrt).mul
                  (fp.data_zero_variance.family.mu_eta
                    (fp.data_zero_variance.eta.getD i (fp.ieee small_sqrt).zero))
                  (fp.data_zero_variance.family.mu_eta
                    (fp.data_zero_variance.eta.getD i (fp.ieee small_sqrt).zero))))
              (fp.data_zero_variance.family.variance
                (fp.data_zero_variance.mu.getD i (fp.ieee small_sqrt).zero))))) ∧
        (fp.get_chunk (fp.ieee small_sqrt) fp.data_zero_variance 0 2).Y[r]? =
          some ((fp.ieee small_sqrt).mul
            ((fp.ieee small_sqrt).add
              ((fp.ieee small_sqrt).sub
                (fp.data_zero_variance.eta.getD i (fp.ieee small_sqrt).zero)
                (fp.data_zero_variance.offsets.getD i (fp.ieee small_sqrt).zero))
              ((fp.ieee small_sqrt).div
                ((fp.ieee small_sqrt).sub
                  (fp.data_zero_variance.Ys.getD i (fp.ieee small_sqrt).zero)
                  (fp.data_zero_variance.mu.getD i (fp.ieee small_sqrt).zero))
                (fp.data_zero_variance.family.mu_eta
                  (fp.data_zero_variance.eta.getD i (fp.ieee small_sqrt).zero))))
            ((fp.ieee small_sqrt).sqrt ((fp.ieee small_sqrt).div
              ((fp.ieee small_sqrt).mul
                (fp.data_zero_variance.weights.getD i (fp.ieee small_sqrt).zero)
                ((fp.ieee small_sqrt).mul
                  (fp.data_zero_variance.family.mu_eta
                    (fp.data_zero_variance.eta.getD i (fp.ieee small_sqrt).zero))
                  (fp.data_zero_variance.family.mu_eta
                    (fp.data_zero_variance.eta.getD i (fp.ieee small_sqrt).zero))))
              (fp.data_zero_variance.family.variance
                (fp.data_zero_variance.mu.getD i (fp.ieee small_sqrt).zero))))) :=
  get_chunk_rows (fp.ieee small_sqrt) fp.data_zero_variance 0 2 (by decide) (by decide)
    (by decide) (by decide) (by intro i _ hi; interval_cases i <;> rfl)

/-- C4, as the code has it: for a gaussian family with identity link, a
dimensionally valid design with positive weights whose stacked weighted
design has full rank, `tol > 0`, `1 ≤ it_max` and exact kernels, `compute`
returns the solution `beta` of the weighted normal equations
`X W X^T beta = X W (y - offset)`, where each weight enters `W` as the square
of the square root the code computes for it (so `W` holds the weights
themselves, and `beta` is the weighted least-squares solution, whenever those
roots are exact), and the weighted residual sum of squares `rss` of `beta` as
deviance. The deviance of the initialised `eta` is zero, so the first
convergence test compares `rss` with zero: `n_iter = 1` only when
`rss / (0.1 + rss) < tol`; otherwise a second pass reproduces `beta` and
`rss`, `n_iter = 2`, and `conv` is true exactly when `2 ≤ it_max`. -/
theorem gaussian_fit_is_weighted_least_squares (K : kernels) (X : mat)
    (beta0 Ys weights offsets : vec) (family : glm_base) (tol : ℚ) (nthreads it_max : Nat)
    (trace : Bool) (block_size : Nat)
    (hg : is_gaussian family) (hv : valid_input X beta0 Ys weights offsets)
    (hn : X.n_cols < 2 ^ 63) (hbs : block_size < uword_size)
    (hw : ∀ i, i < X.cols.length → 0 < weights.getD i 0)
    (hK : exact_kernels K X.n_rows)
    (hrank : Matrix.det (wls_matrix X.n_rows X (squared_roots K weights)) ≠ 0)
    (hqr : ∃ cs, (K.qr_compute cs).isSome ∧
      join_chunks X.n_rows cs = gaussian_stack K X.n_rows X weights Ys offsets)
    (htol : 0 < tol) (hit : 1 ≤ it_max) (hmax : it_max < uword_size) :
    ∃ beta rf ev, beta.length = X.n_rows ∧
      Matrix.mulVec (wls_matrix X.n_rows X (squared_roots K weights)) (toVec X.n_rows beta) =
        wls_rhs X.n_rows X (squared_roots K weights) Ys offsets ∧
      ((∀ i, i < X.cols.length →
          K.sqrt (weights.getD i 0) * K.sqrt (weights.getD i 0) = weights.getD i 0) →
        Matrix.mulVec (wls_matrix X.n_rows X weights) (toVec X.n_rows beta) =
          wls_rhs X.n_rows X weights Ys offsets) ∧
      compute K X beta0 Ys weights offsets family tol nthreads it_max trace block_size =
        .ok ({ coefficients := beta, R_F := rf, dev := wls_rss X weights Ys offsets beta,
               n_iter := if wls_rss X weights Ys offsets beta /
                   (1 / 10 + wls_rss X weights Ys offsets beta) < tol then 1 else 2,
               conv := decide (wls_rss X weights Ys offsets beta /
                   (1 / 10 + wls_rss X weights Ys offsets beta) < tol ∨ 2 ≤ it_max) }, ev) := by
  have hok0 := initial_data_ok X beta0 Ys weights offsets family nthreads block_size hv hn hbs
  have hwl : weights.length = X.cols.length := hv.2.1
  obtain ⟨r1, b1, hr1, hb1, hlen1, heq1, hdev1, hold1, hrf1, hf1, hX1, hW1, hY1, hO1, hp1, hok1,
    hmu1⟩ := gaussian_iteration K trace 0
      (initial_state X beta0 Ys weights offsets family nthreads block_size) hg hok0 hw
      (fun h => absurd rfl h) hK hrank hqr
  simp only [↓reduceIte] at hold1
  have hlen1 : b1.length = X.n_rows := hlen1
  have heq1 : Matrix.mulVec (wls_matrix X.n_rows X (squared_roots K weights))
      (toVec X.n_rows b1) = wls_rhs X.n_rows X (squared_roots K weights) Ys offsets := heq1
  have hdev1 : r1.1.dev = wls_rss X weights Ys offsets b1 := hdev1
  have hf1 : r1.1.data.family = family := hf1
  have hX1 : r1.1.data.X = X := hX1
  have hW1 : r1.1.data.weights = weights := hW1
  have hY1 : r1.1.data.Ys = Ys := hY1
  have hO1 : r1.1.data.offsets = offsets := hO1
  have hp1 : r1.1.data.p = X.n_rows := hp1
  have hnn := wls_rss_nonneg X weights Ys offsets b1 hw
  have hex : (∀ i, i < X.cols.length →
        K.sqrt (weights.getD i 0) * K.sqrt (weights.getD i 0) = weights.getD i 0) →
      Matrix.mulVec (wls_matrix X.n_rows X weights) (toVec X.n_rows b1) =
        wls_rhs X.n_rows X weights Ys offsets := by
    intro hs
    obtain ⟨e1, e2⟩ := wls_exact_roots K X.n_rows X weights Ys offsets hwl hs
    rw [← e1, ← e2]
    exact heq1
  rw [compute_valid K X beta0 Ys weights offsets family tol nthreads it_max trace block_size hv]
  obtain ⟨m, rfl⟩ : ∃ m, it_max = m + 1 := ⟨it_max - 1, by omega⟩
  obtain ⟨rf1, hrf1⟩ := Option.isSome_iff_exists.mp hrf1
  have hc1 : converged tol r1.1.dev r1.2 =
      decide (wls_rss X weights Ys offsets b1 / (1 / 10 + wls_rss X weights Ys offsets b1) <
        tol) := by
    rw [hold1, hdev1]; exact converged_first tol _ hnn
  by_cases hconv : wls_rss X weights Ys offsets b1 / (1 / 10 + wls_rss X weights Ys offsets b1) <
      tol
  · refine ⟨b1, rf1, r1.1.events, hlen1, heq1, hex, ?_⟩
    unfold irls_loop
    rw [hr1]
    dsimp only
    rw [hc1]
    simp only [hconv, decide_True, ↓reduceIte, finish, hrf1, hb1, true_or]
    have e1 : uadd 0 1 = 1 := by decide
    have e2 : decide (0 < m + 1) = true := by simp
    rw [e1, e2]
    exact congrArg _ (by rw [hdev1])
  · cases m with
    | zero =>
      refine ⟨b1, rf1, r1.1.events, hlen1, heq1, hex, ?_⟩
      unfold irls_loop
      rw [hr1]
      dsimp only
      rw [hc1]
      simp only [hconv, decide_False, Bool.false_eq_true, ↓reduceIte, irls_loop, finish, hrf1,
        hb1, zero_add, false_or]
      have e1 : uadd 1 1 = 2 := by decide
      have e2 : decide (1 < 1) = false := by decide
      have e3 : decide (2 ≤ 1) = false := by decide
      rw [e1, e2, e3, hdev1]
    | succ m1 =>
      obtain ⟨r2, b2, hr2, hb2, hlen2, heq2, hdev2, hold2, hrf2, -⟩ :=
        gaussian_iteration K trace 1 r1.1 (hf1 ▸ hg) hok1
          (by rw [hX1, hW1]; exact hw) (fun _ => hmu1)
          (by rw [hp1]; exact hK)
          (by rw [hp1, hX1, hW1]; exact hrank)
          (by rw [hp1, hX1, hW1, hY1, hO1]; exact hqr)
      rw [hp1] at hlen2
      rw [hp1, hX1, hW1, hY1, hO1] at heq2
      rw [hX1, hW1, hY1, hO1] at hdev2
      have hb12 : b2 = b1 := wls_unique X.n_rows X (squared_roots K weights) Ys offsets b2 b1
        hrank hlen2 hlen1 heq2 heq1
      subst hb12
      simp only [one_ne_zero, ↓reduceIte] at hold2
      obtain ⟨rf2, hrf2⟩ := Option.isSome_iff_exists.mp hrf2
      refine ⟨b2, rf2, r2.1.events, hlen1, heq1, hex, ?_⟩
      unfold irls_loop
      rw [hr1]
      dsimp only
      rw [hc1]
      simp only [hconv, decide_False, Bool.false_eq_true, ↓reduceIte, zero_add, false_or]
      unfold irls_loop
      rw [hr2]
      dsimp only
      rw [hold2, hdev2, hdev1, converged_same tol _ htol]
      simp only [↓reduceIte, finish, hrf2, hb2]
      have e1 : uadd 1 1 = 2 := by decide
      have e2 : decide (1 < m1 + 1 + 1) = true := by simp
      have e3 : decide (2 ≤ m1 + 1 + 1) = true := by simp
      rw [e1, e2, e3, hdev2]

theorem gaussian_fit_is_weighted_least_squares_witness :
    ∃ beta rf ev, beta.length = X_ones.n_rows ∧
      Matrix.mulVec (wls_matrix X_ones.n_rows X_ones (squared_roots kernels_gram [1, 1]))
          (toVec X_ones.n_rows beta) =
        wls_rhs X_ones.n_rows X_ones (squared_roots kernels_gram [1, 1]) [0, 2] [0, 0] ∧
      ((∀ i, i < X_ones.cols.length →
          kernels_gram.sqrt (([1, 1] : vec).getD i 0) * kernels_gram.sqrt (([1, 1] : vec).getD i 0) =
            ([1, 1] : vec).getD i 0) →
        Matrix.mulVec (wls_matrix X_ones.n_rows X_ones [1, 1]) (toVec X_ones.n_rows beta) =
          wls_rhs X_ones.n_rows X_ones [1, 1] [0, 2] [0, 0]) ∧
      compute kernels_gram X_ones [0] [0, 2] [1, 1] [0, 0] gaussian (1 / 10 ^ 8) 4 25 false 30 =
        .ok ({ coefficients := beta, R_F := rf, dev := wls_rss X_ones [1, 1] [0, 2] [0, 0] beta,
               n_iter := if wls_rss X_ones [1, 1] [0, 2] [0, 0] beta /
                   (1 / 10 + wls_rss X_ones [1, 1] [0, 2] [0, 0] beta) < 1 / 10 ^ 8 then 1 else 2,
               conv := decide (wls_rss X_ones [1, 1] [0, 2] [0, 0] beta /
                   (1 / 10 + wls_rss X_ones [1, 1] [0, 2] [0, 0] beta) < 1 / 10 ^ 8 ∨
                   2 ≤ 25) }, ev) :=
  gaussian_fit_is_weighted_least_squares kernels_gram X_ones [0] [0, 2] [1, 1] [0, 0] gaussian
    (1 / 10 ^ 8) 4 25 false 30
    ⟨fun _ _ => rfl, fun _ => rfl, fun _ => rfl, fun _ => rfl, fun _ _ _ => rfl⟩
    (by decide) (by decide) (by decide)
    (by intro i hi; have hi : i < 2 := hi; interval_cases i <;> decide!)
    kernels_gram_exact
    (by rw [Matrix.det_fin_one]; decide!)
    ⟨[⟨⟨2, [[1, 1]]⟩, [0, 2], ⟨1, [[0]]⟩⟩], by decide!, by decide!⟩
    (by decide!) (by decide) (by decide)

/-- C4 fails as stated: for the gaussian family, the full-rank design
`X = (3 4)` with weights `1, 1`, responses `0, 5`, `tol = 1e-8`,
`it_max = 25` and `block_size = 30`, the fit converges with `n_iter = 2`,
not `1`. -/
theorem gaussian_fit_takes_two_passes :
    (compute kernels_p1 X_two [0] [0, 5] [1, 1] [0, 0] gaussian (1 / 10 ^ 8) 4 25 false 30).map
        (fun r => (r.1.coefficients, r.1.n_iter, r.1.conv)) = .ok ([4 / 5], 2, true) := by
  decide!

/-- C5: for a shared state whose vectors cover the `n` observations
(`n < 2 ^ 63`) and every block size `bs ≥ 1` (a `uword`), the row-wise
concatenation, in block order, of the block work units of the generators
that `get_R_f` submits equals the block work unit generated for the whole
range `[0, n - 1]`, so the stacked weighted least-squares problem is the
same for every block size; and with exact kernels the fits for two block
sizes `bs1` and `bs2` succeed together and return the same coefficients. -/
theorem block_size_is_not_semantic (K : kernels) (data : data_holder_base)
    (hn : data.X.n_cols < 2 ^ 63) (hw : data.X.n_cols ≤ data.weights.length)
    (he : data.X.n_cols ≤ data.eta.length) :
    (∀ bs, 1 ≤ bs → bs < uword_size →
      ∃ gens ev,
        get_R_f_loop data.X.n_cols bs (data.X.n_cols + 1) 0 [] [] = some (gens, ev) ∧
        join_chunks data.p (chunks_of K { data with block_size := bs } gens) =
          ((get_chunk K data 0 (usub data.X.n_cols 1)).X,
            (get_chunk K data 0 (usub data.X.n_cols 1)).Y)) ∧
    (∀ (beta0 : vec) (tol : ℚ) (nthreads it_max : Nat) (trace : Bool) (bs1 bs2 : Nat),
      1 ≤ bs1 → bs1 < uword_size → 1 ≤ bs2 → bs2 < uword_size →
      valid_input data.X beta0 data.Ys data.weights data.offsets →
      exact_kernels K data.X.n_rows →
      ∀ res1 ev1,
        compute K data.X beta0 data.Ys data.weights data.offsets data.family tol nthreads it_max
            trace bs1 = .ok (res1, ev1) →
        ∃ res2 ev2,
          compute K data.X beta0 data.Ys data.weights data.offsets data.family tol nthreads
              it_max trace bs2 = .ok (res2, ev2) ∧
            res2.coefficients = res1.coefficients) := by
  constructor
  · intro bs h1 hbs
    refine ⟨_, _, get_R_f_loop_eq data.X.n_cols bs hn hbs (data.X.n_cols + 1) 0 [] []
      (Nat.zero_le _) (by omega) (fun _ => Or.inl rfl), ?_⟩
    have ht := block_ranges_tiles data.X.n_cols bs hn hbs (data.X.n_cols + 1) 0 (Nat.zero_le _)
      (by omega) (fun _ => Or.inl rfl)
    rw [whole_chunk_eq K data hn hw he]
    have := chunks_join K data data.X.n_cols hn hw he _ 0 ht
    rw [Nat.sub_zero] at this
    simp only [List.nil_append]
    exact this
  · intro beta0 tol nthreads it_max trace bs1 bs2 h1 hb1 h2 hb2 hv hK res1 ev1 hc
    obtain ⟨res2, ev2, hc2, hco, -, -, -⟩ := compute_same K (fun _ => true) data.family tol it_max
      data.X data.X beta0 beta0 data.Ys data.Ys data.weights data.weights data.offsets
      data.offsets nthreads nthreads trace trace bs1 bs2 (negligible_all _) hK hv hv
      ⟨rfl, rfl, ⟨rfl, rfl, rfl, rfl⟩, rfl, rfl,
        initial_data_ok _ _ _ _ _ _ _ _ hv hn hb1, initial_data_ok _ _ _ _ _ _ _ _ hv hn hb2⟩
      res1 ev1 hc
    exact ⟨res2, ev2, hc2, hco⟩

theorem block_size_is_not_semantic_witness :
    ∃ res2 ev2,
      compute kernels_p1 X_two [0] [0, 5] [1, 1] [0, 0] gaussian (1 / 10 ^ 8) 4 25 false 1 =
          .ok (res2, ev2) ∧
        res2.coefficients = [4 / 5] :=
  (block_size_is_not_semantic kernels_p1 data_two (by decide) (by decide) (by decide)).2 [0]
    (1 / 10 ^ 8) 4 25 false 30 1 (by decide) (by decide) (by decide) (by decide) (by decide)
    kernels_p1_exact _ _ fit_two_block30

/-- C6, as the code has it: for a dimensionally valid dataset with fewer than
`2 ^ 63 - 1` observations, a family whose deviance contribution at weight
zero is zero, exact kernels, and every tolerance, iteration cap and block
size, inserting one observation of weight 0 at any position `k` leaves the
outcome of `compute` unchanged: the fit of the enlarged dataset returns if
and only if the fit of the original one does, with the same coefficients. -/
theorem zero_weight_row_has_no_influence (K : kernels) (X : mat)
    (beta0 Ys weights offsets : vec) (family : glm_base) (tol : ℚ) (nthreads it_max : Nat)
    (trace : Bool) (block_size k : Nat) (x_new : List ℚ) (y_new offset_new : ℚ)
    (hv : valid_input X beta0 Ys weights offsets) (hn : X.n_cols + 1 < 2 ^ 63)
    (hbs : block_size < uword_size) (hk : k ≤ X.n_cols)
    (hfam : ∀ y mu, family.dev_resids y mu 0 = 0) (hK : exact_kernels K X.n_rows) :
    (∀ res ev,
      compute K X beta0 Ys weights offsets family tol nthreads it_max trace block_size =
          .ok (res, ev) →
      ∃ res1 ev1,
        compute K ⟨X.n_rows, insert_at X.cols k x_new⟩ beta0 (insert_at Ys k y_new)
            (insert_at weights k 0) (insert_at offsets k offset_new) family tol nthreads it_max
            trace block_size = .ok (res1, ev1) ∧
          res1.coefficients = res.coefficients) ∧
    (∀ res1 ev1,
      compute K ⟨X.n_rows, insert_at X.cols k x_new⟩ beta0 (insert_at Ys k y_new)
          (insert_at weights k 0) (insert_at offsets k offset_new) family tol nthreads it_max
          trace block_size = .ok (res1, ev1) →
      ∃ res ev,
        compute K X beta0 Ys weights offsets family tol nthreads it_max trace block_size =
            .ok (res, ev) ∧
          res.coefficients = res1.coefficients) := by
  have hq := negligible_has_weight family hfam
  obtain ⟨hv1, hv2, hv3, hv4⟩ := hv
  have hv : valid_input X beta0 Ys weights offsets := ⟨hv1, hv2, hv3, hv4⟩
  unfold mat.n_cols at hv2 hv3 hv4 hk hn
  have hvi : valid_input ⟨X.n_rows, insert_at X.cols k x_new⟩ beta0 (insert_at Ys k y_new)
      (insert_at weights k 0) (insert_at offsets k offset_new) := by
    refine ⟨hv1, ?_, ?_, ?_⟩
    · simp only [mat.n_cols, insert_at_length _ _ _ hk, insert_at_length _ _ _ (hv2 ▸ hk), hv2]
    · simp only [mat.n_cols, insert_at_length _ _ _ hk, insert_at_length _ _ _ (hv3 ▸ hk), hv3]
    · simp only [mat.n_cols, insert_at_length _ _ _ hk, insert_at_length _ _ _ (hv4 ▸ hk), hv4]
  have hobs : observations (initial_state ⟨X.n_rows, insert_at X.cols k x_new⟩ beta0
        (insert_at Ys k y_new) (insert_at weights k 0) (insert_at offsets k offset_new) family
        nthreads block_size).data =
      insert_at (observations (initial_state X beta0 Ys weights offsets family nthreads
        block_size).data) k ⟨x_new, y_new, 0, offset_new, 0, 0⟩ :=
    observations_insert _ _ k x_new y_new 0 offset_new hk hv4 hv2 hv3 rfl rfl rfl rfl
      (fun i => getD_replicate_zero _ i) (fun i => getD_replicate_zero _ i)
      (fun i => getD_replicate_zero _ i) (fun i => getD_replicate_zero _ i)
  have hsame : same_state has_weight family X.n_rows
      (initial_state X beta0 Ys weights offsets family nthreads block_size)
      (initial_state ⟨X.n_rows, insert_at X.cols k x_new⟩ beta0 (insert_at Ys k y_new)
        (insert_at weights k 0) (insert_at offsets k offset_new) family nthreads block_size) := by
    refine ⟨rfl, rfl, ⟨rfl, rfl, rfl, ?_⟩, rfl, rfl, ?_, ?_⟩
    · rw [hobs, filter_insert_at has_weight _ _ _ (by simp [has_weight])]
    · exact initial_data_ok _ _ _ _ _ _ _ _ hv (by unfold mat.n_cols; omega) hbs
    · exact initial_data_ok _ _ _ _ _ _ _ _ hvi
        (by simp only [mat.n_cols, insert_at_length _ _ _ hk]; exact hn) hbs
  constructor
  · intro res ev hc
    obtain ⟨res1, ev1, h1, h2, -⟩ := compute_same K has_weight family tol it_max _ _ _ _ _ _ _ _
      _ _ nthreads nthreads trace trace block_size block_size hq hK hv hvi hsame res ev hc
    exact ⟨res1, ev1, h1, h2⟩
  · intro res1 ev1 hc
    obtain ⟨res, ev, h1, h2, -⟩ := compute_same K has_weight family tol it_max
      ⟨X.n_rows, insert_at X.cols k x_new⟩ X beta0 beta0 (insert_at Ys k y_new) Ys
      (insert_at weights k 0) weights (insert_at offsets k offset_new) offsets
      nthreads nthreads trace trace block_size block_size hq hK hvi hv
      (same_state_symm _ _ _ _ _ hsame) res1 ev1 hc
    exact ⟨res, ev, h1, h2⟩

theorem zero_weight_row_has_no_influence_witness :
    ∃ res1 ev1,
      compute kernels_gram ⟨1, insert_at [[1], [1]] 1 [7]⟩ [0] (insert_at [0, 2] 1 1)
          (insert_at [1, 1] 1 0) (insert_at [0, 0] 1 2) gaussian (1 / 10 ^ 8) 4 25 false 30 =
          .ok (res1, ev1) ∧
        res1.coefficients = [1] :=
  (zero_weight_row_has_no_influence kernels_gram X_ones [0] [0, 2] [1, 1] [0, 0] gaussian
    (1 / 10 ^ 8) 4 25 false 30 1 [7] 1 2 (by decide) (by decide) (by decide) (by decide)
    (by intro y mu; simp [gaussian]) kernels_gram_exact).1 _ _ fit_ones_block30

/-- C6 fails as stated: for the family `unweighted_family`, whose deviance
contribution ignores the weight, the fit of one observation stops after the
first pass with the coefficient `5 / 2`, and the fit of the same data with
one observation of weight 0 appended stops after the second pass with the
coefficient `41 / 20`. -/
theorem zero_weight_row_changes_unweighted_fit :
    (compute kernels_p1 ⟨1, [[1]]⟩ [0] [4] [1] [0] unweighted_family 30 1 2 false 1).map
        (fun r => r.1.coefficients) = .ok [5 / 2] ∧
      (compute kernels_p1 ⟨1, insert_at [[1]] 1 [1]⟩ [0] (insert_at [4] 1 (25 / 4))
          (insert_at [1] 1 0) (insert_at [0] 1 0) unweighted_family 30 1 2 false 1).map
        (fun r => r.1.coefficients) = .ok [41 / 20] := by
  decide!

/-! ## The claims on the dispatch round, the solve and the loop counter -/

/-- C11: for every state of a fit (vectors of length `n`, `n < 2 ^ 63`, `beta`
of length `p`) and every block size (a `uword`; the sizes `≥ 1` of the claim
included), `set_eta_n_mu` returns, it leaves the design, the response, the
weights, the offsets and the coefficients as they are, and in the state it
returns every index `i < n` has
`eta[i] = family.initialize(y[i], weight[i])` when `first_it` is true,
`eta[i] = (sum over j < p of X[j, i] * beta[j]) + offset[i]` when `first_it`
is false, and in both cases `mu[i] = family.linkinv(eta[i])`. -/
theorem set_eta_n_mu_sets_eta_and_mu (first_it : Bool) (s : fit_state) (hok : data_ok s.data)
    (hb : s.data.beta.length = s.data.p) :
    ∃ s1 dev, set_eta_n_mu first_it s = .ok (s1, dev) ∧
      s1.data.eta.length = s.data.X.n_cols ∧ s1.data.mu.length = s.data.X.n_cols ∧
      s1.data.X = s.data.X ∧ s1.data.Ys = s.data.Ys ∧ s1.data.weights = s.data.weights ∧
      s1.data.offsets = s.data.offsets ∧ s1.data.beta = s.data.beta ∧
      ∀ i, i < s.data.X.n_cols →
        s1.data.eta.getD i 0 =
          (if first_it then s.data.family.initialise (s.data.Ys.getD i 0) (s.data.weights.getD i 0)
            else (∑ j : Fin s.data.p, (s.data.X.col i).getD j 0 * s.data.beta.getD j 0) +
              s.data.offsets.getD i 0) ∧
        s1.data.mu.getD i 0 = s.data.family.linkinv (s1.data.eta.getD i 0) := by
  obtain ⟨he, hm, -⟩ := round_lengths first_it s.data hok
  refine ⟨_, _, set_eta_n_mu_spec first_it s hok, he, hm, rfl, rfl, rfl, rfl, rfl, ?_⟩
  intro i hi
  refine ⟨?_, mu_all_getD first_it s.data hok i hi⟩
  show (eta_all first_it s.data).getD i 0 = _
  rw [eta_all_getD first_it s.data hok i hi, dot_eq_sum s.data.p _ _ hb]

theorem set_eta_n_mu_sets_eta_and_mu_witness :
    ∃ s1 dev, set_eta_n_mu false state_two = .ok (s1, dev) ∧
      s1.data.eta.length = state_two.data.X.n_cols ∧
      s1.data.mu.length = state_two.data.X.n_cols ∧
      s1.data.X = state_two.data.X ∧ s1.data.Ys = state_two.data.Ys ∧
      s1.data.weights = state_two.data.weights ∧
      s1.data.offsets = state_two.data.offsets ∧ s1.data.beta = state_two.data.beta ∧
      ∀ i, i < state_two.data.X.n_cols →
        s1.data.eta.getD i 0 =
          (if false = true then
              state_two.data.family.initialise (state_two.data.Ys.getD i 0)
                (state_two.data.weights.getD i 0)
            else (∑ j : Fin state_two.data.p,
                (state_two.data.X.col i).getD j 0 * state_two.data.beta.getD j 0) +
              state_two.data.offsets.getD i 0) ∧
        s1.data.mu.getD i 0 = state_two.data.family.linkinv (s1.data.eta.getD i 0) :=
  set_eta_n_mu_sets_eta_and_mu false state_two (by unfold data_ok; decide) (by decide)

/-- C12: for every state of a fit (vectors of length `n`, `n < 2 ^ 63`) there
is one vector `mu` and one number `total`, the sum over the observations
`i < n` of `family.dev_resids(y[i], mu[i], weight[i])`, such that for every
block size (a `uword`; the sizes `≥ 1` of the claim included) the dispatch
loop of `set_eta_n_mu` leaves `mu` in the state, `set_eta_n_mu` returns
`total`, and adding the block partial sums in any other order gives `total`
as well. -/
theorem total_deviance_is_sum_of_contributions (first_it : Bool) (s : fit_state)
    (hok : data_ok s.data) :
    ∃ (mu : vec) (total : ℚ),
      total = ((List.range s.data.X.n_cols).map (fun i =>
        s.data.family.dev_resids (s.data.Ys.getD i 0) (mu.getD i 0)
          (s.data.weights.getD i 0))).sum ∧
      ∀ bs, bs < uword_size →
        ∃ data1 futures ev,
          set_eta_n_mu_loop first_it s.data.X.n_cols (s.data.X.n_cols + 1) 0
              { s.data with block_size := bs } [] s.events = some (data1, futures, ev) ∧
            data1.mu = mu ∧
            set_eta_n_mu first_it { s with data := { s.data with block_size := bs } } =
              .ok ({ data := data1, dev := s.dev, R_f_out := s.R_f_out, events := ev }, total) ∧
            ∀ fs, List.Perm fs futures → join_futures fs = total := by
  refine ⟨mu_all first_it s.data, (dev_all first_it s.data).sum, ?_, ?_⟩
  · rw [dev_all_eq_range first_it s.data hok]
  · intro bs hbs
    have hok1 := data_ok_block_size s.data bs hok hbs
    have hloop := set_eta_n_mu_loop_spec first_it { s.data with block_size := bs } s.events hok1
    have hsum : ((blocks_of { s.data with block_size := bs }).map
        (fun r => (view (dev_all first_it s.data) r.1 (r.2 + 1 - r.1)).sum)).sum =
          (dev_all first_it s.data).sum := by
      have ht := blocks_of_tiles _ hok1
      obtain ⟨-, r2, r3⟩ := run_workers_spec first_it s.data.X.cols.length hok.1
        (blocks_of { s.data with block_size := bs }) 0 { s.data with block_size := bs } ht hok1 rfl
      rw [r2] at r3
      simpa using r3
    refine ⟨_, _, _, hloop, rfl, ?_, ?_⟩
    · rw [set_eta_n_mu_spec first_it _ hok1]
      rfl
    · intro fs hfs
      rw [join_futures_eq_sum, hfs.sum_eq]
      exact hsum

theorem total_deviance_is_sum_of_contributions_witness :
    ∃ (mu : vec) (total : ℚ),
      total = ((List.range state_two.data.X.n_cols).map (fun i =>
        state_two.data.family.dev_resids (state_two.data.Ys.getD i 0) (mu.getD i 0)
          (state_two.data.weights.getD i 0))).sum ∧
      ∀ bs, bs < uword_size →
        ∃ data1 futures ev,
          set_eta_n_mu_loop false state_two.data.X.n_cols (state_two.data.X.n_cols + 1) 0
              { state_two.data with block_size := bs } [] state_two.events =
            some (data1, futures, ev) ∧
            data1.mu = mu ∧
            set_eta_n_mu false { state_two with data := { state_two.data with block_size := bs } } =
              .ok ({ data := data1, dev := state_two.dev, R_f_out := state_two.R_f_out,
                     events := ev }, total) ∧
            ∀ fs, List.Perm fs futures → join_futures fs = total :=
  total_deviance_is_sum_of_contributions false state_two (by unfold data_ok; decide)

/-- C13: in every pass of the loop body in which the factorization returns
`rf` and the factor `R = rf.R_rev_piv()` the driver uses is an invertible
`p` by `p` matrix, with `arma::solve` exact: the first solve returns a `u`
with `R^T u = R^T F0`, where `F0` is the first column of `F`, the second
solve returns a `beta` with `R beta = u`, and that `beta` becomes the
coefficient vector of the state (and of every pass of the loop body that
runs this update); `beta` satisfies the normal equations
`R^T R beta = R^T F0`, it satisfies `R beta = F0`, and it is the only vector
that solves the normal equations. -/
theorem coefficients_solve_normal_equations (K : kernels) (p : Nat) (s s1 : fit_state)
    (rf : R_F) (hK : solve_exact K p) (hg : get_R_f K s = .ok (s1, rf))
    (hrows : (K.R_rev_piv rf).n_rows = p) (hcols : (K.R_rev_piv rf).cols.length = p)
    (hdet : Matrix.det ((K.R_rev_piv rf).toMatrix p) ≠ 0) :
    ∃ u beta : vec,
      K.solve (K.R_rev_piv rf).t ((K.R_rev_piv rf).t.mulVec (rf.F.col 0)) = some u ∧
      K.solve (K.R_rev_piv rf) u = some beta ∧
      update_beta K s =
        .ok { s1 with data := { s1.data with beta := beta }, R_f_out := some rf,
                      events := s1.events ++ [event.solve] ++ [event.solve] } ∧
      (∀ (trace : Bool) (i : Nat) (s0 : fit_state) (r : fit_state × ℚ),
        first_deviance i s0 = .ok s → iteration K trace i s0 = .ok r →
          r.1.data.beta = beta ∧ r.1.R_f_out = some rf) ∧
      beta.length = p ∧
      Matrix.mulVec ((K.R_rev_piv rf).toMatrix p).transpose (toVec p u) =
        Matrix.mulVec ((K.R_rev_piv rf).toMatrix p).transpose (toVec p (rf.F.col 0)) ∧
      Matrix.mulVec ((K.R_rev_piv rf).toMatrix p) (toVec p beta) = toVec p u ∧
      Matrix.mulVec (((K.R_rev_piv rf).toMatrix p).transpose * (K.R_rev_piv rf).toMatrix p)
          (toVec p beta) =
        Matrix.mulVec ((K.R_rev_piv rf).toMatrix p).transpose (toVec p (rf.F.col 0)) ∧
      Matrix.mulVec ((K.R_rev_piv rf).toMatrix p) (toVec p beta) = toVec p (rf.F.col 0) ∧
      ∀ b : Fin p → ℚ,
        Matrix.mulVec (((K.R_rev_piv rf).toMatrix p).transpose * (K.R_rev_piv rf).toMatrix p) b =
          Matrix.mulVec ((K.R_rev_piv rf).toMatrix p).transpose (toVec p (rf.F.col 0)) →
        b = toVec p beta := by
  have ht1 : (K.R_rev_piv rf).t.n_rows = p := hcols
  have ht2 : (K.R_rev_piv rf).t.cols.length = p := by simp [mat.t, mat.rows, hrows]
  have hdt : Matrix.det ((K.R_rev_piv rf).t.toMatrix p) ≠ 0 := by
    rw [toMatrix_t _ _ hrows hcols, Matrix.det_transpose]; exact hdet
  obtain ⟨u, hu, -, hue⟩ := (hK _ ((K.R_rev_piv rf).t.mulVec (rf.F.col 0)) ht1 ht2).1 hdt
  obtain ⟨beta, hb, hbl, hbe⟩ := (hK _ u hrows hcols).1 hdet
  rw [toMatrix_t _ _ hrows hcols, toVec_mulVec _ _ _ ht1 ht2, toMatrix_t _ _ hrows hcols] at hue
  have hinjT := Matrix.mulVec_injective_iff_isUnit.mpr
    ((Matrix.isUnit_iff_isUnit_det _).mpr
      (Ne.isUnit (by rw [Matrix.det_transpose]; exact hdet :
        Matrix.det ((K.R_rev_piv rf).toMatrix p).transpose ≠ 0)))
  have hinj := Matrix.mulVec_injective_iff_isUnit.mpr
    ((Matrix.isUnit_iff_isUnit_det _).mpr (Ne.isUnit hdet))
  have hu0 : toVec p u = toVec p (rf.F.col 0) := hinjT hue
  have hupd : update_beta K s =
      .ok { s1 with data := { s1.data with beta := beta }, R_f_out := some rf,
                    events := s1.events ++ [event.solve] ++ [event.solve] } := by
    unfold update_beta
    rw [hg]
    simp only [solve_step, hu, hb]
  have hne : Matrix.mulVec
      (((K.R_rev_piv rf).toMatrix p).transpose * (K.R_rev_piv rf).toMatrix p) (toVec p beta) =
      Matrix.mulVec ((K.R_rev_piv rf).toMatrix p).transpose (toVec p (rf.F.col 0)) := by
    rw [← Matrix.mulVec_mulVec, hbe, hue]
  refine ⟨u, beta, hu, hb, hupd, ?_, hbl, hue, hbe, hne, by rw [hbe, hu0], ?_⟩
  · intro trace i s0 r hfd hit
    obtain ⟨t1, t2, e1, e2, e3, e4⟩ := iteration_beta K trace i s0 r hit
    rw [hfd] at e1
    cases e1
    rw [hupd] at e2
    cases e2
    exact ⟨e3, e4⟩
  · intro b hbq
    rw [← hne, ← Matrix.mulVec_mulVec, ← Matrix.mulVec_mulVec] at hbq
    exact hinj (hinjT hbq)

theorem coefficients_solve_normal_equations_witness :
    ∃ u beta : vec,
      kernels_p1.solve (kernels_p1.R_rev_piv rf_two).t
          ((kernels_p1.R_rev_piv rf_two).t.mulVec (rf_two.F.col 0)) = some u ∧
      kernels_p1.solve (kernels_p1.R_rev_piv rf_two) u = some beta ∧
      update_beta kernels_p1 state_round =
        .ok { state_round with
                data := { state_round.data with beta := beta }, R_f_out := some rf_two,
                events := [event.generator 0 1, event.qr_factorization] ++ [event.solve] ++
                  [event.solve] } ∧
      (∀ (trace : Bool) (i : Nat) (s0 : fit_state) (r : fit_state × ℚ),
        first_deviance i s0 = .ok state_round → iteration kernels_p1 trace i s0 = .ok r →
          r.1.data.beta = beta ∧ r.1.R_f_out = some rf_two) ∧
      beta.length = 1 ∧
      Matrix.mulVec ((kernels_p1.R_rev_piv rf_two).toMatrix 1).transpose (toVec 1 u) =
        Matrix.mulVec ((kernels_p1.R_rev_piv rf_two).toMatrix 1).transpose
          (toVec 1 (rf_two.F.col 0)) ∧
      Matrix.mulVec ((kernels_p1.R_rev_piv rf_two).toMatrix 1) (toVec 1 beta) = toVec 1 u ∧
      Matrix.mulVec (((kernels_p1.R_rev_piv rf_two).toMatrix 1).transpose *
          (kernels_p1.R_rev_piv rf_two).toMatrix 1) (toVec 1 beta) =
        Matrix.mulVec ((kernels_p1.R_rev_piv rf_two).toMatrix 1).transpose
          (toVec 1 (rf_two.F.col 0)) ∧
      Matrix.mulVec ((kernels_p1.R_rev_piv rf_two).toMatrix 1) (toVec 1 beta) =
        toVec 1 (rf_two.F.col 0) ∧
      ∀ b : Fin 1 → ℚ,
        Matrix.mulVec (((kernels_p1.R_rev_piv rf_two).toMatrix 1).transpose *
            (kernels_p1.R_rev_piv rf_two).toMatrix 1) b =
          Matrix.mulVec ((kernels_p1.R_rev_piv rf_two).toMatrix 1).transpose
            (toVec 1 (rf_two.F.col 0)) →
        b = toVec 1 beta :=
  coefficients_solve_normal_equations kernels_p1 1 state_round _ rf_two kernels_p1_solve_exact
    get_R_f_state_round rfl rfl (by rw [Matrix.det_fin_one]; decide!)

/-- C14: for every block task `worker(first_it, data, i_start, i_end)` with
`i_start ≤ i_end < n`, where `n` (a `uword`) is the length of `eta` and of
`mu`, running the task leaves every `eta[j]` and `mu[j]` with `j` outside
`[i_start, i_end]` as it was, keeps the lengths of `eta` and `mu`, and leaves
`X`, `y`, `weight`, `offset` and `beta` (and the family, `p` and the block
size) unchanged. -/
theorem worker_writes_only_its_range (first_it : Bool) (data : data_holder_base)
    (i_start i_end n : Nat) (h1 : i_start ≤ i_end) (h2 : i_end < n) (hn : n < uword_size)
    (he : data.eta.length = n) (hm : data.mu.length = n) :
    (∀ j, j < i_start ∨ i_end < j →
      (worker first_it data i_start i_end).1.eta[j]? = data.eta[j]? ∧
        (worker first_it data i_start i_end).1.mu[j]? = data.mu[j]?) ∧
      (worker first_it data i_start i_end).1.eta.length = n ∧
      (worker first_it data i_start i_end).1.mu.length = n ∧
      (worker first_it data i_start i_end).1.X = data.X ∧
      (worker first_it data i_start i_end).1.Ys = data.Ys ∧
      (worker first_it data i_start i_end).1.weights = data.weights ∧
      (worker first_it data i_start i_end).1.offsets = data.offsets ∧
      (worker first_it data i_start i_end).1.beta = data.beta ∧
      (worker first_it data i_start i_end).1.family = data.family ∧
      (worker first_it data i_start i_end).1.p = data.p ∧
      (worker first_it data i_start i_end).1.block_size = data.block_size := by
  obtain ⟨eta, mu, e1, e2, l1, l2⟩ := worker_block_lengths first_it data i_start i_end
  have hlen : uadd (usub i_end i_start) 1 = i_end + 1 - i_start := by
    unfold uadd usub uword_size at *
    omega
  rw [hlen] at l1 l2
  obtain ⟨f1, f2, f3, f4, f5, f6, f7, f8, -, -⟩ := worker_frame first_it data i_start i_end
  refine ⟨?_, ?_, ?_, f2, f3, f4, f5, f6, f7, f8, f1⟩
  · intro j hj
    rw [e1, e2]
    exact ⟨write_view_outside _ _ _ i_end (by omega) (by omega) j hj,
      write_view_outside _ _ _ i_end (by omega) (by omega) j hj⟩
  · rw [e1, write_view_length _ _ _ (by omega), he]
  · rw [e2, write_view_length _ _ _ (by omega), hm]

theorem worker_writes_only_its_range_witness :
    (∀ j, j < 1 ∨ 1 < j →
      (worker true data_three 1 1).1.eta[j]? = data_three.eta[j]? ∧
        (worker true data_three 1 1).1.mu[j]? = data_three.mu[j]?) ∧
      (worker true data_three 1 1).1.eta.length = 3 ∧
      (worker true data_three 1 1).1.mu.length = 3 ∧
      (worker true data_three 1 1).1.X = data_three.X ∧
      (worker true data_three 1 1).1.Ys = data_three.Ys ∧
      (worker true data_three 1 1).1.weights = data_three.weights ∧
      (worker true data_three 1 1).1.offsets = data_three.offsets ∧
      (worker true data_three 1 1).1.beta = data_three.beta ∧
      (worker true data_three 1 1).1.family = data_three.family ∧
      (worker true data_three 1 1).1.p = data_three.p ∧
      (worker true data_three 1 1).1.block_size = data_three.block_size :=
  worker_writes_only_its_range true data_three 1 1 3 (by decide) (by decide) (by decide) rfl rfl

/-- C15, as the code has it: in `set_eta_n_mu` (for a state with vectors of
length `n`, `n < 2 ^ 63`) the future of the `k`-th submitted block task holds
the value that task returns on the state at the start of the round, a value
that is the same in every state that differs from that one in `eta` and `mu`
only (so it does not depend on which tasks ran before it), and the join loop
takes the futures from the back of the vector, waiting for each: for every
order `completions` in which the block tasks finish, the partial deviances
are added in the order of the task numbers `m - 1, ..., 1, 0` (last submitted
first), and the total is the same fold of the addition `add` over the
futures, for every addition `add` of two `double`s (the exact one gives the
value `set_eta_n_mu` returns). The summation order is fixed by the block
partition; it is the same in every run on the same input. -/
theorem deviance_join_order_is_fixed (first_it : Bool) (s : fit_state) (hok : data_ok s.data) :
    ∃ data1 futures ev,
      set_eta_n_mu_loop first_it s.data.X.n_cols (s.data.X.n_cols + 1) 0 s.data [] s.events =
        some (data1, futures, ev) ∧
      futures = (blocks_of s.data).map (fun r => (worker first_it s.data r.1 r.2).2) ∧
      (∀ (r : Nat × Nat) (eta mu : vec),
        (worker first_it { s.data with eta := eta, mu := mu } r.1 r.2).2 =
          (worker first_it s.data r.1 r.2).2) ∧
      set_eta_n_mu first_it s =
        .ok ({ s with data := data1, events := ev }, join_futures futures) ∧
      ∀ completions, (∀ k, k < futures.length → k ∈ completions) →
        join_scheduled (fun a b => a + b) futures completions =
            some (join_futures futures, (List.range futures.length).reverse) ∧
          ∀ add, join_scheduled add futures completions =
            some (futures.foldr (fun f dev => add dev f) 0,
              (List.range futures.length).reverse) := by
  have ht := blocks_of_tiles s.data hok
  have hloop := set_eta_n_mu_loop_eq first_it s.data.X.n_cols s.data.block_size hok.1
    hok.2.2.2.2.2.2 (s.data.X.n_cols + 1) 0 s.data [] s.events rfl (Nat.zero_le _) (by omega)
    (fun _ => Or.inl rfl)
  have hv := run_workers_values first_it s.data.X.cols.length hok.1 (blocks_of s.data) 0 s.data ht
    hok rfl
  refine ⟨_, _, _, hloop, ?_, fun _ _ _ => rfl, ?_, ?_⟩
  · rw [List.nil_append]
    exact hv
  · unfold set_eta_n_mu
    dsimp only
    rw [hloop]
  · intro completions hc
    exact ⟨join_scheduled_eq _ _ _ hc, fun add => join_scheduled_eq add _ _ hc⟩

theorem deviance_join_order_is_fixed_witness :
    ∃ data1 futures ev,
      set_eta_n_mu_loop false state_two.data.X.n_cols (state_two.data.X.n_cols + 1) 0
          state_two.data [] state_two.events = some (data1, futures, ev) ∧
      futures =
        (blocks_of state_two.data).map (fun r => (worker false state_two.data r.1 r.2).2) ∧
      (∀ (r : Nat × Nat) (eta mu : vec),
        (worker false { state_two.data with eta := eta, mu := mu } r.1 r.2).2 =
          (worker false state_two.data r.1 r.2).2) ∧
      set_eta_n_mu false state_two =
        .ok ({ state_two with data := data1, events := ev }, join_futures futures) ∧
      ∀ completions, (∀ k, k < futures.length → k ∈ completions) →
        join_scheduled (fun a b => a + b) futures completions =
            some (join_futures futures, (List.range futures.length).reverse) ∧
          ∀ add, join_scheduled add futures completions =
            some (futures.foldr (fun f dev => add dev f) 0,
              (List.range futures.length).reverse) :=
  deviance_join_order_is_fixed false state_two (by unfold data_ok; decide)

/-- C15 fails as stated: for three blocks whose partial deviances are `1`,
`4` and `9`, when the tasks finish in the order `2, 0, 1` the join adds them
in the order `2, 1, 0`, which is not the last-completed-first order
`1, 0, 2`; and when they finish in the order `0, 1, 2` the join adds them in
the same order `2, 1, 0`, also with an addition that is not associative. -/
theorem join_order_is_not_completion_order :
    (set_eta_n_mu_loop false 3 4 0 data_blocks [] []).map (fun r => r.2.1) = some [1, 4, 9] ∧
      join_scheduled (fun a b => a + b) [1, 4, 9] [2, 0, 1] = some (14, [2, 1, 0]) ∧
      [2, 1, 0] ≠ [2, 0, 1].reverse ∧
      join_scheduled (fun a b => a + b) [1, 4, 9] [0, 1, 2] = some (14, [2, 1, 0]) ∧
      join_scheduled (fun a b => 10 * a + b) [1, 4, 9] [2, 0, 1] = some (941, [2, 1, 0]) ∧
      join_scheduled (fun a b => 10 * a + b) [1, 4, 9] [0, 1, 2] = some (941, [2, 1, 0]) := by
  decide!

/-- C16 (the code departs from the claim at `it_max = 0`): for a dimensionally
valid input and an iteration cap `it_max` (a `uword`), with `i` the value of
the loop counter when the iteration loop stops: whenever `compute` returns,
`1 ≤ it_max`, `n_iter = (i + 1) mod 2 ^ 64` and `conv` tells whether
`i < it_max`; if the convergence test first passes in the `k`-th executed
pass (`1 ≤ k ≤ it_max`) then `compute` returns `n_iter = k` and
`conv = true`; if `1 ≤ it_max`, all `it_max` passes run and none passes the
test, then `compute` returns `conv = false` and
`n_iter = (it_max + 1) mod 2 ^ 64`, which is `it_max + 1` unless
`it_max = 2 ^ 64 - 1`; and if `it_max = 0` the call does not return: it ends
in the dereference of the empty `R_f_out`. -/
theorem compute_n_iter_is_stop_index_plus_one (K : kernels) (X : mat)
    (beta0 Ys weights offsets : vec) (family : glm_base) (tol : ℚ) (nthreads it_max : Nat)
    (trace : Bool) (block_size : Nat) (hv : valid_input X beta0 Ys weights offsets)
    (hmax : it_max < uword_size) :
    (∀ res ev,
      compute K X beta0 Ys weights offsets family tol nthreads it_max trace block_size =
          .ok (res, ev) →
      ∃ s i,
        irls_loop K tol trace it_max 0
            (initial_state X beta0 Ys weights offsets family nthreads block_size) = .ok (s, i) ∧
          i ≤ it_max ∧ 1 ≤ it_max ∧ res.n_iter = (i + 1) % 2 ^ 64 ∧
          (res.conv = true ↔ i < it_max)) ∧
    (∀ k, 1 ≤ k → k ≤ it_max →
      conv_at K tol trace (initial_state X beta0 Ys weights offsets family nthreads block_size)
        (k - 1) →
      (∀ j, j < k - 1 → ¬ conv_at K tol trace
        (initial_state X beta0 Ys weights offsets family nthreads block_size) j) →
      ∃ res ev,
        compute K X beta0 Ys weights offsets family tol nthreads it_max trace block_size =
            .ok (res, ev) ∧
          res.n_iter = k ∧ res.conv = true) ∧
    (1 ≤ it_max →
      (∃ s, passes K trace (initial_state X beta0 Ys weights offsets family nthreads block_size)
        it_max = .ok s) →
      (∀ j, j < it_max → ¬ conv_at K tol trace
        (initial_state X beta0 Ys weights offsets family nthreads block_size) j) →
      ∃ res ev,
        compute K X beta0 Ys weights offsets family tol nthreads it_max trace block_size =
            .ok (res, ev) ∧
          res.conv = false ∧ res.n_iter = (it_max + 1) % 2 ^ 64 ∧
          (it_max + 1 < 2 ^ 64 → res.n_iter = it_max + 1)) ∧
    (it_max = 0 →
      compute K X beta0 Ys weights offsets family tol nthreads it_max trace block_size =
        .error (failure.null_dereference, [])) := by
  refine ⟨?_, ?_, ?_, ?_⟩
  · intro res ev hres
    rw [compute_valid K X beta0 Ys weights offsets family tol nthreads it_max trace block_size hv]
      at hres
    split at hres
    · cases hres
    · rename_i r hr
      obtain ⟨-, hb⟩ := irls_loop_sound K tol trace _ it_max 0 _ r rfl hr
      unfold finish at hres
      split at hres
      · cases hres
      · rename_i rf hrf
        cases hres
        refine ⟨r.1, r.2, hr, ?_, ?_, rfl, ?_⟩
        · rcases hb with hb | hb <;> omega
        · by_contra h0
          have h0 : it_max = 0 := by omega
          subst h0
          simp only [irls_loop] at hr
          cases hr
          cases hrf
        · simp only [decide_eq_true_eq]
  · intro k hk1 hk2 hc hmin
    obtain ⟨s1, hs1, hloop⟩ := irls_loop_complete K tol trace
      (initial_state X beta0 Ys weights offsets family nthreads block_size) it_max 0
      (initial_state X beta0 Ys weights offsets family nthreads block_size) (k - 1) rfl
      (Nat.zero_le _) (by omega) hc (fun j _ hj => hmin j hj)
    obtain ⟨rf, hrf⟩ := passes_succ_R_f_out K trace _ (k - 1) s1 hs1
    rw [compute_valid K X beta0 Ys weights offsets family tol nthreads it_max trace block_size hv,
      hloop]
    simp only [finish, hrf]
    refine ⟨_, _, rfl, ?_, ?_⟩
    · show uadd (k - 1) 1 = k
      rw [uadd_one_of_lt _ (by omega)]
      omega
    · show decide (k - 1 < it_max) = true
      simp only [decide_eq_true_eq]
      omega
  · intro h1 hp hno
    obtain ⟨sN, hN⟩ := hp
    have hloop := irls_loop_cap K tol trace
      (initial_state X beta0 Ys weights offsets family nthreads block_size) it_max 0
      (initial_state X beta0 Ys weights offsets family nthreads block_size) sN rfl
      (by rw [Nat.zero_add]; exact hN) (fun j _ hj => hno j (by omega))
    rw [Nat.zero_add] at hloop
    obtain ⟨m, rfl⟩ : ∃ m, it_max = m + 1 := ⟨it_max - 1, by omega⟩
    obtain ⟨rf, hrf⟩ := passes_succ_R_f_out K trace _ m sN hN
    rw [compute_valid K X beta0 Ys weights offsets family tol nthreads (m + 1) trace block_size
      hv, hloop]
    simp only [finish, hrf]
    refine ⟨_, _, rfl, ?_, rfl, ?_⟩
    · show decide (m + 1 < m + 1) = false
      simp
    · intro hlt
      show uadd (m + 1) 1 = m + 1 + 1
      exact uadd_one_of_lt _ hlt
  · intro h0
    subst h0
    rw [compute_valid K X beta0 Ys weights offsets family tol nthreads 0 trace block_size hv]
    rfl

theorem compute_n_iter_is_stop_index_plus_one_witness :
    ∃ s i,
      irls_loop kernels_p1 (1 / 10 ^ 8) false 25 0
          (initial_state X_two [0] [0, 5] [1, 1] [0, 0] gaussian 4 30) = .ok (s, i) ∧
        i ≤ 25 ∧ 1 ≤ 25 ∧ 2 = (i + 1) % 2 ^ 64 ∧ (true = true ↔ i < 25) :=
  (compute_n_iter_is_stop_index_plus_one kernels_p1 X_two [0] [0, 5] [1, 1] [0, 0] gaussian
    (1 / 10 ^ 8) 4 25 false 30 (by decide) (by decide)).1 _ _ fit_two_block30

/-- C17: for every input, every iteration cap (the caps `it_max ≥ 1` of the
claim included) and any two starting vectors `beta0` and `beta1` of the same
length, the two calls of `compute` end the same way: both fail, with the same
failure, or both return, with the same result (coefficients, `R`, pivot, `F`,
deviance, `n_iter` and `conv`); their event lists agree once `beta_old` and
the norm of the change are blanked in the trace line of pass 0, the only
place where the values stored in the starting vector show; and without trace
output the two calls have the same outcome, events included. -/
theorem starting_vector_does_not_influence_fit (K : kernels) (X : mat)
    (beta0 beta1 Ys weights offsets : vec) (family : glm_base) (tol : ℚ) (nthreads it_max : Nat)
    (trace : Bool) (block_size : Nat) (hlen : beta0.length = beta1.length) :
    map_events event.blank
        (compute K X beta0 Ys weights offsets family tol nthreads it_max trace block_size) =
      map_events event.blank
        (compute K X beta1 Ys weights offsets family tol nthreads it_max trace block_size) ∧
    (∀ res ev,
      compute K X beta0 Ys weights offsets family tol nthreads it_max trace block_size =
          .ok (res, ev) →
      ∃ ev1,
        compute K X beta1 Ys weights offsets family tol nthreads it_max trace block_size =
            .ok (res, ev1) ∧
          ev1.map event.blank = ev.map event.blank) ∧
    (trace = false →
      compute K X beta0 Ys weights offsets family tol nthreads it_max trace block_size =
        compute K X beta1 Ys weights offsets family tol nthreads it_max trace block_size) := by
  have key := compute_same_outcome event.blank K X beta0 beta1 Ys weights offsets family tol
    nthreads it_max trace block_size (fun _ _ _ _ _ _ _ => rfl) hlen
  refine ⟨key, ?_, ?_⟩
  · intro res ev hc
    rw [hc] at key
    cases hc1 : compute K X beta1 Ys weights offsets family tol nthreads it_max trace block_size
      with
    | error e =>
      rw [hc1] at key
      cases key
    | ok r =>
      rw [hc1] at key
      have h1 : (res, ev.map event.blank) = (r.1, r.2.map event.blank) := Except.ok.inj key
      have h2 : res = r.1 := congrArg Prod.fst h1
      have h3 : ev.map event.blank = r.2.map event.blank := congrArg Prod.snd h1
      exact ⟨r.2, by rw [h2], h3.symm⟩
  · intro ht
    have hid := compute_same_outcome id K X beta0 beta1 Ys weights offsets family tol nthreads
      it_max trace block_size (fun h => by rw [ht] at h; cases h) hlen
    rw [map_events_id, map_events_id] at hid
    exact hid

theorem starting_vector_does_not_influence_fit_witness :
    ∃ ev1,
      compute kernels_p1 X_two [7] [0, 5] [1, 1] [0, 0] gaussian (1 / 10 ^ 8) 4 25 false 30 =
          .ok ({ coefficients := [4 / 5], R_F := ⟨⟨1, [[5]]⟩, [0], ⟨1, [[4]]⟩, ⟨1, [[0]]⟩⟩,
                 dev := 9, n_iter := 2, conv := true }, ev1) ∧
        ev1.map event.blank =
          [event.worker_task true 0 1, event.generator 0 1, event.qr_factorization, event.solve,
            event.solve, event.worker_task false 0 1, event.generator 0 1,
            event.qr_factorization, event.solve, event.solve,
            event.worker_task false 0 1].map event.blank :=
  (starting_vector_does_not_influence_fit kernels_p1 X_two [0] [7] [0, 5] [1, 1] [0, 0] gaussian
    (1 / 10 ^ 8) 4 25 false 30 rfl).2.1 _ _ fit_two_block30

/-- C18: for every observation count `n < 2 ^ 63` and every block size (a
`uword`, 0 included) the partition loop of `get_R_f` and of `set_eta_n_mu`,
with `i_end = min(n - 1, i_start + block_size - 1)` computed modulo `2 ^ 64`,
ends after at most `n` passes, whatever the fuel from `n` on: both loops go
through the same list `blocks` of ranges `[i_start, i_end]`; in every pass the
next start `i_end + 1` is above `i_start` and at most `n`; for `n = 0` no
block is dispatched, for `block_size = 0` and `n > 0` exactly the one block
`[0, n - 1]`, and for `block_size ≥ 1` the number of blocks is
`ceil(n / block_size) = (n + block_size - 1) div block_size`. -/
theorem partition_loop_terminates (first_it : Bool) (data : data_holder_base) (n : Nat)
    (hn : n < 2 ^ 63) (hbs : data.block_size < uword_size) :
    ∃ blocks : List (Nat × Nat),
      (∀ fuel, n ≤ fuel →
        get_R_f_loop n data.block_size fuel 0 [] [] =
          some (blocks, blocks.map (fun r => event.generator r.1 r.2))) ∧
      (∀ fuel, n ≤ fuel → ∃ data1 futures,
        set_eta_n_mu_loop first_it n fuel 0 data [] [] =
          some (data1, futures, blocks.map (fun r => event.worker_task first_it r.1 r.2))) ∧
      blocks.length ≤ n ∧
      (∀ r ∈ blocks, r.2 = block_end n data.block_size r.1 ∧ r.1 < uadd r.2 1 ∧
        uadd r.2 1 ≤ n) ∧
      List.Chain' (fun r r1 => r1.1 = uadd r.2 1) blocks ∧
      (n = 0 → blocks = []) ∧
      (data.block_size = 0 → 0 < n → blocks = [(0, n - 1)]) ∧
      (1 ≤ data.block_size →
        blocks.length = (n + data.block_size - 1) / data.block_size) := by
  have hfuel : ∀ fuel, n ≤ fuel →
      block_ranges n data.block_size fuel 0 = block_ranges n data.block_size n 0 :=
    fun fuel hf => block_ranges_fuel n data.block_size hn hbs fuel n 0 (by omega) (by omega)
      (fun _ => Or.inl rfl)
  refine ⟨block_ranges n data.block_size n 0, ?_, ?_, block_ranges_length_le _ _ _ _,
    block_ranges_steps n data.block_size hn hbs n 0 (fun _ => Or.inl rfl),
    block_ranges_chain _ _ _ _, ?_, ?_, ?_⟩
  · intro fuel hf
    rw [get_R_f_loop_eq n data.block_size hn hbs fuel 0 [] [] (Nat.zero_le _) (by omega)
      (fun _ => Or.inl rfl), hfuel fuel hf]
    simp
  · intro fuel hf
    rw [set_eta_n_mu_loop_eq first_it n data.block_size hn hbs fuel 0 data [] [] rfl
      (Nat.zero_le _) (by omega) (fun _ => Or.inl rfl), hfuel fuel hf]
    simp only [List.nil_append]
    exact ⟨_, _, rfl⟩
  · intro h0
    subst h0
    rfl
  · intro h0 hpos
    rw [h0]
    exact block_ranges_zero_size n n hn hpos hpos
  · intro h1
    have := block_ranges_count n data.block_size hn hbs h1 n 0 (Nat.zero_le _) (by omega)
      (fun _ => Or.inl rfl)
    rw [Nat.sub_zero] at this
    exact this

theorem partition_loop_terminates_witness :
    ∃ blocks : List (Nat × Nat),
      (∀ fuel, 10 ≤ fuel →
        get_R_f_loop 10 0 fuel 0 [] [] =
          some (blocks, blocks.map (fun r => event.generator r.1 r.2))) ∧
      (∀ fuel, 10 ≤ fuel → ∃ data1 futures,
        set_eta_n_mu_loop true 10 fuel 0
            (data_holder_base.mk0 X_two [0, 5] [1, 1] [0, 0] 4 1 2 gaussian 0) [] [] =
          some (data1, futures, blocks.map (fun r => event.worker_task true r.1 r.2))) ∧
      blocks.length ≤ 10 ∧
      (∀ r ∈ blocks, r.2 = block_end 10 0 r.1 ∧ r.1 < uadd r.2 1 ∧ uadd r.2 1 ≤ 10) ∧
      List.Chain' (fun r r1 => r1.1 = uadd r.2 1) blocks ∧
      (10 = 0 → blocks = []) ∧
      ((0 : Nat) = 0 → 0 < 10 → blocks = [(0, 10 - 1)]) ∧
      (1 ≤ 0 → blocks.length = (10 + 0 - 1) / 0) :=
  partition_loop_terminates true (data_holder_base.mk0 X_two [0, 5] [1, 1] [0, 0] 4 1 2 gaussian 0)
    10 (by decide) (by decide)

end parglm
